import Mathlib

/-!
# dataroma-scraper: the directory parser, the resolver and the portfolio table parser

A shallow embedding of `GetAllInvestors` and `GetInvestorPortfolio`
(`dataroma-scraper.go`), with the helper `parseNumber` and the library calls
they make, followed by the properties of the specification that concern them.

Go strings are modelled as `List Char` (the text of an HTML node is valid
UTF-8, and every operation used here works code point by code point; the
hyphen, the slash, the digits, the point and the label `Updated` are ASCII, so
splitting, cleaning and date reading by code point agree with Go's byte-wise
work on the UTF-8 form).

A `float64` is modelled by the rational it denotes, or an infinity, or NaN;
arithmetic on it rounds to nearest, ties to even, as IEEE 754 binary64 does.
The sign of a zero is not represented; nothing in the program depends on it.

The web is a function from a URL to the outcome of fetching and reading the
page there; of a page, the program sees the items of `#port_body li` and the
rows of `#grid tr`.

The library functions (`strings`, `unicode`, `regexp`, `strconv`, `time`,
goquery's `Each`) are modelled after their documented behaviour, the case and
category tables of `unicode` outside ASCII being a parameter; the functions of
the program are translated line by line.
-/

namespace Dataroma

/-! ## Library: `unicode.IsSpace`, `strings.TrimSpace`, `strings.Split` -/

/-- Go's `unicode.IsSpace`: the Latin-1 spaces `\t \n \v \f \r`, space,
U+0085, U+00A0, and the other code points of the `White_Space` property. -/
def IsSpace (r : Char) : Bool :=
  let n := r.toNat
  (0x09 ≤ n && n ≤ 0x0D) || n == 0x20 || n == 0x85 || n == 0xA0 || n == 0x1680 ||
    (0x2000 ≤ n && n ≤ 0x200A) || n == 0x2028 || n == 0x2029 || n == 0x202F ||
    n == 0x205F || n == 0x3000

/-- Go's `strings.TrimSpace`: the string without its leading and trailing
white space. -/
def TrimSpace (s : List Char) : List Char :=
  (s.dropWhile IsSpace).rdropWhile IsSpace

/-- Scan of `strings.Split` for a one-character separator: `cur` holds, in
reverse, the piece being read; a separator closes the piece. -/
def splitGo (sep : Char) : List Char → List Char → List (List Char)
  | cur, [] => [cur.reverse]
  | cur, c :: cs =>
    if c = sep then cur.reverse :: splitGo sep [] cs else splitGo sep (c :: cur) cs

/-- Go's `strings.Split(s, sep)` for a separator of one character: all the
substrings of `s` between separators, in order (one more than the number of
separators; `[""]` for the empty string). -/
def Split (s : List Char) (sep : Char) : List (List Char) :=
  splitGo sep [] s

/-! ## Library: the regular expression `[^0-9.]` -/

/-- One code point matches the class `[^0-9.]` (a negated class also matches
a newline in Go's syntax). -/
def reNonNumeric (c : Char) : Bool :=
  !(('0' ≤ c && c ≤ '9') || c == '.')

/-- Go's `re.ReplaceAllString(s, repl)` for `re = [^0-9.]`: every match, one
code point each, is replaced by `repl`; the other code points are kept. -/
def ReplaceAllString : List Char → List Char → List Char
  | [], _ => []
  | c :: cs, repl =>
    if reNonNumeric c then repl ++ ReplaceAllString cs repl
    else c :: ReplaceAllString cs repl

/-! ## Library: `float64` and rounding to nearest, ties to even -/

/-- A value of Go's `float64`: a finite number (given by its value), an
infinity with its sign, or NaN. -/
inductive Float64 where
  | finite (q : ℚ)
  | inf (neg : Bool)
  | nan
  deriving DecidableEq

/-- Number of binary digits of `n`, by halving; `fuel` bounds the steps. -/
def bitLenAux : ℕ → ℕ → ℕ
  | 0, _ => 0
  | fuel + 1, n => if n = 0 then 0 else bitLenAux fuel (n / 2) + 1

/-- Number of binary digits of `n` (`0` for `0`). -/
def bitLen (n : ℕ) : ℕ := bitLenAux n n

/-- For `x > 0`, the integer `e` with `2^e ≤ x < 2^(e+1)`. -/
def floorLog2 (x : ℚ) : ℤ :=
  let e0 : ℤ := (bitLen x.num.natAbs : ℤ) - (bitLen x.den : ℤ)
  if (2 : ℚ) ^ e0 ≤ x then e0 else e0 - 1

/-- Nearest integer to `x`, a tie going to the even neighbour. -/
def roundHalfEven (x : ℚ) : ℤ :=
  let f := ⌊x⌋
  let r := x - f
  if r < 1 / 2 then f
  else if 1 / 2 < r then f + 1
  else if f % 2 = 0 then f else f + 1

/-- Spacing of the binary64 grid around `x > 0`: 53 significant bits, and the
subnormal spacing `2^(-1074)` below `2^(-1022)`. -/
def ulp (x : ℚ) : ℚ := 2 ^ (max (floorLog2 x) (-1022) - 52)

/-- For `x ≥ 0`, the multiple of the grid spacing nearest to `x`, ties to the
even multiple (IEEE 754 roundTiesToEven before the range check). -/
def roundMag (x : ℚ) : ℚ :=
  if x = 0 then 0 else roundHalfEven (x / ulp x) * ulp x

/-- The first power of two past the binary64 range, `2^1024`. -/
def overflowBound : ℚ := 2 ^ (1024 : ℤ)

/-- The `float64` nearest to the rational `x`: rounding to nearest, ties to
even, with overflow to an infinity when the rounded magnitude reaches
`2^1024`. -/
def round64 (x : ℚ) : Float64 :=
  let r := roundMag |x|
  if overflowBound ≤ r then Float64.inf (decide (x < 0))
  else Float64.finite (if x < 0 then -r else r)

/-- Go's `x / y` on `float64` (IEEE 754 division, without the sign of zero:
a zero divisor counts as `+0`). -/
def Float64.div : Float64 → Float64 → Float64
  | Float64.nan, _ => Float64.nan
  | _, Float64.nan => Float64.nan
  | Float64.inf _, Float64.inf _ => Float64.nan
  | Float64.inf s, Float64.finite y => Float64.inf (s != decide (y < 0))
  | Float64.finite _, Float64.inf _ => Float64.finite 0
  | Float64.finite x, Float64.finite y =>
    if y = 0 then (if x = 0 then Float64.nan else Float64.inf (decide (x < 0)))
    else round64 (x / y)

/-! ## Library: `strconv.ParseFloat` on digits and points -/

/-- The two errors of `strconv.ParseFloat`. -/
inductive NumError where
  | ErrSyntax
  | ErrRange
  deriving DecidableEq

/-- Variables of the scanning loop of `strconv.readFloat`. The mantissa is
kept whole here (Go keeps 19 digits and a truncation flag, and returns to the
text when the flag matters), so `nd` is also Go's `ndMant`. -/
structure ReadState where
  mantissa : ℕ
  nd : ℕ
  dp : ℤ
  sawdot : Bool
  sawdigits : Bool
  deriving DecidableEq

/-- The scanning loop of `readFloat` in base 10: a point sets `dp`, a leading
zero moves `dp` down, any other digit extends the mantissa; a second point or
any other character ends the loop. Returns the state and the unread rest. -/
def readLoop : ReadState → List Char → ReadState × List Char
  | st, [] => (st, [])
  | st, c :: cs =>
    if c = '.' then
      if st.sawdot then (st, c :: cs)
      else readLoop { st with sawdot := true, dp := st.nd } cs
    else if '0' ≤ c ∧ c ≤ '9' then
      if c = '0' ∧ st.nd = 0 then
        readLoop { st with sawdigits := true, dp := st.dp - 1 } cs
      else
        readLoop { st with sawdigits := true, nd := st.nd + 1,
                           mantissa := st.mantissa * 10 + (c.toNat - '0'.toNat) } cs
    else (st, c :: cs)

/-- The decimal part of `readFloat`: mantissa and decimal exponent of the
numeral read, with the unread rest; `none` when no digit was seen. -/
def readFloat (s : List Char) : Option (ℕ × ℤ × List Char) :=
  let (st, rest) := readLoop ⟨0, 0, 0, false, false⟩ s
  if !st.sawdigits then none
  else
    let dp : ℤ := if !st.sawdot then st.nd else st.dp
    let exp : ℤ := if st.mantissa ≠ 0 then dp - st.nd else 0
    some (st.mantissa, exp, rest)

/-- Go's `strconv.ParseFloat(s, 64)` on a text made of decimal digits and
points, which is every text `parseNumber` hands it (signs, exponents,
hexadecimal forms, underscores and the words `inf` and `nan` need other
characters and are not modelled). A text that is not read whole is a syntax
error with value `0`; a numeral whose nearest `float64` is out of range gives
the infinity with `ErrRange`; otherwise the nearest `float64`, no error. -/
def ParseFloat (s : List Char) : Float64 × Option NumError :=
  match readFloat s with
  | none => (Float64.finite 0, some NumError.ErrSyntax)
  | some (mantissa, exp, rest) =>
    if rest ≠ [] then (Float64.finite 0, some NumError.ErrSyntax)
    else
      match round64 ((mantissa : ℚ) * (10 : ℚ) ^ exp) with
      | Float64.finite q => (Float64.finite q, none)
      | f => (f, some NumError.ErrRange)

/-! ## The program -/

/-- The record type `Portfolio`. -/
structure Portfolio where
  Symbol : List Char
  Name : List Char
  PortfolioWeight : Float64
  Shares : Float64
  CostPrice : Float64
  Value : Float64
  deriving DecidableEq

/-- The helper `parseNumber` (lines 135-144): remove what matches `[^0-9.]`,
parse the rest as a `float64`, and return `0` on any error. -/
def parseNumber (s : List Char) : Float64 :=
  let clean := ReplaceAllString s []
  match ParseFloat clean with
  | (num, none) => num
  | (_, some _) => Float64.finite 0

/-- The iteration `Selection.Each` of goquery: the callback is run on each
matched element, in document order, with the element's index from `i`; the
variable captured by the callback is threaded through as `st`. -/
def Each {α σ : Type} (f : σ → ℕ → α → σ) : ℕ → List α → σ → σ
  | _, [], st => st
  | i, x :: xs, st => Each f (i + 1) xs (f st i x)

/-- The inner callback (lines 120-122): append the trimmed text of a `td`. -/
def appendCell (cells : List (List Char)) (_ : ℕ) (cell : List Char) : List (List Char) :=
  cells ++ [TrimSpace cell]

/-- The callback on the rows of `#grid` (lines 112-157). A row is given by
the texts of its `td` elements; `portfolio` is the slice being built. The
three early returns leave it unchanged; otherwise one entry is appended. -/
def portfolioRow (portfolio : List Portfolio) (i : ℕ) (tds : List (List Char)) :
    List Portfolio :=
  if i = 0 then portfolio
  else
    let cells := Each appendCell 0 tds []
    if h5 : cells.length < 5 then portfolio
    else
      let stockParts := Split cells[0] '-'
      if h2 : stockParts.length ≠ 2 then portfolio
      else
        let entry : Portfolio :=
          { Symbol := TrimSpace stockParts[0]
            Name := TrimSpace stockParts[1]
            PortfolioWeight := (parseNumber cells[1]).div (Float64.finite 100)
            Shares := parseNumber cells[2]
            CostPrice := parseNumber cells[3]
            Value := parseNumber cells[4] }
        portfolio ++ [entry]

deriving instance DecidableEq for Except

/-- The parsing half of `GetInvestorPortfolio` (lines 111-159), on the rows
selected by `#grid tr`: start from the empty slice, run the callback on every
row, and return the slice with a nil error. -/
def portfolioOfRows (rows : List (List (List Char))) : Except String (List Portfolio) :=
  let portfolio := Each portfolioRow 0 rows []
  Except.ok portfolio

/-! ## Vocabulary of the specification -/

/-- The cells of a row, as the specification names them: the trimmed text of
every `td`, in column order. -/
def cellsOf (tds : List (List Char)) : List (List Char) := tds.map TrimSpace

/-- A row that is kept: at least five cells, and cell 0 splits on the hyphen
into exactly two parts. -/
def Retained (tds : List (List Char)) : Prop :=
  5 ≤ (cellsOf tds).length ∧ (Split ((cellsOf tds).getD 0 []) '-').length = 2

instance : DecidablePred Retained := fun tds => by
  unfold Retained; exact inferInstance

/-- The Holding of a kept row, field by field as section 4.3 describes it. -/
def holdingOf (tds : List (List Char)) : Portfolio :=
  let cells := cellsOf tds
  let parts := Split (cells.getD 0 []) '-'
  { Symbol := TrimSpace (parts.getD 0 [])
    Name := TrimSpace (parts.getD 1 [])
    PortfolioWeight := (parseNumber (cells.getD 1 [])).div (Float64.finite 100)
    Shares := parseNumber (cells.getD 2 [])
    CostPrice := parseNumber (cells.getD 3 [])
    Value := parseNumber (cells.getD 4 []) }

/-- The Holdings of the rows after the header: the kept rows, in order, each
turned into its Holding. -/
def holdingsOf (rows : List (List (List Char))) : List Portfolio :=
  (rows.filter (fun r => decide (Retained r))).map holdingOf

/-- The text `t` is `s` without its leading and trailing white space: `s` is
`t` between two runs of white space, and `t` neither starts nor ends with a
white space character. -/
def IsTrimOf (t s : List Char) : Prop :=
  ∃ l r, s = l ++ t ++ r ∧ (∀ c ∈ l, IsSpace c = true) ∧ (∀ c ∈ r, IsSpace c = true) ∧
    (∀ c, t.head? = some c → IsSpace c = false) ∧
    (∀ c, t.getLast? = some c → IsSpace c = false)

/-- The text `s` with every character other than `0`-`9` and `.` deleted. -/
def cleaned (s : List Char) : List Char :=
  s.filter (fun c => c.isDigit || c == '.')

/-- A valid decimal numeral over digits and points: at least one digit, at
most one decimal point. -/
def ValidNumeral (c : List Char) : Prop :=
  (∃ d ∈ c, d.isDigit = true) ∧ c.count '.' ≤ 1

instance : DecidablePred ValidNumeral := fun c => by
  unfold ValidNumeral; exact inferInstance

/-- Value of a run of decimal digits, most significant first. -/
def digitsValue (ds : List Char) : ℕ :=
  ds.foldl (fun n d => 10 * n + (d.toNat - 48)) 0

/-- The numeric value of a decimal numeral: the digits before the point as an
integer, plus the digits after it as a decimal fraction. -/
def numeralValue (c : List Char) : ℚ :=
  let ip := c.takeWhile (fun x => x != '.')
  let fp := (c.dropWhile (fun x => x != '.')).drop 1
  (digitsValue ip : ℚ) + (digitsValue fp : ℚ) / 10 ^ fp.length

/-- The rational `q` is a finite value of binary64: an integer of magnitude
below `2^53` times a power of two with exponent from `-1074` to `971`. -/
def IsFloat64 (q : ℚ) : Prop :=
  ∃ m e : ℤ, |m| < 2 ^ 53 ∧ -1074 ≤ e ∧ e ≤ 971 ∧ q = (m : ℚ) * (2 : ℚ) ^ e

/-- The least value whose nearest `float64` is out of range: the largest
finite `float64` plus half the spacing there, `2^1024 - 2^970`. -/
def rangeLimit : ℚ := 2 ^ (1024 : ℤ) - 2 ^ (970 : ℤ)

/-- What `ParseFloat` returns for a numeral value `v` that was read whole. -/
def parseResult (v : ℚ) : Float64 × Option NumError :=
  match round64 v with
  | Float64.finite q => (Float64.finite q, none)
  | f => (f, some NumError.ErrRange)

/-- The number `parseNumber` makes of a numeral of value `v`: the nearest
`float64` when it is finite, and `0` when the conversion reports a range
error. -/
def numberOf (v : ℚ) : Float64 :=
  match round64 v with
  | Float64.finite q => Float64.finite q
  | _ => Float64.finite 0

/-! ## Example inputs -/

/-- A header row, as on the site: `th` cells only, so no `td` text. -/
def exHeader : List (List Char) := []

/-- A data row: stock, weight, shares, cost, value, and one more column. -/
def exRow : List (List Char) :=
  [" AAPL - Apple Inc. ".toList, "12.34%".toList, "1,000".toList, "$1,234.56".toList,
    "N/A".toList, "extra".toList]

/-- The Holding of `exRow`; each number is the `float64` written so in Go. -/
def exHolding : Portfolio :=
  { Symbol := "AAPL".toList
    Name := "Apple Inc.".toList
    PortfolioWeight := round64 (1234 / 10000)
    Shares := round64 1000
    CostPrice := round64 (123456 / 100)
    Value := Float64.finite 0 }

/-- A cell holding a numeral of 310 digits, `1` followed by 309 zeros, after
a currency sign: its value `10^309` is past the range of `float64`. -/
def exBig : List Char := '$' :: '1' :: List.replicate 309 '0'

/-! ## Library: `strings.Split` on a word, `strings.Contains`, `strings.ToLower`, `strings.Title` -/

/-- Scan of `strings.Split` for a separator of one character or more: `cur`
holds, in reverse, the piece being read; where the separator starts, the piece
is closed and the rest of the separator (`skip` characters) is passed over, so
the occurrences taken are the leftmost ones and do not overlap. -/
def splitWordGo (sep : List Char) : ℕ → List Char → List Char → List (List Char)
  | _, cur, [] => [cur.reverse]
  | skip + 1, cur, _ :: cs => splitWordGo sep skip cur cs
  | 0, cur, c :: cs =>
    if sep.isPrefixOf (c :: cs) then cur.reverse :: splitWordGo sep (sep.length - 1) [] cs
    else splitWordGo sep 0 (c :: cur) cs

/-- Go's `strings.Split(s, sep)` for a non-empty separator `sep`: the
substrings of `s` between the occurrences of `sep`, found from the left. -/
def SplitWord (s sep : List Char) : List (List Char) :=
  splitWordGo sep 0 [] s

/-- Go's `strings.Contains(s, substr)`: `substr` starts at some position of
`s`. -/
def Contains : List Char → List Char → Bool
  | [], substr => substr.isPrefixOf []
  | c :: cs, substr => substr.isPrefixOf (c :: cs) || Contains cs substr

/-- The tables of package `unicode` outside ASCII, which the program reaches
through `strings.ToLower` and `strings.Title`: the lower-case and title-case
mappings, and the letter and digit categories. -/
structure UnicodeTables where
  lower : Char → Char
  title : Char → Char
  letter : Char → Bool
  digit : Char → Bool

/-- Go's `unicode.ToLower`: `A`-`Z` move to `a`-`z`, the rest of ASCII is
kept, and other code points follow the table. -/
def ToLowerRune (U : UnicodeTables) (r : Char) : Char :=
  if r.toNat ≤ 0x7F then
    if 'A' ≤ r ∧ r ≤ 'Z' then Char.ofNat (r.toNat + ('a'.toNat - 'A'.toNat)) else r
  else U.lower r

/-- Go's `unicode.ToTitle`: `a`-`z` move to `A`-`Z`, the rest of ASCII is
kept, and other code points follow the table. -/
def ToTitleRune (U : UnicodeTables) (r : Char) : Char :=
  if r.toNat ≤ 0x7F then
    if 'a' ≤ r ∧ r ≤ 'z' then Char.ofNat (r.toNat - ('a'.toNat - 'A'.toNat)) else r
  else U.title r

/-- Go's `strings.ToLower`: every code point mapped by `unicode.ToLower`. -/
def ToLower (U : UnicodeTables) (s : List Char) : List Char :=
  s.map (ToLowerRune U)

/-- The word-boundary test `isSeparator` of package `strings`: in ASCII,
everything but letters, digits and the underscore; elsewhere, white space that
is neither a letter nor a digit. -/
def isSeparator (U : UnicodeTables) (r : Char) : Bool :=
  if r.toNat ≤ 0x7F then
    if '0' ≤ r ∧ r ≤ '9' then false
    else if 'a' ≤ r ∧ r ≤ 'z' then false
    else if 'A' ≤ r ∧ r ≤ 'Z' then false
    else if r = '_' then false
    else true
  else if U.letter r || U.digit r then false
  else IsSpace r

/-- The mapping closure of `strings.Title`, with its variable `prev`: a code
point that follows a separator is mapped to title case; `prev` becomes the
code point read, before mapping. -/
def titleGo (U : UnicodeTables) : Char → List Char → List Char
  | _, [] => []
  | prev, r :: rs =>
    (if isSeparator U prev then ToTitleRune U r else r) :: titleGo U r rs

/-- Go's `strings.Title`: `prev` starts as a space. -/
def Title (U : UnicodeTables) (s : List Char) : List Char :=
  titleGo U ' ' s

/-! ## Library: `time.Parse` with the layout `02/01/2006` -/

/-- A value of `time.Time` as `time.Parse` makes it from a date without clock
or zone: the year, month and day, at midnight UTC. -/
structure Time where
  year : ℕ
  month : ℕ
  day : ℕ
  deriving DecidableEq

/-- The ways `time.Parse` fails on this layout. -/
inductive ParseError where
  | bad
  | monthOutOfRange
  | extraText
  | dayOutOfRange
  deriving DecidableEq

/-- The test `isDigit(s, i)` of package `time`: `s` has a decimal digit at
index `i`. -/
def isDigit (s : List Char) (i : ℕ) : Bool :=
  if s.length ≤ i then false
  else
    let c := s.getD i '0'
    decide ('0' ≤ c ∧ c ≤ '9')

/-- The function `getnum(s, fixed)` of package `time`: a number of one or two
digits at the start of `s`, of exactly two when `fixed`; returns the number
and the rest. -/
def getnum (s : List Char) (fixed : Bool) : Option (ℕ × List Char) :=
  if !isDigit s 0 then none
  else if !isDigit s 1 then
    if fixed then none else some ((s.getD 0 '0').toNat - '0'.toNat, s.drop 1)
  else
    some (((s.getD 0 '0').toNat - '0'.toNat) * 10 + ((s.getD 1 '0').toNat - '0'.toNat),
      s.drop 2)

/-- The function `skip(value, prefix)` of package `time` for a prefix without
spaces (the prefixes of this layout are `/`): `value` must start with the
prefix, which is removed. -/
def skip : List Char → List Char → Option (List Char)
  | value, [] => some value
  | [], _ :: _ => none
  | v :: value, p :: pre => if v ≠ p then none else skip value pre

/-- The function `atoi` of package `time` on a text that starts with a digit:
the text must be digits only, and is read in base 10. -/
def atoi (s : List Char) : Option ℕ :=
  if s.all (fun c => decide ('0' ≤ c ∧ c ≤ '9')) then
    some (s.foldl (fun x c => x * 10 + (c.toNat - '0'.toNat)) 0)
  else none

/-- The leap year test `isLeap` of package `time`. -/
def isLeap (year : ℕ) : Bool :=
  year % 4 == 0 && (year % 100 != 0 || year % 400 == 0)

/-- The table `daysBefore` of package `time`: days of a common year before
the end of each month, from `0`. -/
def daysBefore : List ℕ :=
  [0, 31, 31 + 28, 31 + 28 + 31, 31 + 28 + 31 + 30, 31 + 28 + 31 + 30 + 31,
    31 + 28 + 31 + 30 + 31 + 30, 31 + 28 + 31 + 30 + 31 + 30 + 31,
    31 + 28 + 31 + 30 + 31 + 30 + 31 + 31, 31 + 28 + 31 + 30 + 31 + 30 + 31 + 31 + 30,
    31 + 28 + 31 + 30 + 31 + 30 + 31 + 31 + 30 + 31,
    31 + 28 + 31 + 30 + 31 + 30 + 31 + 31 + 30 + 31 + 30,
    31 + 28 + 31 + 30 + 31 + 30 + 31 + 31 + 30 + 31 + 30 + 31]

/-- The function `daysIn(m, year)` of package `time`, for `m` from 1 to 12. -/
def daysIn (m year : ℕ) : ℕ :=
  if m = 2 ∧ isLeap year then 29
  else daysBefore.getD m 0 - daysBefore.getD (m - 1) 0

/-- Go's `time.Parse("02/01/2006", value)`. The layout is the chunks `02`
(day, two digits), `/`, `01` (month, two digits), `/`, `2006` (year, four
digits), taken in turn from the front of `value`; a month outside 1-12 is a
range error as soon as it is read; text left after the year is an error; the
day is checked against the month and year at the end. -/
def Parse (value : List Char) : Except ParseError Time :=
  match getnum value true with
  | none => Except.error ParseError.bad
  | some (day, value) =>
    match skip value ['/'] with
    | none => Except.error ParseError.bad
    | some value =>
      match getnum value true with
      | none => Except.error ParseError.bad
      | some (month, value) =>
        if month ≤ 0 ∨ 12 < month then Except.error ParseError.monthOutOfRange
        else
          match skip value ['/'] with
          | none => Except.error ParseError.bad
          | some value =>
            if value.length < 4 ∨ !isDigit value 0 then Except.error ParseError.bad
            else
              match atoi (value.take 4) with
              | none => Except.error ParseError.bad
              | some year =>
                let value := value.drop 4
                if value.length ≠ 0 then Except.error ParseError.extraText
                else if day < 1 ∨ day > daysIn month year then
                  Except.error ParseError.dayOutOfRange
                else Except.ok { year := year, month := month, day := day }

/-! ## The program: the directory and the resolver -/

/-- The record type `Investor`. -/
structure Investor where
  Name : List Char
  UpdateDate : Time
  URL : List Char
  deriving DecidableEq

/-- What the program reads of an element matched by `#port_body li`: its
text, `s.Text()`, and the `href` of its anchor, `s.Find("a").Attr("href")`,
absent when there is no anchor or no such attribute. -/
structure ListItem where
  Text : List Char
  href : Option (List Char)
  deriving DecidableEq

/-- What the program reads of a parsed page: the elements matched by
`#port_body li` and the rows matched by `#grid tr`, each in document order. -/
structure Document where
  portBody : List ListItem
  grid : List (List (List Char))

/-- The outcome of `http.Get` followed by `goquery.NewDocumentFromReader`:
a failure of one or the other, with its message, or the parsed page. -/
inductive Fetched where
  | getFailed (err : String)
  | readFailed (err : String)
  | page (doc : Document)

/-- The callback on the items of `#port_body li` (lines 45-72); `investors`
is the slice being built. The three early returns leave it unchanged (the log
line written at a date error is no part of the result and is left out);
otherwise one record is appended. -/
def investorItem (investors : List Investor) (_ : ℕ) (s : ListItem) : List Investor :=
  let text := TrimSpace s.Text
  let parts := SplitWord text "Updated".toList
  if h : parts.length ≠ 2 then investors
  else
    let name := TrimSpace parts[0]
    let dateStr := TrimSpace parts[1]
    match Parse dateStr with
    | Except.error _ => investors
    | Except.ok date =>
      match s.href with
      | none => investors
      | some href =>
        investors ++ [{ Name := name
                        UpdateDate := date
                        URL := "https://www.dataroma.com".toList ++ href }]

/-- The parsing half of `GetAllInvestors` (lines 44-74), on the items
selected by `#port_body li`: start from the empty slice, run the callback on
every item, and return the slice with a nil error. -/
def investorsOfItems (items : List ListItem) : Except String (List Investor) :=
  let investors := Each investorItem 0 items []
  Except.ok investors

/-- The function `GetAllInvestors` (lines 31-75); `web` gives the outcome of
fetching and reading the page at a URL. -/
def GetAllInvestors (web : List Char → Fetched) : Except String (List Investor) :=
  let url := "https://www.dataroma.com/m/home.php".toList
  match web url with
  | Fetched.getFailed err => Except.error ("failed to fetch URL: " ++ err)
  | Fetched.readFailed err => Except.error ("failed to parse HTML: " ++ err)
  | Fetched.page doc => investorsOfItems doc.portBody

/-- The search loop of `GetInvestorPortfolio` (lines 88-93): `investorURL`
becomes the URL of the first investor whose name contains `name`, and the
loop ends there. -/
def findInvestor (name : List Char) : List Char → List Investor → List Char
  | investorURL, [] => investorURL
  | investorURL, inv :: rest =>
    if Contains inv.Name name then inv.URL else findInvestor name investorURL rest

/-- The resolving part of `GetInvestorPortfolio` (lines 85-97): normalize the
name, search the directory, and fail when `investorURL` is still empty. -/
def resolveInvestor (U : UnicodeTables) (investors : List Investor) (name : List Char) :
    Except String (List Char) :=
  let name := Title U (ToLower U name)
  let investorURL := findInvestor name [] investors
  if investorURL = [] then
    Except.error ("investor " ++ String.mk name ++ " not found")
  else Except.ok investorURL

/-- The second half of `GetInvestorPortfolio` (lines 99-159): fetch and read
the page of the investor, then parse its table. -/
def portfolioAt (web : List Char → Fetched) (investorURL : List Char) :
    Except String (List Portfolio) :=
  match web investorURL with
  | Fetched.getFailed err => Except.error ("failed to fetch portfolio: " ++ err)
  | Fetched.readFailed err => Except.error ("failed to parse portfolio HTML: " ++ err)
  | Fetched.page doc => portfolioOfRows doc.grid

/-- The function `GetInvestorPortfolio` (lines 78-160): the directory, the
resolver, and the page of the investor found. -/
def GetInvestorPortfolio (U : UnicodeTables) (web : List Char → Fetched) (name : List Char) :
    Except String (List Portfolio) :=
  match GetAllInvestors web with
  | Except.error err => Except.error err
  | Except.ok investors =>
    match resolveInvestor U investors name with
    | Except.error err => Except.error err
    | Except.ok investorURL => portfolioAt web investorURL

/-! ## Vocabulary of the specification: dates, listing items, matching -/

/-- The decimal digit of the units of `n`, as a character. -/
def digitChar (n : ℕ) : Char := Char.ofNat ('0'.toNat + n % 10)

/-- The last two decimal digits of `n`. -/
def twoDigits (n : ℕ) : List Char := [digitChar (n / 10), digitChar n]

/-- The last four decimal digits of `n`. -/
def fourDigits (n : ℕ) : List Char :=
  [digitChar (n / 1000), digitChar (n / 100), digitChar (n / 10), digitChar n]

/-- The text of the form `DD/MM/YYYY` for day `d`, month `m` and year `y`:
two digits, a slash, two digits, a slash, four digits. -/
def dateText (d m y : ℕ) : List Char :=
  twoDigits d ++ '/' :: (twoDigits m ++ '/' :: fourDigits y)

/-- Length of month `m` in year `y` of the Gregorian calendar. -/
def monthLength (y m : ℕ) : ℕ :=
  if m = 2 then (if y % 4 = 0 ∧ (y % 100 ≠ 0 ∨ y % 400 = 0) then 29 else 28)
  else if m = 4 ∨ m = 6 ∨ m = 9 ∨ m = 11 then 30
  else 31

/-- The day `d` of month `m` of year `y` exists, with a year of four
digits. -/
def ExistingDate (y m d : ℕ) : Prop :=
  y ≤ 9999 ∧ 1 ≤ m ∧ m ≤ 12 ∧ 1 ≤ d ∧ d ≤ monthLength y m

instance (y m d : ℕ) : Decidable (ExistingDate y m d) := by
  unfold ExistingDate; exact inferInstance

/-- The date a text `DD/MM/YYYY` denotes, read by position. -/
def dateValue (t : List Char) : Time :=
  { year := digitsValue ((t.drop 6).take 4)
    month := digitsValue ((t.drop 3).take 2)
    day := digitsValue (t.take 2) }

/-- The text has the exact form `DD/MM/YYYY` and denotes an existing date: it
is the text `DD/MM/YYYY` of the day, month and year read from it by position,
and that day exists. -/
def IsDateText (t : List Char) : Prop :=
  ExistingDate (dateValue t).year (dateValue t).month (dateValue t).day ∧
    t = dateText (dateValue t).day (dateValue t).month (dateValue t).year

instance : DecidablePred IsDateText := fun t => by
  unfold IsDateText; exact inferInstance

/-- The text in month/day/year layout, `MM/DD/YYYY`, of day `d`, month `m`
and year `y`. -/
def monthFirstText (d m y : ℕ) : List Char := dateText m d y

/-- The two segments of a listing item: its trimmed text split on the label
`Updated`. -/
def segments (s : ListItem) : List (List Char) :=
  SplitWord (TrimSpace s.Text) "Updated".toList

/-- A well-formed listing item: the trimmed text splits on `Updated` into
exactly two segments, the trimmed right segment is a `DD/MM/YYYY` text of an
existing date, and the anchor has an `href`. -/
def WellFormedItem (s : ListItem) : Prop :=
  (segments s).length = 2 ∧ IsDateText (TrimSpace ((segments s).getD 1 [])) ∧
    s.href.isSome = true

instance : DecidablePred WellFormedItem := fun s => by
  unfold WellFormedItem; exact inferInstance

/-- The Investor of a well-formed item, field by field as section 4.1
describes it. -/
def investorOf (s : ListItem) : Investor :=
  { Name := TrimSpace ((segments s).getD 0 [])
    UpdateDate := dateValue (TrimSpace ((segments s).getD 1 []))
    URL := "https://www.dataroma.com".toList ++ s.href.getD [] }

/-- The Investors of a sequence of items: the well-formed ones, in order,
each turned into its record. -/
def investorsOf (items : List ListItem) : List Investor :=
  (items.filter (fun s => decide (WellFormedItem s))).map investorOf

/-- The fragment as the resolver compares it: lower-cased, then title-cased. -/
def normalized (U : UnicodeTables) (fragment : List Char) : List Char :=
  Title U (ToLower U fragment)

/-- The investor's name contains the normalized fragment as a substring. -/
def Matches (U : UnicodeTables) (fragment : List Char) (inv : Investor) : Prop :=
  normalized U fragment <:+: inv.Name

instance (U : UnicodeTables) (fragment : List Char) : DecidablePred (Matches U fragment) :=
  fun inv => by unfold Matches; exact inferInstance

/-- The name contains the fragment as a substring when letter case is
ignored: the lower-cased name contains the lower-cased fragment. -/
def ContainsIgnoringCase (U : UnicodeTables) (name fragment : List Char) : Prop :=
  ToLower U fragment <:+: ToLower U name

instance (U : UnicodeTables) (name fragment : List Char) :
    Decidable (ContainsIgnoringCase U name fragment) := by
  unfold ContainsIgnoringCase; exact inferInstance

/-- The error of the resolver for a fragment: `investor ... not found`, with
the normalized fragment. -/
def notFound (U : UnicodeTables) (fragment : List Char) : String :=
  "investor " ++ String.mk (normalized U fragment) ++ " not found"

/-- Tables that leave every code point outside ASCII as it is and count none
as a letter or digit; the examples are ASCII texts, on which no table is
consulted. -/
def exTables : UnicodeTables :=
  { lower := id, title := id, letter := fun _ => false, digit := fun _ => false }

/-- A site on which the home page lists `items` and every other URL gives
a page with the table `rows`. -/
def exWeb (items : List ListItem) (rows : List (List (List Char))) : List Char → Fetched :=
  fun url =>
    if url = "https://www.dataroma.com/m/home.php".toList then
      Fetched.page { portBody := items, grid := [] }
    else Fetched.page { portBody := [], grid := rows }

/-- A listing item as on the site: name and firm, the label, the date; with
its link. -/
def exItem : ListItem :=
  { Text := " Bill Ackman - Pershing Square Capital Management Updated 14/08/2024 ".toList
    href := some "/m/holdings.php?m=psc".toList }

/-- The Investor of `exItem`. -/
def exInvestor : Investor :=
  { Name := "Bill Ackman - Pershing Square Capital Management".toList
    UpdateDate := { year := 2024, month := 8, day := 14 }
    URL := "https://www.dataroma.com/m/holdings.php?m=psc".toList }

/-- A second well-formed item. -/
def exItem2 : ListItem :=
  { Text := "Warren Buffett - Berkshire Hathaway Updated 15/05/2024".toList
    href := some "/m/holdings.php?m=BRK".toList }

/-- The Investor of `exItem2`. -/
def exInvestor2 : Investor :=
  { Name := "Warren Buffett - Berkshire Hathaway".toList
    UpdateDate := { year := 2024, month := 5, day := 15 }
    URL := "https://www.dataroma.com/m/holdings.php?m=BRK".toList }

/-! ## Vocabulary of the specification: kept rows, listed items and words, said without the splits and the case mappings of the program -/

/-- A row that is kept, said without `Split`: five cells or more, and exactly
one hyphen in the trimmed text of cell 0. -/
def KeptRow (tds : List (List Char)) : Prop :=
  5 ≤ tds.length ∧ (TrimSpace (tds.getD 0 [])).count '-' = 1

instance : DecidablePred KeptRow := fun tds => by
  unfold KeptRow; exact inferInstance

/-- The text before the first hyphen. -/
def beforeHyphen (c : List Char) : List Char :=
  c.takeWhile (fun x => x != '-')

/-- The text after the first hyphen. -/
def afterHyphen (c : List Char) : List Char :=
  (c.dropWhile (fun x => x != '-')).drop 1

/-- The Holding of a kept row, read from the texts of its first five `td`
elements: the trimmed texts around the hyphen of cell 0, and the numbers of
cells 1 to 4, the first divided by 100. -/
def rowHolding (tds : List (List Char)) : Portfolio :=
  { Symbol := TrimSpace (beforeHyphen (TrimSpace (tds.getD 0 [])))
    Name := TrimSpace (afterHyphen (TrimSpace (tds.getD 0 [])))
    PortfolioWeight := (parseNumber (TrimSpace (tds.getD 1 []))).div (Float64.finite 100)
    Shares := parseNumber (TrimSpace (tds.getD 2 []))
    CostPrice := parseNumber (TrimSpace (tds.getD 3 []))
    Value := parseNumber (TrimSpace (tds.getD 4 [])) }

/-- A second data row. -/
def exRow2 : List (List Char) :=
  ["MSFT - Microsoft Corp.".toList, "5%".toList, "200".toList, "$300".toList, "60,000".toList]

/-- The Holding of `exRow2`. -/
def exHolding2 : Portfolio :=
  { Symbol := "MSFT".toList
    Name := "Microsoft Corp.".toList
    PortfolioWeight := round64 (5 / 100)
    Shares := Float64.finite 200
    CostPrice := Float64.finite 300
    Value := Float64.finite 60000 }

/-- A table: a header, `exRow`, a row with two hyphens in cell 0, a row of
four cells, a row without hyphen, `exRow2`, and `exRow` again. -/
def exTable : List (List (List Char)) :=
  [exHeader, exRow,
    ["BRK-B - Berkshire".toList, "1%".toList, "2".toList, "3".toList, "4".toList],
    ["KO - Coke".toList, "1%".toList, "2".toList, "3".toList],
    ["Apple Inc.".toList, "1%".toList, "2".toList, "3".toList, "4".toList],
    exRow2, exRow]

/-- The item `s` lists the investor `inv`, said without the split: the anchor
has a link; the trimmed text is a left part, the label `Updated` and a right
part, the label in neither part; the trimmed right part is the `DD/MM/YYYY`
text of an existing date; and `inv` has the trimmed left part as Name, that
date as UpdateDate, and the site followed by the link as URL. -/
def ListedAs (s : ListItem) (inv : Investor) : Prop :=
  ∃ (href l r : List Char) (d m y : ℕ), s.href = some href ∧
    TrimSpace s.Text = l ++ ("Updated".toList ++ r) ∧
    ¬ "Updated".toList <:+: l ∧ ¬ "Updated".toList <:+: r ∧
    ExistingDate y m d ∧ TrimSpace r = dateText d m y ∧
    inv = { Name := TrimSpace l
            UpdateDate := { year := y, month := m, day := d }
            URL := "https://www.dataroma.com".toList ++ href }

/-- A listing: `exItem2`, an item without the label, `exItem`, an item dated
31 February, an item without link, an item with the label twice, an item
dated month first, and `exItem` again. -/
def exListing : List ListItem :=
  [exItem2,
    { Text := "No label here".toList, href := some "/m/holdings.php?m=a".toList },
    exItem,
    { Text := "Some Fund Updated 31/02/2023".toList, href := some "/m/holdings.php?m=b".toList },
    { Text := "Other Fund Updated 01/01/2024".toList, href := none },
    { Text := "A Updated B Updated 01/01/2024".toList, href := some "/m/holdings.php?m=c".toList },
    { Text := "Late Fund Updated 08/14/2024".toList, href := some "/m/holdings.php?m=d".toList },
    exItem]

/-- A word with its first character in upper case and the others in lower
case. -/
def capitalize : List Char → List Char
  | [] => []
  | c :: cs => c.toUpper :: cs.map Char.toLower

/-- The words, one space between two of them. -/
def joinWords : List (List Char) → List Char
  | [] => []
  | [w] => w
  | w :: v :: ws => w ++ ' ' :: joinWords (v :: ws)

/-- A third well-formed item, whose name also holds `Ackman`. -/
def exItem3 : ListItem :=
  { Text := "Jane Ackman - Ackman Family Office Updated 01/02/2023".toList
    href := some "/m/holdings.php?m=afo".toList }

/-- The Investor of `exItem3`. -/
def exInvestor3 : Investor :=
  { Name := "Jane Ackman - Ackman Family Office".toList
    UpdateDate := { year := 2023, month := 2, day := 1 }
    URL := "https://www.dataroma.com/m/holdings.php?m=afo".toList }

/-! ## Lemmas on the row loop -/

theorem each_appendCell (tds : List (List Char)) (i : ℕ) (acc : List (List Char)) :
    Each appendCell i tds acc = acc ++ cellsOf tds := by
  induction tds generalizing i acc with
  | nil => simp [Each, cellsOf]
  | cons t ts ih => simp [Each, ih, appendCell, cellsOf]

theorem portfolioRow_zero (p : List Portfolio) (tds : List (List Char)) :
    portfolioRow p 0 tds = p := by
  simp [portfolioRow]

theorem portfolioRow_pos (p : List Portfolio) (i : ℕ) (tds : List (List Char)) (hi : i ≠ 0) :
    portfolioRow p i tds = if Retained tds then p ++ [holdingOf tds] else p := by
  unfold portfolioRow
  rw [if_neg hi]
  simp only [each_appendCell, List.nil_append]
  by_cases h5 : (cellsOf tds).length < 5
  · rw [dif_pos h5, if_neg]
    intro h
    exact absurd h.1 (by omega)
  · rw [dif_neg h5]
    have h0 : (cellsOf tds)[0] = (cellsOf tds).getD 0 [] := by
      rw [List.getD_eq_getElem _ _ (by omega)]
    by_cases h2 : (Split (cellsOf tds)[0] '-').length ≠ 2
    · rw [dif_pos h2, if_neg]
      intro h
      exact h2 (by rw [h0]; exact h.2)
    · rw [dif_neg h2, if_pos ⟨by omega, by rw [← h0]; omega⟩]
      have e1 : (cellsOf tds)[1] = (cellsOf tds).getD 1 [] := by
        rw [List.getD_eq_getElem _ _ (by omega)]
      have e2 : (cellsOf tds)[2] = (cellsOf tds).getD 2 [] := by
        rw [List.getD_eq_getElem _ _ (by omega)]
      have e3 : (cellsOf tds)[3] = (cellsOf tds).getD 3 [] := by
        rw [List.getD_eq_getElem _ _ (by omega)]
      have e4 : (cellsOf tds)[4] = (cellsOf tds).getD 4 [] := by
        rw [List.getD_eq_getElem _ _ (by omega)]
      have s0 : (Split (cellsOf tds)[0] '-')[0] = (Split ((cellsOf tds).getD 0 []) '-').getD 0 [] := by
        rw [List.getD_eq_getElem _ _ (by rw [← h0]; omega)]
        simp only [h0]
      have s1 : (Split (cellsOf tds)[0] '-')[1] = (Split ((cellsOf tds).getD 0 []) '-').getD 1 [] := by
        rw [List.getD_eq_getElem _ _ (by rw [← h0]; omega)]
        simp only [h0]
      simp only [holdingOf, e1, e2, e3, e4, s0, s1]

theorem each_portfolioRow_pos (rows : List (List (List Char))) (i : ℕ) (p : List Portfolio)
    (hi : i ≠ 0) :
    Each portfolioRow i rows p = p ++ (rows.filter (fun r => decide (Retained r))).map holdingOf := by
  induction rows generalizing i p with
  | nil => simp [Each]
  | cons r rs ih =>
    rw [Each, ih (i + 1) _ (by omega), portfolioRow_pos p i r hi]
    by_cases hr : Retained r
    · simp [hr]
    · simp [hr]

theorem portfolioOfRows_eq (rows : List (List (List Char))) :
    portfolioOfRows rows =
      Except.ok ((rows.tail.filter (fun r => decide (Retained r))).map holdingOf) := by
  cases rows with
  | nil => simp [portfolioOfRows, Each]
  | cons h rs =>
    simp [portfolioOfRows, Each, portfolioRow_zero, each_portfolioRow_pos]

theorem portfolioOfRows_eq_holdingsOf (rows : List (List (List Char))) :
    portfolioOfRows rows = Except.ok (holdingsOf rows.tail) :=
  portfolioOfRows_eq rows

theorem holdingsOf_append (xs ys : List (List (List Char))) :
    holdingsOf (xs ++ ys) = holdingsOf xs ++ holdingsOf ys := by
  simp [holdingsOf]

theorem holdingsOf_cons (r : List (List Char)) (rs : List (List (List Char))) :
    holdingsOf (r :: rs) = (if Retained r then [holdingOf r] else []) ++ holdingsOf rs := by
  by_cases h : Retained r <;> simp [holdingsOf, h]

/-- A row placed after a non-empty prefix contributes its own Holding, if it
is kept, between the Holdings of the rows before and after it. -/
theorem portfolioOfRows_insert (pre post : List (List (List Char))) (tds : List (List Char))
    (hpre : pre ≠ []) :
    portfolioOfRows (pre ++ tds :: post) =
        Except.ok (holdingsOf pre.tail ++
          ((if Retained tds then [holdingOf tds] else []) ++ holdingsOf post)) ∧
      portfolioOfRows (pre ++ post) = Except.ok (holdingsOf pre.tail ++ holdingsOf post) := by
  constructor
  · rw [portfolioOfRows_eq_holdingsOf, List.tail_append_of_ne_nil hpre, holdingsOf_append,
      holdingsOf_cons]
  · rw [portfolioOfRows_eq_holdingsOf, List.tail_append_of_ne_nil hpre, holdingsOf_append]

theorem mem_holdingsOf (rows : List (List (List Char))) (h : Portfolio)
    (hh : h ∈ holdingsOf rows) : ∃ tds ∈ rows, Retained tds ∧ h = holdingOf tds := by
  unfold holdingsOf at hh
  obtain ⟨tds, ht, e⟩ := List.mem_map.mp hh
  obtain ⟨m, r⟩ := List.mem_filter.mp ht
  exact ⟨tds, m, by simpa using r, e.symm⟩

/-! ## Lemmas on `Split` and `TrimSpace` -/

theorem splitGo_no_sep (sep : Char) (cur s : List Char) (h : sep ∉ s) :
    splitGo sep cur s = [cur.reverse ++ s] := by
  induction s generalizing cur with
  | nil => simp [splitGo]
  | cons c cs ih =>
    have hc : c ≠ sep := fun e => h (by simp [e])
    have hcs : sep ∉ cs := fun e => h (List.mem_cons_of_mem _ e)
    simp [splitGo, hc, ih _ hcs]

theorem splitGo_append (sep : Char) (cur a b : List Char) (h : sep ∉ a) :
    splitGo sep cur (a ++ sep :: b) = (cur.reverse ++ a) :: splitGo sep [] b := by
  induction a generalizing cur with
  | nil => simp [splitGo]
  | cons c cs ih =>
    have hc : c ≠ sep := fun e => h (by simp [e])
    have hcs : sep ∉ cs := fun e => h (List.mem_cons_of_mem _ e)
    simp [splitGo, hc, ih _ hcs]

theorem splitGo_length (sep : Char) (cur s : List Char) :
    (splitGo sep cur s).length = s.count sep + 1 := by
  induction s generalizing cur with
  | nil => simp [splitGo]
  | cons c cs ih =>
    by_cases hc : c = sep
    · simp [splitGo, hc, ih]
    · have hc2 : (c == sep) = false := by simpa using hc
      simp [splitGo, hc, ih, List.count_cons, hc2]

theorem split_length (s : List Char) (sep : Char) :
    (Split s sep).length = s.count sep + 1 :=
  splitGo_length sep [] s

theorem split_two (sep : Char) (a b : List Char) (ha : sep ∉ a) (hb : sep ∉ b) :
    Split (a ++ sep :: b) sep = [a, b] := by
  simp [Split, splitGo_append sep [] a b ha, splitGo_no_sep sep [] b hb]

theorem exists_of_count_one (sep : Char) (s : List Char) (h : s.count sep = 1) :
    ∃ a b, s = a ++ sep :: b ∧ sep ∉ a ∧ sep ∉ b := by
  induction s with
  | nil => simp at h
  | cons c cs ih =>
    by_cases hc : c = sep
    · subst hc
      refine ⟨[], cs, rfl, by simp, ?_⟩
      have : cs.count c = 0 := by simpa [List.count_cons] using h
      exact List.count_eq_zero.mp this
    · have hc2 : (c == sep) = false := by simpa using hc
      have h1 : cs.count sep = 1 := by simpa [List.count_cons, hc2] using h
      obtain ⟨a, b, hab, ha, hb⟩ := ih h1
      refine ⟨c :: a, b, by simp [hab], ?_, hb⟩
      intro hm
      rcases List.mem_cons.mp hm with e | e
      · exact hc e.symm
      · exact ha e

theorem rdropWhile_split (p : Char → Bool) (l : List Char) :
    ∃ r, l = l.rdropWhile p ++ r ∧ ∀ c ∈ r, p c = true := by
  induction l using List.reverseRecOn with
  | nil => exact ⟨[], by simp, by simp⟩
  | append_singleton l x ih =>
    by_cases hx : p x = true
    · obtain ⟨r, hr, hall⟩ := ih
      refine ⟨r ++ [x], ?_, ?_⟩
      · rw [List.rdropWhile_concat_pos _ _ _ hx, ← List.append_assoc, ← hr]
      · intro c hc
        rcases List.mem_append.mp hc with h | h
        · exact hall c h
        · simpa [List.mem_singleton.mp h] using hx
    · exact ⟨[], by rw [List.rdropWhile_concat_neg _ _ _ hx]; simp, by simp⟩

theorem trimSpace_isTrimOf (s : List Char) : IsTrimOf (TrimSpace s) s := by
  obtain ⟨r, hr, hall⟩ := rdropWhile_split IsSpace (s.dropWhile IsSpace)
  refine ⟨s.takeWhile IsSpace, r, ?_, ?_, hall, ?_, ?_⟩
  · unfold TrimSpace
    rw [List.append_assoc, ← hr, List.takeWhile_append_dropWhile]
  · intro c hc
    exact List.mem_takeWhile_imp hc
  · intro c hc
    unfold TrimSpace at hc
    have hne : (s.dropWhile IsSpace).rdropWhile IsSpace ≠ [] := by
      intro e; rw [e] at hc; simp at hc
    have hpre := List.rdropWhile_prefix IsSpace (l := s.dropWhile IsSpace)
    have hd : s.dropWhile IsSpace ≠ [] := by
      intro e; rw [e] at hne; simp at hne
    have hh := hpre.head hne
    have h1 := List.head_dropWhile_not IsSpace s hd
    have h2 : ((s.dropWhile IsSpace).rdropWhile IsSpace).head hne = c := by
      have := List.head?_eq_head hne
      rw [hc] at this
      exact (Option.some.inj this).symm
    rw [← h2, hh]
    exact h1
  · intro c hc
    unfold TrimSpace at hc
    have hne : (s.dropWhile IsSpace).rdropWhile IsSpace ≠ [] := by
      intro e; rw [e] at hc; simp at hc
    have h1 := List.rdropWhile_last_not IsSpace (s.dropWhile IsSpace) hne
    have h2 : ((s.dropWhile IsSpace).rdropWhile IsSpace).getLast hne = c := by
      have := List.getLast?_eq_getLast _ hne
      rw [hc] at this
      exact (Option.some.inj this).symm
    rw [← h2]
    simpa using h1

theorem mem_of_mem_trimSpace (s : List Char) (c : Char) (h : c ∈ TrimSpace s) : c ∈ s := by
  obtain ⟨l, r, hs, _⟩ := trimSpace_isTrimOf s
  rw [hs]
  simp [h]

theorem retained_iff_count (tds : List (List Char)) :
    Retained tds ↔ 5 ≤ tds.length ∧ ((cellsOf tds).getD 0 []).count '-' = 1 := by
  unfold Retained
  rw [split_length]
  simp [cellsOf]

/-- The Holding of a row whose cell 0 is `a`, a hyphen, `b`. -/
theorem row_entry (t0 t1 t2 t3 t4 : List Char) (more : List (List Char)) (a b : List Char)
    (h0 : TrimSpace t0 = a ++ '-' :: b) (ha : '-' ∉ a) (hb : '-' ∉ b) :
    Retained (t0 :: t1 :: t2 :: t3 :: t4 :: more) ∧
      holdingOf (t0 :: t1 :: t2 :: t3 :: t4 :: more) =
        { Symbol := TrimSpace a
          Name := TrimSpace b
          PortfolioWeight := (parseNumber (TrimSpace t1)).div (Float64.finite 100)
          Shares := parseNumber (TrimSpace t2)
          CostPrice := parseNumber (TrimSpace t3)
          Value := parseNumber (TrimSpace t4) } := by
  constructor
  · unfold Retained
    simp [cellsOf, h0, split_two '-' a b ha hb]
  · simp [holdingOf, cellsOf, h0, split_two '-' a b ha hb]

/-- Every kept row has the shape `row_entry` asks for: five cells or more, and
a cell 0 made of a text, one hyphen, and a text. -/
theorem retained_shape (tds : List (List Char)) (h : Retained tds) :
    ∃ (t0 t1 t2 t3 t4 : List Char) (more : List (List Char)) (a b : List Char),
      tds = t0 :: t1 :: t2 :: t3 :: t4 :: more ∧
      TrimSpace t0 = a ++ '-' :: b ∧ '-' ∉ a ∧ '-' ∉ b := by
  obtain ⟨h5, hc⟩ := (retained_iff_count tds).mp h
  match tds, h5, hc with
  | t0 :: t1 :: t2 :: t3 :: t4 :: more, _, hc =>
    have hc' : (TrimSpace t0).count '-' = 1 := by simpa [cellsOf] using hc
    obtain ⟨a, b, hab, ha, hb⟩ := exists_of_count_one '-' (TrimSpace t0) hc'
    exact ⟨t0, t1, t2, t3, t4, more, a, b, rfl, hab, ha, hb⟩

/-- A row with five cells or more and one hyphen in cell 0, placed after a
non-empty prefix of rows: the output is that of the rows before, then the
Holding of the row, then that of the rows after. -/
theorem row_insert (pre post : List (List (List Char))) (t0 t1 t2 t3 t4 : List Char)
    (more : List (List Char)) (a b : List Char) (hpre : pre ≠ [])
    (h0 : TrimSpace t0 = a ++ '-' :: b) (ha : '-' ∉ a) (hb : '-' ∉ b) :
    portfolioOfRows pre = Except.ok (holdingsOf pre.tail) ∧
      portfolioOfRows (pre ++ post) = Except.ok (holdingsOf pre.tail ++ holdingsOf post) ∧
      portfolioOfRows (pre ++ (t0 :: t1 :: t2 :: t3 :: t4 :: more) :: post) =
        Except.ok (holdingsOf pre.tail ++
          { Symbol := TrimSpace a
            Name := TrimSpace b
            PortfolioWeight := (parseNumber (TrimSpace t1)).div (Float64.finite 100)
            Shares := parseNumber (TrimSpace t2)
            CostPrice := parseNumber (TrimSpace t3)
            Value := parseNumber (TrimSpace t4) } :: holdingsOf post) := by
  obtain ⟨hr, he⟩ := row_entry t0 t1 t2 t3 t4 more a b h0 ha hb
  obtain ⟨i1, i2⟩ := portfolioOfRows_insert pre post (t0 :: t1 :: t2 :: t3 :: t4 :: more) hpre
  refine ⟨portfolioOfRows_eq_holdingsOf pre, i2, ?_⟩
  rw [i1, if_pos hr, he]
  rfl

/-! ## Lemmas on cleaning and on reading a numeral -/

theorem isDigit_iff (c : Char) : ('0' ≤ c ∧ c ≤ '9') ↔ c.isDigit = true := by
  simp [Char.isDigit, Char.le_def, UInt32.le_def]

theorem digit_ne_point (c : Char) (h : c.isDigit = true) : c ≠ '.' := by
  rintro rfl
  exact absurd h (by decide)

theorem replaceAll_nil (s : List Char) : ReplaceAllString s [] = cleaned s := by
  induction s with
  | nil => rfl
  | cons c cs ih =>
    have hk : reNonNumeric c = !(c.isDigit || c == '.') := by
      unfold reNonNumeric
      by_cases hd : c.isDigit = true
      · have h1 : '0' ≤ c ∧ c ≤ '9' := (isDigit_iff c).mpr hd
        simp [h1, hd]
      · have h1 : ¬ ('0' ≤ c ∧ c ≤ '9') := fun h => hd ((isDigit_iff c).mp h)
        have h2 : (decide ('0' ≤ c) && decide (c ≤ '9')) = false := by
          simpa using h1
        simp only [Bool.not_eq_true] at hd
        rw [h2, hd]
    by_cases hm : (c.isDigit || c == '.') = true
    · simp only [ReplaceAllString, hk, hm, cleaned, List.filter_cons]
      simp only [Bool.not_true, Bool.false_eq_true, if_false, if_true]
      rw [ih]; rfl
    · simp only [Bool.not_eq_true] at hm
      simp only [ReplaceAllString, hk, hm, cleaned, List.filter_cons]
      simp only [Bool.not_false, if_true, Bool.false_eq_true, if_false, List.nil_append]
      rw [ih]; rfl

theorem cleaned_chars (s : List Char) : ∀ x ∈ cleaned s, x.isDigit = true ∨ x = '.' := by
  intro x hx
  simpa [cleaned] using (List.mem_filter.mp hx).2

theorem digitsValue_foldl (ds : List Char) (n : ℕ) :
    ds.foldl (fun n d => 10 * n + (d.toNat - 48)) n = n * 10 ^ ds.length + digitsValue ds := by
  induction ds generalizing n with
  | nil => simp [digitsValue]
  | cons d ds ih =>
    simp only [List.foldl_cons, List.length_cons, digitsValue]
    rw [ih, ih (10 * 0 + (d.toNat - 48))]
    ring

theorem digitsValue_cons (d : Char) (ds : List Char) :
    digitsValue (d :: ds) = (d.toNat - 48) * 10 ^ ds.length + digitsValue ds := by
  have := digitsValue_foldl ds (10 * 0 + (d.toNat - 48))
  simpa [digitsValue] using this

/-- A run of digits: the loop takes it whole; the mantissa grows by the run,
and `dp - nd` falls by its length. -/
theorem readLoop_digits (ds rest : List Char) (hds : ∀ x ∈ ds, x.isDigit = true)
    (st : ReadState) (hst : st.nd = 0 → st.mantissa = 0) :
    ∃ st' : ReadState, readLoop st (ds ++ rest) = readLoop st' rest ∧
      st'.mantissa = st.mantissa * 10 ^ ds.length + digitsValue ds ∧
      st'.sawdot = st.sawdot ∧
      st'.sawdigits = (st.sawdigits || !ds.isEmpty) ∧
      st'.dp - st'.nd = st.dp - st.nd - ds.length ∧
      (st'.nd = 0 → st'.mantissa = 0) := by
  induction ds generalizing st with
  | nil => exact ⟨st, by simp, by simp [digitsValue], rfl, by simp, by simp, hst⟩
  | cons d ds ih =>
    have hd : d.isDigit = true := hds d (by simp)
    have hd1 : '0' ≤ d ∧ d ≤ '9' := (isDigit_iff d).mpr hd
    have hd2 : d ≠ '.' := digit_ne_point d hd
    have hds' : ∀ x ∈ ds, x.isDigit = true := fun x hx => hds x (List.mem_cons_of_mem _ hx)
    by_cases hz : d = '0' ∧ st.nd = 0
    · obtain ⟨st', h1, h2, h3, h4, h5, h6⟩ :=
        ih hds' { st with sawdigits := true, dp := st.dp - 1 } (by simpa using hst)
      refine ⟨st', ?_, ?_, ?_, ?_, ?_, h6⟩
      · rw [← h1]
        simp only [List.cons_append]
        rw [readLoop, if_neg hd2, if_pos hd1, if_pos hz]
      · rw [h2, digitsValue_cons, hst hz.2, hz.1]
        simp
      · rw [h3]
      · rw [h4]; simp
      · rw [h5]; simp only [List.length_cons]; push_cast; ring
    · obtain ⟨st', h1, h2, h3, h4, h5, h6⟩ :=
        ih hds' { st with sawdigits := true, nd := st.nd + 1,
                          mantissa := st.mantissa * 10 + (d.toNat - '0'.toNat) } (by simp)
      refine ⟨st', ?_, ?_, ?_, ?_, ?_, h6⟩
      · rw [← h1]
        simp only [List.cons_append]
        rw [readLoop, if_neg hd2, if_pos hd1, if_neg hz]
      · rw [h2, digitsValue_cons]
        have : '0'.toNat = 48 := by decide
        simp only [this, List.length_cons]
        ring
      · rw [h3]
      · rw [h4]; simp
      · rw [h5]; simp only [List.length_cons]; push_cast; ring

theorem split_at_point (c : List Char) (hc : ∀ x ∈ c, x.isDigit = true ∨ x = '.') :
    ∃ ip tl, c = ip ++ tl ∧ (∀ x ∈ ip, x.isDigit = true) ∧ (tl = [] ∨ ∃ t, tl = '.' :: t) ∧
      ip = c.takeWhile (fun x => x != '.') ∧ tl = c.dropWhile (fun x => x != '.') := by
  induction c with
  | nil => exact ⟨[], [], rfl, by simp, Or.inl rfl, rfl, rfl⟩
  | cons x xs ih =>
    by_cases hx : x = '.'
    · subst hx
      exact ⟨[], '.' :: xs, rfl, by simp, Or.inr ⟨xs, rfl⟩, by simp, by simp⟩
    · obtain ⟨ip, tl, h1, h2, h3, h4, h5⟩ := ih (fun y hy => hc y (List.mem_cons_of_mem _ hy))
      have hxd : x.isDigit = true := (hc x (by simp)).resolve_right hx
      refine ⟨x :: ip, tl, by simp [h1], ?_, h3, ?_, ?_⟩
      · intro y hy
        rcases List.mem_cons.mp hy with e | e
        · rw [e]; exact hxd
        · exact h2 y e
      · simp [List.takeWhile_cons, hx, ← h4]
      · simp [List.dropWhile_cons, hx, ← h5]

theorem count_point_digits (ds : List Char) (hds : ∀ x ∈ ds, x.isDigit = true) :
    ds.count '.' = 0 :=
  List.count_eq_zero.mpr (fun h => digit_ne_point _ (hds _ h) rfl)

theorem digits_exists_iff (ds : List Char) (hds : ∀ x ∈ ds, x.isDigit = true) :
    (∃ d ∈ ds, d.isDigit = true) ↔ ds ≠ [] := by
  constructor
  · rintro ⟨d, hd, _⟩ e
    rw [e] at hd; simp at hd
  · intro h
    obtain ⟨d, hd⟩ := List.exists_mem_of_ne_nil ds h
    exact ⟨d, hd, hds d hd⟩

theorem parseFloat_digits (ip : List Char) (hip : ∀ x ∈ ip, x.isDigit = true) (hne : ip ≠ []) :
    ParseFloat ip = parseResult (digitsValue ip : ℚ) := by
  obtain ⟨st', h1, h2, h3, h4, _, _⟩ :=
    readLoop_digits ip [] hip ⟨0, 0, 0, false, false⟩ (by simp)
  simp only [List.append_nil, readLoop] at h1
  have hsd : st'.sawdigits = true := by
    rw [h4]; cases ip with
    | nil => exact absurd rfl hne
    | cons _ _ => simp
  have hdot : st'.sawdot = false := h3
  have hm : st'.mantissa = digitsValue ip := by simpa using h2
  unfold ParseFloat readFloat
  rw [h1]
  simp only [hsd, hdot, hm, Bool.not_true, Bool.false_eq_true, if_false, Bool.not_false, if_true,
    sub_self, ite_self, ne_eq, not_true_eq_false, zpow_zero, mul_one]
  rfl

/-- After a point: the loop takes the digits `fp` and stops at `tl`, which is
empty or starts with a second point. -/
theorem readLoop_point (ip fp tl : List Char) (hip : ∀ x ∈ ip, x.isDigit = true)
    (hfp : ∀ x ∈ fp, x.isDigit = true) (htl : tl = [] ∨ ∃ t, tl = '.' :: t) :
    ∃ st : ReadState, readLoop ⟨0, 0, 0, false, false⟩ (ip ++ '.' :: (fp ++ tl)) = (st, tl) ∧
      st.mantissa = digitsValue ip * 10 ^ fp.length + digitsValue fp ∧
      st.sawdot = true ∧
      st.sawdigits = (!ip.isEmpty || !fp.isEmpty) ∧
      st.dp - st.nd = - (fp.length : ℤ) := by
  obtain ⟨st1, a1, a2, a3, a4, _, a6⟩ :=
    readLoop_digits ip ('.' :: (fp ++ tl)) hip ⟨0, 0, 0, false, false⟩ (by simp)
  have a3' : st1.sawdot = false := a3
  obtain ⟨st3, b1, b2, b3, b4, b5, _⟩ :=
    readLoop_digits fp tl hfp { st1 with sawdot := true, dp := st1.nd } (by simpa using a6)
  refine ⟨st3, ?_, ?_, ?_, ?_, ?_⟩
  · rw [a1, readLoop]
    simp only [a3', Bool.false_eq_true, if_false, if_true]
    rw [b1]
    rcases htl with e | ⟨t, e⟩
    · rw [e, readLoop]
    · have hs : st3.sawdot = true := b3
      rw [e, readLoop]
      simp [hs]
  · rw [b2]; simp only [a2]; simp
  · exact b3
  · rw [b4]; simp only [a4]; simp
  · rw [b5]; simp

theorem takeDrop_point (ip t : List Char) (hip : ∀ x ∈ ip, x.isDigit = true) :
    (ip ++ '.' :: t).takeWhile (fun x => x != '.') = ip ∧
      (ip ++ '.' :: t).dropWhile (fun x => x != '.') = '.' :: t := by
  induction ip with
  | nil => simp
  | cons x xs ih =>
    have hx : x ≠ '.' := digit_ne_point x (hip x (by simp))
    obtain ⟨i1, i2⟩ := ih (fun y hy => hip y (List.mem_cons_of_mem _ hy))
    simp only [List.cons_append, List.takeWhile_cons, List.dropWhile_cons]
    simp [hx, i1, i2]

theorem numeralValue_point (ip t : List Char) (hip : ∀ x ∈ ip, x.isDigit = true) :
    numeralValue (ip ++ '.' :: t) =
      (digitsValue ip : ℚ) + (digitsValue t : ℚ) / 10 ^ t.length := by
  obtain ⟨h1, h2⟩ := takeDrop_point ip t hip
  simp [numeralValue, h1, h2]

theorem numeralValue_digits (ip : List Char) (hip : ∀ x ∈ ip, x.isDigit = true) :
    numeralValue ip = (digitsValue ip : ℚ) := by
  have h1 : ip.takeWhile (fun x => x != '.') = ip := by
    rw [List.takeWhile_eq_self_iff]
    intro x hx
    simpa using digit_ne_point x (hip x hx)
  have h2 : ip.dropWhile (fun x => x != '.') = [] := by
    rw [List.dropWhile_eq_nil_iff]
    intro x hx
    simpa using digit_ne_point x (hip x hx)
  simp [numeralValue, h1, h2, digitsValue]

theorem parseFloat_point (ip fp : List Char) (hip : ∀ x ∈ ip, x.isDigit = true)
    (hfp : ∀ x ∈ fp, x.isDigit = true) (hne : ip ≠ [] ∨ fp ≠ []) :
    ParseFloat (ip ++ '.' :: fp) = parseResult (numeralValue (ip ++ '.' :: fp)) := by
  obtain ⟨st, h1, h2, h3, h4, h5⟩ := readLoop_point ip fp [] hip hfp (Or.inl rfl)
  simp only [List.append_nil] at h1
  have hsd : st.sawdigits = true := by
    rw [h4]
    rcases hne with h | h
    · cases ip with
      | nil => exact absurd rfl h
      | cons _ _ => simp
    · cases fp with
      | nil => exact absurd rfl h
      | cons _ _ => simp
  have hval : (st.mantissa : ℚ) * (10 : ℚ) ^ (if st.mantissa ≠ 0 then st.dp - st.nd else 0) =
      numeralValue (ip ++ '.' :: fp) := by
    rw [numeralValue_point ip fp hip]
    by_cases hm : st.mantissa = 0
    · have hz : digitsValue ip * 10 ^ fp.length + digitsValue fp = 0 := by rw [← h2, hm]
      have z1 : digitsValue fp = 0 := by omega
      have z2 : digitsValue ip = 0 := by
        have : digitsValue ip * 10 ^ fp.length = 0 := by omega
        rcases Nat.mul_eq_zero.mp this with h | h
        · exact h
        · exact absurd h (by positivity)
      simp [hm, z1, z2]
    · rw [if_pos hm, h5, h2, zpow_neg, zpow_natCast]
      push_cast
      field_simp
  unfold ParseFloat readFloat
  rw [h1]
  simp only [hsd, h3, Bool.not_true, Bool.false_eq_true, if_false, ne_eq, not_true_eq_false]
  rw [hval]
  rfl

theorem parseFloat_two_points (ip fp t : List Char) (hip : ∀ x ∈ ip, x.isDigit = true)
    (hfp : ∀ x ∈ fp, x.isDigit = true) :
    ParseFloat (ip ++ '.' :: (fp ++ '.' :: t)) =
      (Float64.finite 0, some NumError.ErrSyntax) := by
  obtain ⟨st, h1, _, _, _, _⟩ := readLoop_point ip fp ('.' :: t) hip hfp (Or.inr ⟨t, rfl⟩)
  unfold ParseFloat readFloat
  rw [h1]
  by_cases hsd : st.sawdigits = true
  · simp [hsd]
  · simp [hsd]

/-- On a text of digits and points, `ParseFloat` accepts exactly the valid
numerals, and converts the value of the numeral. -/
theorem parseFloat_numeral (c : List Char) (hc : ∀ x ∈ c, x.isDigit = true ∨ x = '.') :
    ParseFloat c = if ValidNumeral c then parseResult (numeralValue c)
      else (Float64.finite 0, some NumError.ErrSyntax) := by
  obtain ⟨ip, tl, hc1, hip, htl, -, -⟩ := split_at_point c hc
  rcases htl with e | ⟨t, e⟩
  · -- no point at all
    subst e
    simp only [List.append_nil] at hc1
    subst hc1
    by_cases hne : c = []
    · subst hne
      rw [if_neg (by decide)]
      decide
    · have hv : ValidNumeral c :=
        ⟨(digits_exists_iff c hip).mpr hne, by rw [count_point_digits c hip]; omega⟩
      rw [if_pos hv, parseFloat_digits c hip hne, numeralValue_digits c hip]
  · subst e
    have ht : ∀ x ∈ t, x.isDigit = true ∨ x = '.' := by
      intro x hx
      exact hc x (by rw [hc1]; simp [hx])
    obtain ⟨fp, tl2, ht1, hfp, htl2, -, -⟩ := split_at_point t ht
    rcases htl2 with e2 | ⟨t2, e2⟩
    · -- exactly one point
      subst e2
      simp only [List.append_nil] at ht1
      subst ht1
      subst hc1
      by_cases hne : ip ≠ [] ∨ t ≠ []
      · have hv : ValidNumeral (ip ++ '.' :: t) := by
          constructor
          · rcases hne with h | h
            · obtain ⟨d, hd, hdd⟩ := (digits_exists_iff ip hip).mpr h
              exact ⟨d, by simp [hd], hdd⟩
            · obtain ⟨d, hd, hdd⟩ := (digits_exists_iff t hfp).mpr h
              exact ⟨d, by simp [hd], hdd⟩
          · simp [List.count_append, List.count_cons, count_point_digits ip hip,
              count_point_digits t hfp]
        rw [if_pos hv, parseFloat_point ip t hip hfp hne]
      · have h1 : ip = [] := by
          by_contra h; exact hne (Or.inl h)
        have h2 : t = [] := by
          by_contra h; exact hne (Or.inr h)
        subst h1; subst h2
        rw [if_neg (by decide)]
        decide
    · -- a second point
      subst e2
      subst ht1
      subst hc1
      have hv : ¬ ValidNumeral (ip ++ '.' :: (fp ++ '.' :: t2)) := by
        intro h
        have := h.2
        simp [List.count_append, List.count_cons] at this
        omega
      rw [if_neg hv, parseFloat_two_points ip fp t2 hip hfp]

theorem parseNumber_unfold (s : List Char) :
    parseNumber s = match ParseFloat (cleaned s) with
      | (num, none) => num
      | (_, some _) => Float64.finite 0 := by
  unfold parseNumber
  rw [replaceAll_nil]

theorem parseNumber_eq (s : List Char) :
    parseNumber s = if ValidNumeral (cleaned s) then numberOf (numeralValue (cleaned s))
      else Float64.finite 0 := by
  have h := parseFloat_numeral (cleaned s) (cleaned_chars s)
  rw [parseNumber_unfold]
  by_cases hv : ValidNumeral (cleaned s)
  · rw [if_pos hv] at h
    rw [if_pos hv, h]
    unfold parseResult numberOf
    generalize round64 (numeralValue (cleaned s)) = r
    cases r <;> rfl
  · rw [if_neg hv] at h
    rw [if_neg hv, h]

/-! ## Lemmas on rounding -/

theorem bitLenAux_spec (fuel n : ℕ) (h : n ≤ fuel) :
    n < 2 ^ bitLenAux fuel n ∧ (0 < n → 2 ^ (bitLenAux fuel n - 1) ≤ n) := by
  induction fuel generalizing n with
  | zero =>
    have : n = 0 := by omega
    subst this
    simp [bitLenAux]
  | succ fuel ih =>
    by_cases hn : n = 0
    · subst hn
      simp [bitLenAux]
    · have hle : n / 2 ≤ fuel := by omega
      obtain ⟨h1, h2⟩ := ih (n / 2) hle
      simp only [bitLenAux, hn, if_false, Nat.add_sub_cancel]
      constructor
      · rw [pow_succ]; omega
      · intro _
        by_cases hh : n / 2 = 0
        · have hb : bitLenAux fuel (n / 2) = 0 := by
            rw [hh]; cases fuel <;> simp [bitLenAux]
          rw [hb]; simp; omega
        · have h3 := h2 (by omega)
          have hb : 1 ≤ bitLenAux fuel (n / 2) := by
            cases fuel with
            | zero => omega
            | succ f => simp [bitLenAux, hh]
          have : 2 ^ bitLenAux fuel (n / 2) = 2 * 2 ^ (bitLenAux fuel (n / 2) - 1) := by
            rw [← pow_succ']; congr 1; omega
          omega

theorem bitLen_spec (n : ℕ) (hn : 0 < n) :
    2 ^ (bitLen n - 1) ≤ n ∧ n < 2 ^ bitLen n ∧ 1 ≤ bitLen n := by
  obtain ⟨h1, h2⟩ := bitLenAux_spec n n le_rfl
  refine ⟨h2 hn, h1, ?_⟩
  unfold bitLen
  cases n with
  | zero => omega
  | succ m => simp [bitLenAux]

theorem ratio_bounds (n d a b : ℕ) (hd : 0 < d) (a1 : 2 ^ (a - 1) ≤ n) (a2 : n < 2 ^ a)
    (a3 : 1 ≤ a) (b1 : 2 ^ (b - 1) ≤ d) (b2 : d < 2 ^ b) (b3 : 1 ≤ b) :
    (2 : ℚ) ^ ((a : ℤ) - (b : ℤ) - 1) ≤ (n : ℚ) / (d : ℚ) ∧
      (n : ℚ) / (d : ℚ) < (2 : ℚ) ^ ((a : ℤ) - (b : ℤ) + 1) := by
  have hdq : (0 : ℚ) < (d : ℚ) := by exact_mod_cast hd
  have A1 : (2 : ℚ) ^ (a - 1) ≤ (n : ℚ) := by exact_mod_cast a1
  have A2 : (n : ℚ) < (2 : ℚ) ^ a := by exact_mod_cast a2
  have B1 : (2 : ℚ) ^ (b - 1) ≤ (d : ℚ) := by exact_mod_cast b1
  have B2 : (d : ℚ) < (2 : ℚ) ^ b := by exact_mod_cast b2
  have two_ne : (2 : ℚ) ≠ 0 := by norm_num
  have Apow : (2 : ℚ) ^ a = 2 * 2 ^ (a - 1) := by
    rw [← pow_succ']; congr 1; omega
  have Bpow : (2 : ℚ) ^ b = 2 * 2 ^ (b - 1) := by
    rw [← pow_succ']; congr 1; omega
  have hp : (0:ℚ) < 2 ^ b := by positivity
  have hp1 : (0:ℚ) < 2 ^ (b - 1) := by positivity
  have hq1 : (0:ℚ) < 2 ^ (a - 1) := by positivity
  constructor
  · rw [zpow_sub₀ two_ne, zpow_sub₀ two_ne, zpow_natCast, zpow_natCast, zpow_one]
    rw [le_div_iff₀ hdq]
    calc (2:ℚ) ^ a / 2 ^ b / 2 * (d : ℚ)
        ≤ 2 ^ a / 2 ^ b / 2 * 2 ^ b := by
          apply mul_le_mul_of_nonneg_left (le_of_lt B2); positivity
      _ = 2 ^ (a - 1) := by
          rw [Apow]; field_simp; ring
      _ ≤ (n : ℚ) := A1
  · rw [zpow_add₀ two_ne, zpow_sub₀ two_ne, zpow_natCast, zpow_natCast, zpow_one]
    rw [div_lt_iff₀ hdq]
    calc (n : ℚ) < 2 ^ a := A2
      _ = 2 ^ a / 2 ^ b * 2 * 2 ^ (b - 1) := by
          rw [Bpow]; field_simp; ring
      _ ≤ 2 ^ a / 2 ^ b * 2 * (d : ℚ) := by
          apply mul_le_mul_of_nonneg_left B1; positivity

/-- The exponent `floorLog2 x` brackets `x` between two powers of two. -/
theorem floorLog2_spec (x : ℚ) (hx : 0 < x) :
    (2 : ℚ) ^ floorLog2 x ≤ x ∧ x < (2 : ℚ) ^ (floorLog2 x + 1) := by
  have hnum : 0 < x.num := Rat.num_pos.mpr hx
  have hden : 0 < x.den := x.den_pos
  have hn : 0 < x.num.natAbs := Int.natAbs_pos.mpr (ne_of_gt hnum)
  obtain ⟨a1, a2, a3⟩ := bitLen_spec x.num.natAbs hn
  obtain ⟨b1, b2, b3⟩ := bitLen_spec x.den hden
  have hxe : (x.num.natAbs : ℚ) / (x.den : ℚ) = x := by
    rw [Nat.cast_natAbs, abs_of_pos hnum]
    exact Rat.num_div_den x
  obtain ⟨low, up⟩ := ratio_bounds x.num.natAbs x.den _ _ hden a1 a2 a3 b1 b2 b3
  rw [hxe] at low up
  unfold floorLog2
  simp only
  split_ifs with h
  · exact ⟨h, up⟩
  · refine ⟨low, ?_⟩
    rw [sub_add_cancel]
    exact lt_of_not_le h

theorem roundHalfEven_cases (y : ℚ) :
    roundHalfEven y = ⌊y⌋ ∨ roundHalfEven y = ⌊y⌋ + 1 := by
  unfold roundHalfEven
  simp only
  split_ifs <;> simp

theorem floor_le_roundHalfEven (y : ℚ) : ⌊y⌋ ≤ roundHalfEven y := by
  rcases roundHalfEven_cases y with h | h
  · rw [h]
  · rw [h]; omega

theorem le_roundHalfEven (y : ℚ) (N : ℤ) (h : (N : ℚ) ≤ y) : N ≤ roundHalfEven y :=
  le_trans (Int.le_floor.mpr h) (floor_le_roundHalfEven y)

theorem roundHalfEven_le (y : ℚ) (N : ℤ) (h : y ≤ (N : ℚ)) : roundHalfEven y ≤ N := by
  have hf : ⌊y⌋ ≤ N := by
    have := Int.floor_le y
    exact_mod_cast (Int.floor_le y).trans h
  rcases lt_or_eq_of_le hf with hlt | heq
  · rcases roundHalfEven_cases y with e | e <;> rw [e] <;> omega
  · have hy : y = (⌊y⌋ : ℚ) := by
      apply le_antisymm
      · rw [heq]; exact h
      · exact Int.floor_le y
    unfold roundHalfEven
    simp only
    rw [if_pos]
    · exact hf
    · rw [← hy, sub_self]; norm_num

/-- No integer is nearer to `y` than `roundHalfEven y`. -/
theorem roundHalfEven_nearest (y : ℚ) (k : ℤ) :
    |(roundHalfEven y : ℚ) - y| ≤ |(k : ℚ) - y| := by
  have h1 : (⌊y⌋ : ℚ) ≤ y := Int.floor_le y
  have h2 : y < (⌊y⌋ : ℚ) + 1 := Int.lt_floor_add_one y
  have hk : (k : ℚ) ≤ (⌊y⌋ : ℚ) ∨ (⌊y⌋ : ℚ) + 1 ≤ (k : ℚ) := by
    rcases le_or_lt k ⌊y⌋ with h | h
    · left; exact_mod_cast h
    · right; exact_mod_cast h
  unfold roundHalfEven
  simp only
  split_ifs with c1 c2 c3
  · rw [abs_le]
    rcases hk with h | h
    · rw [abs_of_nonpos (by linarith)]; constructor <;> linarith
    · rw [abs_of_nonneg (by linarith)]; constructor <;> linarith
  · push_cast
    rw [abs_le]
    rcases hk with h | h
    · rw [abs_of_nonpos (by linarith)]; constructor <;> linarith
    · rw [abs_of_nonneg (by linarith)]; constructor <;> linarith
  · rw [abs_le]
    rcases hk with h | h
    · rw [abs_of_nonpos (by linarith)]; constructor <;> linarith
    · rw [abs_of_nonneg (by linarith)]; constructor <;> linarith
  · push_cast
    have c1' : 1 / 2 ≤ y - (⌊y⌋ : ℚ) := not_lt.mp c1
    have c2' : y - (⌊y⌋ : ℚ) ≤ 1 / 2 := not_lt.mp c2
    rw [abs_le]
    rcases hk with h | h
    · rw [abs_of_nonpos (by linarith)]; constructor <;> linarith
    · rw [abs_of_nonneg (by linarith)]; constructor <;> linarith

theorem roundHalfEven_le_of_lt_half (y : ℚ) (N : ℤ) (h : y < (N : ℚ) + 1 / 2) :
    roundHalfEven y ≤ N := by
  have hf : ⌊y⌋ ≤ N := by
    have h1 : (⌊y⌋ : ℚ) ≤ y := Int.floor_le y
    have h2 : (⌊y⌋ : ℚ) < (N : ℚ) + 1 := by linarith
    have : ⌊y⌋ < N + 1 := by exact_mod_cast h2
    omega
  rcases lt_or_eq_of_le hf with hlt | heq
  · rcases roundHalfEven_cases y with e | e <;> rw [e] <;> omega
  · unfold roundHalfEven
    simp only
    rw [if_pos]
    · exact hf
    · rw [heq]; linarith

theorem le_roundHalfEven_of_half_le (y : ℚ) (N : ℤ) (hN : N % 2 = 0)
    (h : (N : ℚ) - 1 / 2 ≤ y) : N ≤ roundHalfEven y := by
  have hf : N - 1 ≤ ⌊y⌋ := by
    apply Int.le_floor.mpr
    push_cast
    linarith
  rcases lt_or_eq_of_le hf with hlt | heq
  · exact le_trans (by omega) (floor_le_roundHalfEven y)
  · have hfl : (⌊y⌋ : ℚ) = (N : ℚ) - 1 := by rw [← heq]; push_cast; ring
    unfold roundHalfEven
    simp only
    rw [if_neg (by rw [hfl]; linarith)]
    split_ifs with c2 c3
    · omega
    · omega
    · omega

theorem ulp_pos (x : ℚ) : 0 < ulp x := by
  unfold ulp
  positivity

theorem roundMag_nonneg (x : ℚ) (hx : 0 ≤ x) : 0 ≤ roundMag x := by
  unfold roundMag
  split_ifs with h
  · exact le_refl 0
  · apply mul_nonneg _ (le_of_lt (ulp_pos x))
    have : (0 : ℤ) ≤ roundHalfEven (x / ulp x) :=
      le_roundHalfEven _ 0 (by
        push_cast
        exact div_nonneg hx (le_of_lt (ulp_pos x)))
    exact_mod_cast this

/-- A power of two on the grid bounds the rounding of what it bounds. -/
theorem roundMag_le_pow (x : ℚ) (hx : 0 < x) (k : ℤ) (hk : -1074 ≤ k)
    (h : x ≤ (2 : ℚ) ^ k) : roundMag x ≤ (2 : ℚ) ^ k := by
  obtain ⟨lo, _⟩ := floorLog2_spec x hx
  have he : floorLog2 x ≤ k := by
    have : (2 : ℚ) ^ floorLog2 x ≤ (2 : ℚ) ^ k := lo.trans h
    exact (zpow_le_zpow_iff_right₀ (by norm_num : (1 : ℚ) < 2)).mp this
  have hp : max (floorLog2 x) (-1022) - 52 ≤ k := by
    rcases max_cases (floorLog2 x) (-1022) with ⟨e, _⟩ | ⟨e, _⟩ <;> rw [e] <;> omega
  have two_ne : (2 : ℚ) ≠ 0 := by norm_num
  obtain ⟨n, hn⟩ : ∃ n : ℕ, k - (max (floorLog2 x) (-1022) - 52) = (n : ℤ) :=
    ⟨(k - (max (floorLog2 x) (-1022) - 52)).toNat, by rw [Int.toNat_of_nonneg]; omega⟩
  have hkey : (2 : ℚ) ^ k = ((2 ^ n : ℕ) : ℤ) * ulp x := by
    unfold ulp
    have : k = (n : ℤ) + (max (floorLog2 x) (-1022) - 52) := by omega
    rw [this, zpow_add₀ two_ne, zpow_natCast]
    push_cast
    congr 2
  unfold roundMag
  rw [if_neg (ne_of_gt hx), hkey]
  apply mul_le_mul_of_nonneg_right _ (le_of_lt (ulp_pos x))
  have : roundHalfEven (x / ulp x) ≤ ((2 ^ n : ℕ) : ℤ) := by
    apply roundHalfEven_le
    rw [div_le_iff₀ (ulp_pos x), ← hkey]
    exact h
  exact_mod_cast this

/-! ## Lemmas: the rounding is a nearest `float64` -/

theorem roundMag_pos_eq (x : ℚ) (hx : 0 < x) :
    roundMag x = (roundHalfEven (x / ulp x) : ℚ) * ulp x := by
  unfold roundMag
  rw [if_neg (ne_of_gt hx)]

theorem ulp_normal (x : ℚ) (he : -1022 ≤ floorLog2 x) :
    ulp x = (2 : ℚ) ^ (floorLog2 x - 52) := by
  unfold ulp
  rw [max_eq_left he]

theorem ulp_exp_ge (x : ℚ) : -1074 ≤ max (floorLog2 x) (-1022) - 52 := by
  have := le_max_right (floorLog2 x) (-1022)
  omega

theorem scaled_lt (x : ℚ) (hx : 0 < x) : x / ulp x < (2 : ℚ) ^ (53 : ℤ) := by
  obtain ⟨_, up⟩ := floorLog2_spec x hx
  rw [div_lt_iff₀ (ulp_pos x)]
  unfold ulp
  rw [← zpow_add₀ (by norm_num : (2 : ℚ) ≠ 0)]
  apply lt_of_lt_of_le up
  apply zpow_le_zpow_right₀ (by norm_num : (1 : ℚ) ≤ 2)
  have := le_max_left (floorLog2 x) (-1022)
  omega

theorem scaled_ge (x : ℚ) (hx : 0 < x) (he : -1022 ≤ floorLog2 x) :
    (2 : ℚ) ^ (52 : ℤ) ≤ x / ulp x := by
  obtain ⟨lo, _⟩ := floorLog2_spec x hx
  rw [le_div_iff₀ (ulp_pos x), ulp_normal x he, ← zpow_add₀ (by norm_num : (2 : ℚ) ≠ 0)]
  have : (52 : ℤ) + (floorLog2 x - 52) = floorLog2 x := by ring
  rw [this]
  exact lo

theorem two_pow_le_roundMag (x : ℚ) (hx : 0 < x) (he : -1022 ≤ floorLog2 x) :
    (2 : ℚ) ^ floorLog2 x ≤ roundMag x := by
  have h1 : ((2 ^ 52 : ℕ) : ℤ) ≤ roundHalfEven (x / ulp x) := by
    apply le_roundHalfEven
    have := scaled_ge x hx he
    push_cast
    exact_mod_cast this
  have h2 : ((2 ^ 52 : ℕ) : ℚ) ≤ (roundHalfEven (x / ulp x) : ℚ) := by exact_mod_cast h1
  rw [roundMag_pos_eq x hx]
  have e : (2 : ℚ) ^ floorLog2 x = ((2 ^ 52 : ℕ) : ℚ) * ulp x := by
    rw [ulp_normal x he]
    have : floorLog2 x = (52 : ℤ) + (floorLog2 x - 52) := by ring
    conv_lhs => rw [this]
    rw [zpow_add₀ (by norm_num : (2 : ℚ) ≠ 0)]
    norm_num
  rw [e]
  exact mul_le_mul_of_nonneg_right h2 (le_of_lt (ulp_pos x))

/-- No number `m * 2^q` with `|m| < 2^53` and `q ≥ -1074` is nearer to `x`
than the rounding of `x`. -/
theorem roundMag_nearest (x : ℚ) (hx : 0 < x) (m q : ℤ) (hm : |m| < 2 ^ 53)
    (hq : -1074 ≤ q) :
    |roundMag x - x| ≤ |(m : ℚ) * (2 : ℚ) ^ q - x| := by
  have two_ne : (2 : ℚ) ≠ 0 := by norm_num
  have hu := ulp_pos x
  have hxy : x = x / ulp x * ulp x := by field_simp
  have key : ∀ k : ℤ, |roundMag x - x| ≤ |(k : ℚ) * ulp x - x| := by
    intro k
    have h := roundHalfEven_nearest (x / ulp x) k
    have e1 : roundMag x - x = ((roundHalfEven (x / ulp x) : ℚ) - x / ulp x) * ulp x := by
      rw [roundMag_pos_eq x hx]; field_simp
    have e2 : (k : ℚ) * ulp x - x = ((k : ℚ) - x / ulp x) * ulp x := by field_simp
    rw [e1, e2, abs_mul, abs_mul, abs_of_pos hu]
    exact mul_le_mul_of_nonneg_right h (le_of_lt hu)
  by_cases hqp : max (floorLog2 x) (-1022) - 52 ≤ q
  · -- `m * 2^q` is a multiple of the spacing
    obtain ⟨n, hn⟩ : ∃ n : ℕ, q - (max (floorLog2 x) (-1022) - 52) = (n : ℤ) :=
      ⟨(q - (max (floorLog2 x) (-1022) - 52)).toNat, by rw [Int.toNat_of_nonneg]; omega⟩
    have e : (m : ℚ) * (2 : ℚ) ^ q = ((m * (2 ^ n : ℕ) : ℤ) : ℚ) * ulp x := by
      unfold ulp
      have hq' : q = (n : ℤ) + (max (floorLog2 x) (-1022) - 52) := by omega
      conv_lhs => rw [hq']
      rw [zpow_add₀ two_ne, zpow_natCast]
      push_cast
      ring
    rw [e]
    exact key _
  · -- `m * 2^q` lies below the power of two under `x`
    have hqp' : q < max (floorLog2 x) (-1022) - 52 := lt_of_not_le hqp
    have he : -1022 ≤ floorLog2 x := by
      by_contra hc
      rw [max_eq_right (by omega)] at hqp'
      omega
    rw [max_eq_left he] at hqp'
    obtain ⟨lo, _⟩ := floorLog2_spec x hx
    have hf : (m : ℚ) * (2 : ℚ) ^ q < (2 : ℚ) ^ floorLog2 x := by
      have h1 : (m : ℚ) < (2 : ℚ) ^ (53 : ℤ) := by
        have : m < 2 ^ 53 := lt_of_le_of_lt (le_abs_self m) hm
        have e53 : (2 : ℚ) ^ (53 : ℤ) = ((2 ^ 53 : ℤ) : ℚ) := by norm_num
        rw [e53]
        exact_mod_cast this
      have h2 : (0 : ℚ) < (2 : ℚ) ^ q := by positivity
      calc (m : ℚ) * (2 : ℚ) ^ q < (2 : ℚ) ^ (53 : ℤ) * (2 : ℚ) ^ q :=
            mul_lt_mul_of_pos_right h1 h2
        _ = (2 : ℚ) ^ (53 + q) := (zpow_add₀ two_ne 53 q).symm
        _ ≤ (2 : ℚ) ^ floorLog2 x :=
            zpow_le_zpow_right₀ (by norm_num : (1 : ℚ) ≤ 2) (by omega)
    have hk := key ((2 ^ 52 : ℕ) : ℤ)
    have e : (((2 ^ 52 : ℕ) : ℤ) : ℚ) * ulp x = (2 : ℚ) ^ floorLog2 x := by
      rw [ulp_normal x he]
      have : floorLog2 x = (52 : ℤ) + (floorLog2 x - 52) := by ring
      conv_rhs => rw [this]
      rw [zpow_add₀ two_ne]
      norm_num
    rw [e] at hk
    rw [abs_of_nonpos (by linarith : (2 : ℚ) ^ floorLog2 x - x ≤ 0)] at hk
    rw [abs_of_nonpos (by linarith : (m : ℚ) * (2 : ℚ) ^ q - x ≤ 0)]
    linarith

/-- A rounding below `2^1024` is a finite value of binary64. -/
theorem roundMag_isFloat64 (x : ℚ) (hx : 0 < x) (hlt : roundMag x < overflowBound) :
    IsFloat64 (roundMag x) := by
  have two_ne : (2 : ℚ) ≠ 0 := by norm_num
  have one_lt : (1 : ℚ) < 2 := by norm_num
  have he : floorLog2 x ≤ 1023 := by
    by_contra hc
    have h1 := two_pow_le_roundMag x hx (by omega)
    have h2 : (2 : ℚ) ^ floorLog2 x < (2 : ℚ) ^ (1024 : ℤ) := lt_of_le_of_lt h1 hlt
    have := (zpow_lt_zpow_iff_right₀ one_lt).mp h2
    omega
  have hp1 := ulp_exp_ge x
  have hp2 : max (floorLog2 x) (-1022) - 52 ≤ 971 := by
    rcases max_cases (floorLog2 x) (-1022) with ⟨e, _⟩ | ⟨e, _⟩ <;> rw [e] <;> omega
  have hn0 : (0 : ℤ) ≤ roundHalfEven (x / ulp x) :=
    le_roundHalfEven _ 0 (by push_cast; exact div_nonneg (le_of_lt hx) (le_of_lt (ulp_pos x)))
  have hn1 : roundHalfEven (x / ulp x) ≤ 2 ^ 53 := by
    have h := roundHalfEven_le (x / ulp x) (2 ^ 53) (by
      have := scaled_lt x hx
      push_cast
      have e53 : (2 : ℚ) ^ (53 : ℤ) = (2 : ℚ) ^ 53 := by norm_num
      rw [e53] at this
      exact le_of_lt this)
    exact h
  rcases lt_or_eq_of_le hn1 with hlt53 | heq53
  · refine ⟨roundHalfEven (x / ulp x), max (floorLog2 x) (-1022) - 52, ?_, hp1, hp2, ?_⟩
    · rw [abs_of_nonneg hn0]; exact hlt53
    · rw [roundMag_pos_eq x hx]; rfl
  · have hval : roundMag x = (2 : ℚ) ^ (53 + (max (floorLog2 x) (-1022) - 52)) := by
      rw [roundMag_pos_eq x hx, heq53, zpow_add₀ two_ne]
      unfold ulp
      norm_num
    have hp3 : max (floorLog2 x) (-1022) - 52 < 971 := by
      rw [hval] at hlt
      have := (zpow_lt_zpow_iff_right₀ one_lt).mp hlt
      omega
    refine ⟨2 ^ 52, max (floorLog2 x) (-1022) - 52 + 1, by norm_num, by omega, by omega, ?_⟩
    rw [hval, zpow_add₀ two_ne, zpow_add₀ two_ne]
    norm_num
    ring

theorem overflowBound_pos : 0 < overflowBound := by
  unfold overflowBound; positivity

theorem overflowBound_half : overflowBound = 2 * (2 : ℚ) ^ (1023 : ℤ) := by
  unfold overflowBound
  rw [show (1024 : ℤ) = 1023 + 1 by norm_num, zpow_add_one₀ (by norm_num : (2 : ℚ) ≠ 0)]
  ring

theorem overflowBound_split : overflowBound = (2 : ℚ) ^ (53 : ℤ) * (2 : ℚ) ^ (971 : ℤ) := by
  unfold overflowBound
  rw [← zpow_add₀ (by norm_num : (2 : ℚ) ≠ 0)]
  norm_num

theorem rangeLimit_split :
    rangeLimit = ((2 : ℚ) ^ (53 : ℤ) - 1 / 2) * (2 : ℚ) ^ (971 : ℤ) := by
  unfold rangeLimit
  have e1 : (2 : ℚ) ^ (1024 : ℤ) = (2 : ℚ) ^ (53 : ℤ) * (2 : ℚ) ^ (971 : ℤ) := by
    rw [← zpow_add₀ (by norm_num : (2 : ℚ) ≠ 0)]; norm_num
  have e2 : (2 : ℚ) ^ (970 : ℤ) = (2 : ℚ) ^ (971 : ℤ) * (2 : ℚ) ^ (-1 : ℤ) := by
    rw [← zpow_add₀ (by norm_num : (2 : ℚ) ≠ 0)]; norm_num
  have e3 : (2 : ℚ) ^ (-1 : ℤ) = 1 / 2 := by norm_num
  rw [e1, e2, e3]
  ring

theorem pow1023_split : (2 : ℚ) ^ (1023 : ℤ) = (2 : ℚ) ^ (52 : ℤ) * (2 : ℚ) ^ (971 : ℤ) := by
  rw [← zpow_add₀ (by norm_num : (2 : ℚ) ≠ 0)]
  norm_num

/-- The rounding of `x ≥ 0` stays in range exactly below `2^1024 - 2^970`. -/
theorem roundMag_lt_iff (x : ℚ) (hx : 0 ≤ x) :
    roundMag x < overflowBound ↔ x < rangeLimit := by
  have one_lt : (1 : ℚ) < 2 := by norm_num
  have hU : (0 : ℚ) < (2 : ℚ) ^ (971 : ℤ) := by positivity
  have e53 : (2 : ℚ) ^ (53 : ℤ) = 9007199254740992 := by norm_num
  have e52 : (2 : ℚ) ^ (52 : ℤ) = 4503599627370496 := by norm_num
  rcases eq_or_lt_of_le hx with h0 | hpos
  · rw [← h0]
    have : roundMag 0 = 0 := by simp [roundMag]
    rw [this, rangeLimit_split, e53]
    constructor
    · intro _; positivity
    · intro _; exact overflowBound_pos
  obtain ⟨lo, up⟩ := floorLog2_spec x hpos
  constructor
  · intro hlt
    by_contra hc
    have hge : rangeLimit ≤ x := not_lt.mp hc
    have h1023 : (2 : ℚ) ^ (1023 : ℤ) ≤ x := by
      refine le_trans ?_ hge
      rw [pow1023_split, rangeLimit_split, e52, e53]
      apply mul_le_mul_of_nonneg_right _ (le_of_lt hU)
      norm_num
    have he : 1023 ≤ floorLog2 x := by
      have : (2 : ℚ) ^ (1023 : ℤ) < (2 : ℚ) ^ (floorLog2 x + 1) := lt_of_le_of_lt h1023 up
      have := (zpow_lt_zpow_iff_right₀ one_lt).mp this
      omega
    have hnorm : -1022 ≤ floorLog2 x := by omega
    rcases eq_or_lt_of_le he with heq | hgt
    · have hu : ulp x = (2 : ℚ) ^ (971 : ℤ) := by
        rw [ulp_normal x hnorm, ← heq]; norm_num
      have hy : ((2 ^ 53 : ℤ) : ℚ) - 1 / 2 ≤ x / ulp x := by
        rw [le_div_iff₀ (ulp_pos x), hu]
        rw [rangeLimit_split, e53] at hge
        push_cast
        exact hge
      have hn := le_roundHalfEven_of_half_le (x / ulp x) (2 ^ 53) (by norm_num) hy
      have hn' : (2 : ℚ) ^ (53 : ℤ) ≤ (roundHalfEven (x / ulp x) : ℚ) := by
        rw [e53]; exact_mod_cast hn
      rw [roundMag_pos_eq x hpos, overflowBound_split] at hlt
      have := mul_le_mul_of_nonneg_right hn' (le_of_lt hU)
      rw [← hu] at this hlt
      exact absurd hlt (not_lt.mpr this)
    · have h1 := two_pow_le_roundMag x hpos hnorm
      have h2 : (2 : ℚ) ^ (1024 : ℤ) ≤ (2 : ℚ) ^ floorLog2 x :=
        zpow_le_zpow_right₀ (le_of_lt one_lt) (by omega)
      exact absurd hlt (not_lt.mpr (le_trans h2 h1))
  · intro hlt
    have he : floorLog2 x ≤ 1023 := by
      have h1 : rangeLimit < (2 : ℚ) ^ (1024 : ℤ) := by
        unfold rangeLimit
        have : (0 : ℚ) < (2 : ℚ) ^ (970 : ℤ) := by positivity
        linarith
      have : (2 : ℚ) ^ floorLog2 x < (2 : ℚ) ^ (1024 : ℤ) :=
        lt_of_le_of_lt lo (lt_trans hlt h1)
      have := (zpow_lt_zpow_iff_right₀ one_lt).mp this
      omega
    rcases eq_or_lt_of_le he with heq | hlt2
    · have hu : ulp x = (2 : ℚ) ^ (971 : ℤ) := by
        rw [ulp_normal x (by omega), heq]; norm_num
      have hy : x / ulp x < ((2 ^ 53 - 1 : ℤ) : ℚ) + 1 / 2 := by
        rw [div_lt_iff₀ (ulp_pos x), hu]
        rw [rangeLimit_split, e53] at hlt
        push_cast
        have e : ((9007199254740991 : ℚ) + 1 / 2) = 9007199254740992 - 1 / 2 := by norm_num
        rw [e]
        exact hlt
      have hn := roundHalfEven_le_of_lt_half (x / ulp x) (2 ^ 53 - 1) hy
      have hn' : (roundHalfEven (x / ulp x) : ℚ) ≤ (2 : ℚ) ^ (53 : ℤ) - 1 := by
        rw [e53]
        have : ((roundHalfEven (x / ulp x) : ℤ) : ℚ) ≤ ((2 ^ 53 - 1 : ℤ) : ℚ) := by
          exact_mod_cast hn
        have e : (((2 ^ 53 - 1 : ℤ)) : ℚ) = 9007199254740992 - 1 := by norm_num
        rw [e] at this
        exact this
      rw [roundMag_pos_eq x hpos, overflowBound_split]
      have h3 := mul_le_mul_of_nonneg_right hn' (le_of_lt hU)
      have h4 : ((2 : ℚ) ^ (53 : ℤ) - 1) * (2 : ℚ) ^ (971 : ℤ) <
          (2 : ℚ) ^ (53 : ℤ) * (2 : ℚ) ^ (971 : ℤ) := by
        apply mul_lt_mul_of_pos_right _ hU
        linarith
      rw [← hu] at h3 h4 ⊢
      exact lt_of_le_of_lt h3 h4
    · have h1 : x ≤ (2 : ℚ) ^ (1023 : ℤ) :=
        le_trans (le_of_lt up) (zpow_le_zpow_right₀ (le_of_lt one_lt) (by omega))
      have h2 := roundMag_le_pow x hpos 1023 (by norm_num) h1
      rw [overflowBound_half]
      have : (0 : ℚ) < (2 : ℚ) ^ (1023 : ℤ) := by positivity
      linarith

theorem isFloat64_zero : IsFloat64 0 :=
  ⟨0, 0, by norm_num, by norm_num, by norm_num, by norm_num⟩

/-! ## Lemmas on the numbers `parseNumber` returns -/

theorem digitsValue_nonneg_cast (ds : List Char) : (0 : ℚ) ≤ (digitsValue ds : ℚ) :=
  Nat.cast_nonneg _

theorem numeralValue_nonneg (c : List Char) : 0 ≤ numeralValue c := by
  unfold numeralValue
  simp only
  positivity

theorem round64_nonneg (v : ℚ) (hv : 0 ≤ v) :
    round64 v = if overflowBound ≤ roundMag v then Float64.inf false
      else Float64.finite (roundMag v) := by
  unfold round64
  simp only [abs_of_nonneg hv, not_lt.mpr hv, decide_False, if_false]

theorem numberOf_nonneg (v : ℚ) (hv : 0 ≤ v) :
    numberOf v = if overflowBound ≤ roundMag v then Float64.finite 0
      else Float64.finite (roundMag v) := by
  unfold numberOf
  rw [round64_nonneg v hv]
  split_ifs <;> rfl

/-- For `v ≥ 0` in range, the number made of `v` is a nearest `float64`. -/
theorem numberOf_in_range (v : ℚ) (hv : 0 ≤ v) (hr : v < rangeLimit) :
    numberOf v = Float64.finite (roundMag v) ∧ round64 v = Float64.finite (roundMag v) ∧
      IsFloat64 (roundMag v) ∧ ∀ f, IsFloat64 f → |roundMag v - v| ≤ |f - v| := by
  have hlt : roundMag v < overflowBound := (roundMag_lt_iff v hv).mpr hr
  refine ⟨?_, ?_, ?_, ?_⟩
  · rw [numberOf_nonneg v hv, if_neg (not_le.mpr hlt)]
  · rw [round64_nonneg v hv, if_neg (not_le.mpr hlt)]
  · rcases eq_or_lt_of_le hv with h0 | hpos
    · rw [← h0]
      have : roundMag 0 = 0 := by simp [roundMag]
      rw [this]
      exact isFloat64_zero
    · exact roundMag_isFloat64 v hpos hlt
  · rintro f ⟨m, e, hm, he1, _, rfl⟩
    rcases eq_or_lt_of_le hv with h0 | hpos
    · rw [← h0]
      have : roundMag 0 = 0 := by simp [roundMag]
      rw [this]
      simp
    · exact roundMag_nearest v hpos m e hm he1

theorem numberOf_out_of_range (v : ℚ) (hv : 0 ≤ v) (hr : rangeLimit ≤ v) :
    numberOf v = Float64.finite 0 := by
  have hge : overflowBound ≤ roundMag v := by
    by_contra hc
    exact absurd ((roundMag_lt_iff v hv).mp (lt_of_not_le hc)) (not_lt.mpr hr)
  rw [numberOf_nonneg v hv, if_pos hge]

/-- Every result of `parseNumber` is a finite value of binary64, not negative
(and so below `2^1024`). -/
theorem parseNumber_finite (s : List Char) :
    ∃ q : ℚ, parseNumber s = Float64.finite q ∧ 0 ≤ q ∧ q < overflowBound ∧ IsFloat64 q := by
  rw [parseNumber_eq]
  by_cases hv : ValidNumeral (cleaned s)
  · rw [if_pos hv]
    have h0 := numeralValue_nonneg (cleaned s)
    by_cases hr : numeralValue (cleaned s) < rangeLimit
    · obtain ⟨a, _, c, _⟩ := numberOf_in_range _ h0 hr
      exact ⟨_, a, roundMag_nonneg _ h0, (roundMag_lt_iff _ h0).mpr hr, c⟩
    · rw [numberOf_out_of_range _ h0 (not_lt.mp hr)]
      exact ⟨0, rfl, le_refl 0, overflowBound_pos, isFloat64_zero⟩
  · rw [if_neg hv]
    exact ⟨0, rfl, le_refl 0, overflowBound_pos, isFloat64_zero⟩

/-- Dividing a finite non-negative `float64` by `100` gives a finite
non-negative one, at most `1` when the dividend is at most `100`. -/
theorem div_hundred (p : ℚ) (hp : 0 ≤ p) (hlt : p < overflowBound) :
    (Float64.finite p).div (Float64.finite 100) = Float64.finite (roundMag (p / 100)) ∧
      0 ≤ roundMag (p / 100) ∧ IsFloat64 (roundMag (p / 100)) ∧
      (p ≤ 100 → roundMag (p / 100) ≤ 1) := by
  have hx : 0 ≤ p / 100 := by positivity
  have hbound : roundMag (p / 100) < overflowBound := by
    by_cases h0 : p = 0
    · rw [h0]; simp [roundMag, overflowBound_pos]
    · have hpos : 0 < p / 100 := by
        have : 0 < p := lt_of_le_of_ne hp (Ne.symm h0)
        positivity
      have h2 := roundMag_le_pow (p / 100) hpos 1023 (by norm_num)
      rw [overflowBound_half] at hlt ⊢
      have hP : (0 : ℚ) < (2 : ℚ) ^ (1023 : ℤ) := by positivity
      generalize (2 : ℚ) ^ (1023 : ℤ) = P at h2 hlt hP ⊢
      have := h2 (by linarith)
      linarith
  refine ⟨?_, roundMag_nonneg _ hx, ?_, ?_⟩
  · have hd : (Float64.finite p).div (Float64.finite 100) = round64 (p / 100) := by
      simp [Float64.div]
    rw [hd, round64_nonneg _ hx, if_neg (not_le.mpr hbound)]
  · by_cases h0 : p = 0
    · rw [h0]
      have : roundMag (0 / 100) = 0 := by simp [roundMag]
      rw [this]
      exact isFloat64_zero
    · have hpos : 0 < p / 100 := by
        have : 0 < p := lt_of_le_of_ne hp (Ne.symm h0)
        positivity
      exact roundMag_isFloat64 _ hpos hbound
  · intro h100
    by_cases h0 : p = 0
    · rw [h0]; simp [roundMag]
    · have hpos : 0 < p / 100 := by
        have : 0 < p := lt_of_le_of_ne hp (Ne.symm h0)
        positivity
      have h1 : p / 100 ≤ (2 : ℚ) ^ (0 : ℤ) := by
        rw [zpow_zero]; linarith
      have := roundMag_le_pow (p / 100) hpos 0 (by norm_num) h1
      simpa using this

theorem zero_div_hundred :
    (Float64.finite 0).div (Float64.finite 100) = Float64.finite 0 := by
  have h := (div_hundred 0 (le_refl 0) overflowBound_pos).1
  rw [h]
  simp [roundMag]

theorem parseNumber_no_digit (s : List Char) (h : ∀ c ∈ s, c.isDigit = false) :
    parseNumber s = Float64.finite 0 := by
  rw [parseNumber_eq, if_neg]
  rintro ⟨⟨d, hd, hdd⟩, _⟩
  have : d ∈ s := (List.mem_filter.mp hd).1
  rw [h d this] at hdd
  exact Bool.false_ne_true hdd

theorem parseNumber_trim_no_digit (t : List Char) (h : ∀ c ∈ t, c.isDigit = false) :
    parseNumber (TrimSpace t) = Float64.finite 0 :=
  parseNumber_no_digit _ (fun c hc => h c (mem_of_mem_trimSpace t c hc))

/-! ## Lemmas on `time.Parse` -/

theorem digitChar_spec (n : ℕ) :
    ('0' ≤ digitChar n ∧ digitChar n ≤ '9') ∧ (digitChar n).toNat - '0'.toNat = n % 10 := by
  unfold digitChar
  have h : n % 10 < 10 := Nat.mod_lt _ (by norm_num)
  generalize n % 10 = k at h
  interval_cases k <;> decide

theorem digitChar_of_digit (c : Char) (h : '0' ≤ c ∧ c ≤ '9') :
    digitChar (c.toNat - '0'.toNat) = c := by
  have h1 : 48 ≤ c.toNat ∧ c.toNat ≤ 57 := by
    have := (isDigit_iff c).mp h
    simp only [Char.isDigit, Bool.and_eq_true, decide_eq_true_eq] at this
    exact ⟨by simpa [Char.toNat, UInt32.le_def] using this.1,
      by simpa [Char.toNat, UInt32.le_def] using this.2⟩
  unfold digitChar
  have e : '0'.toNat = 48 := by decide
  rw [e]
  have : 48 + (c.toNat - 48) % 10 = c.toNat := by omega
  rw [this]
  exact Char.ofNat_toNat c

theorem digit_toNat_lt (c : Char) (h : '0' ≤ c ∧ c ≤ '9') : c.toNat - '0'.toNat < 10 := by
  have := digitChar_of_digit c h
  have e : '0'.toNat = 48 := by decide
  have h1 : c.toNat ≤ 57 := by
    have := (isDigit_iff c).mp h
    simp only [Char.isDigit, Bool.and_eq_true, decide_eq_true_eq] at this
    simpa [Char.toNat, UInt32.le_def] using this.2
  omega

theorem isDigit_zero (c : Char) (rest : List Char) :
    isDigit (c :: rest) 0 = decide ('0' ≤ c ∧ c ≤ '9') := by
  simp [isDigit]

theorem isDigit_one (c0 c : Char) (rest : List Char) :
    isDigit (c0 :: c :: rest) 1 = decide ('0' ≤ c ∧ c ≤ '9') := by
  simp [isDigit]

theorem getnum_twoDigits (n : ℕ) (hn : n < 100) (rest : List Char) :
    getnum (twoDigits n ++ rest) true = some (n, rest) := by
  obtain ⟨a1, a2⟩ := digitChar_spec (n / 10)
  obtain ⟨b1, b2⟩ := digitChar_spec n
  have e0 : isDigit (digitChar (n / 10) :: digitChar n :: rest) 0 = true := by
    rw [isDigit_zero]; exact decide_eq_true a1
  have e1 : isDigit (digitChar (n / 10) :: digitChar n :: rest) 1 = true := by
    rw [isDigit_one]; exact decide_eq_true b1
  have hv : (n / 10 % 10) * 10 + n % 10 = n := by omega
  simp only [getnum, twoDigits, List.cons_append, List.nil_append, e0, e1, Bool.not_true,
    Bool.false_eq_true, if_false, List.getD_cons_zero, List.getD_cons_succ, a2, b2, hv]
  rfl

theorem getnum_fixed_inv (s rest : List Char) (n : ℕ) (h : getnum s true = some (n, rest)) :
    s = twoDigits n ++ rest ∧ n < 100 := by
  cases s with
  | nil => simp [getnum, isDigit] at h
  | cons c0 t =>
    cases t with
    | nil =>
      simp only [getnum, isDigit] at h
      by_cases hc : '0' ≤ c0 ∧ c0 ≤ '9' <;> simp [hc] at h
    | cons c1 tl =>
      simp only [getnum, isDigit_zero, isDigit_one] at h
      by_cases hc0 : '0' ≤ c0 ∧ c0 ≤ '9'
      · by_cases hc1 : '0' ≤ c1 ∧ c1 ≤ '9'
        · simp only [hc0, hc1, decide_True, Bool.not_true, Bool.false_eq_true, if_false,
            List.getD_cons_zero, List.getD_cons_succ, List.drop_succ_cons, List.drop_zero,
            Option.some.injEq, Prod.mk.injEq] at h
          obtain ⟨hn, hrest⟩ := h
          have l0 := digit_toNat_lt c0 hc0
          have l1 := digit_toNat_lt c1 hc1
          have d0 := digitChar_of_digit c0 hc0
          have d1 := digitChar_of_digit c1 hc1
          generalize c0.toNat - '0'.toNat = a at l0 d0 ⊢
          generalize c1.toNat - '0'.toNat = b at l1 d1 ⊢
          have q0 : (a * 10 + b) / 10 = a := by omega
          have q1 : digitChar (a * 10 + b) = digitChar b := by
            unfold digitChar
            congr 2
            omega
          refine ⟨?_, by omega⟩
          simp only [twoDigits, List.cons_append, List.nil_append, q0, q1, d0, d1]
        · simp [hc0, hc1] at h
      · simp [hc0] at h

theorem skip_slash (rest : List Char) : skip ('/' :: rest) ['/'] = some rest := by
  simp [skip]

theorem skip_slash_inv (v rest : List Char) (h : skip v ['/'] = some rest) :
    v = '/' :: rest := by
  match v, h with
  | [], h => simp [skip] at h
  | c :: tl, h =>
    by_cases hc : c = '/'
    · subst hc
      simp [skip] at h
      rw [h]
    · simp [skip, hc] at h

theorem daysIn_eq (m y : ℕ) (h1 : 1 ≤ m) (h2 : m ≤ 12) : daysIn m y = monthLength y m := by
  interval_cases m <;> simp [daysIn, daysBefore, monthLength, isLeap]

theorem atoi_fourDigits (y : ℕ) (hy : y ≤ 9999) : atoi (fourDigits y) = some y := by
  obtain ⟨a1, a2⟩ := digitChar_spec (y / 1000)
  obtain ⟨b1, b2⟩ := digitChar_spec (y / 100)
  obtain ⟨c1, c2⟩ := digitChar_spec (y / 10)
  obtain ⟨d1, d2⟩ := digitChar_spec y
  have hall : (fourDigits y).all (fun c => decide ('0' ≤ c ∧ c ≤ '9')) = true := by
    simp only [fourDigits, List.all_cons, List.all_nil, Bool.and_true, Bool.and_eq_true,
      decide_eq_true_eq]
    exact ⟨a1, b1, c1, d1⟩
  unfold atoi
  rw [if_pos hall]
  simp only [fourDigits, List.foldl_cons, List.foldl_nil, a2, b2, c2, d2]
  congr 1
  omega

theorem year_inv (value : List Char) (year : ℕ) (hlen : ¬ value.length < 4)
    (hdrop : (value.drop 4).length = 0) (ha : atoi (value.take 4) = some year) :
    value = fourDigits year ∧ year ≤ 9999 := by
  have h4 : value.length = 4 := by
    rw [List.length_drop] at hdrop
    omega
  match value, h4 with
  | [a, b, c, d], _ =>
    unfold atoi at ha
    simp only [List.take, List.all_cons, List.all_nil, Bool.and_true, Bool.and_eq_true,
      decide_eq_true_eq] at ha
    by_cases hd : ('0' ≤ a ∧ a ≤ '9') ∧ ('0' ≤ b ∧ b ≤ '9') ∧ ('0' ≤ c ∧ c ≤ '9') ∧
        ('0' ≤ d ∧ d ≤ '9')
    · rw [if_pos hd] at ha
      simp only [List.foldl_cons, List.foldl_nil, Option.some.injEq] at ha
      obtain ⟨ha', hb', hc', hd'⟩ := hd
      have la := digit_toNat_lt a ha'
      have lb := digit_toNat_lt b hb'
      have lc := digit_toNat_lt c hc'
      have ld := digit_toNat_lt d hd'
      have ea := digitChar_of_digit a ha'
      have eb := digitChar_of_digit b hb'
      have ec := digitChar_of_digit c hc'
      have ed := digitChar_of_digit d hd'
      generalize a.toNat - '0'.toNat = na at la ea ha
      generalize b.toNat - '0'.toNat = nb at lb eb ha
      generalize c.toNat - '0'.toNat = nc at lc ec ha
      generalize d.toNat - '0'.toNat = nd at ld ed ha
      have q1 : digitChar (year / 1000) = digitChar na := by
        unfold digitChar; congr 2; omega
      have q2 : digitChar (year / 100) = digitChar nb := by
        unfold digitChar; congr 2; omega
      have q3 : digitChar (year / 10) = digitChar nc := by
        unfold digitChar; congr 2; omega
      have q4 : digitChar year = digitChar nd := by
        unfold digitChar; congr 2; omega
      refine ⟨?_, by omega⟩
      simp only [fourDigits, q1, q2, q3, q4, ea, eb, ec, ed]
    · rw [if_neg hd] at ha
      exact absurd ha (by simp)

/-- A text `DD/MM/YYYY` for an existing date is parsed to that date. -/
theorem parse_dateText (y m d : ℕ) (h : ExistingDate y m d) :
    Parse (dateText d m y) = Except.ok { year := y, month := m, day := d } := by
  obtain ⟨hy, hm1, hm2, hd1, hd2⟩ := h
  have hml : monthLength y m ≤ 31 := by
    unfold monthLength; split_ifs <;> omega
  have e1 := getnum_twoDigits d (by omega) ('/' :: (twoDigits m ++ '/' :: fourDigits y))
  have e2 := getnum_twoDigits m (by omega) ('/' :: fourDigits y)
  have e3 := atoi_fourDigits y hy
  have e4 : isDigit (fourDigits y) 0 = true := by
    rw [fourDigits, isDigit_zero]
    exact decide_eq_true (digitChar_spec (y / 1000)).1
  have e5 : daysIn m y = monthLength y m := daysIn_eq m y hm1 hm2
  have l4 : (fourDigits y).length = 4 := rfl
  have t4 : (fourDigits y).take 4 = fourDigits y := rfl
  have d4 : (fourDigits y).drop 4 = [] := rfl
  unfold Parse dateText
  simp only [e1, skip_slash, e2]
  rw [if_neg (by omega)]
  simp only [l4, e4, t4, e3, d4, e5]
  rw [if_neg (by simp), if_neg (by simp), if_neg (by omega)]

/-- A text that is parsed has the form `DD/MM/YYYY` and denotes the date
returned, which exists. -/
theorem parse_inv (t : List Char) (T : Time) (h : Parse t = Except.ok T) :
    ExistingDate T.year T.month T.day ∧ t = dateText T.day T.month T.year := by
  unfold Parse at h
  cases h1 : getnum t true with
  | none => rw [h1] at h; simp at h
  | some p1 =>
    obtain ⟨day, v1⟩ := p1
    rw [h1] at h
    simp only at h
    cases h2 : skip v1 ['/'] with
    | none => rw [h2] at h; simp at h
    | some v2 =>
      rw [h2] at h
      simp only at h
      cases h3 : getnum v2 true with
      | none => rw [h3] at h; simp at h
      | some p3 =>
        obtain ⟨month, v3⟩ := p3
        rw [h3] at h
        simp only at h
        by_cases hm : month ≤ 0 ∨ 12 < month
        · rw [if_pos hm] at h; simp at h
        · rw [if_neg hm] at h
          cases h4 : skip v3 ['/'] with
          | none => rw [h4] at h; simp at h
          | some v4 =>
            rw [h4] at h
            simp only at h
            by_cases hl : v4.length < 4 ∨ (!isDigit v4 0) = true
            · rw [if_pos hl] at h; simp at h
            · rw [if_neg hl] at h
              cases h5 : atoi (v4.take 4) with
              | none => rw [h5] at h; simp at h
              | some year =>
                rw [h5] at h
                simp only at h
                by_cases hx : (v4.drop 4).length ≠ 0
                · rw [if_pos hx] at h; simp at h
                · rw [if_neg hx] at h
                  by_cases hd : day < 1 ∨ day > daysIn month year
                  · rw [if_pos hd] at h; simp at h
                  · rw [if_neg hd] at h
                    have hT : T = { year := year, month := month, day := day } :=
                      (Except.ok.inj h).symm
                    subst hT
                    obtain ⟨a1, _⟩ := getnum_fixed_inv t v1 day h1
                    have a2 := skip_slash_inv v1 v2 h2
                    obtain ⟨a3, _⟩ := getnum_fixed_inv v2 v3 month h3
                    have a4 := skip_slash_inv v3 v4 h4
                    obtain ⟨a5, a6⟩ := year_inv v4 year (fun c => hl (Or.inl c))
                      (by simpa using hx) h5
                    have hm' : 1 ≤ month ∧ month ≤ 12 := by omega
                    have e5 := daysIn_eq month year hm'.1 hm'.2
                    have hd1 : 1 ≤ day := by omega
                    have hd2 : day ≤ monthLength year month := by omega
                    refine ⟨⟨a6, hm'.1, hm'.2, hd1, hd2⟩, ?_⟩
                    simp only [dateText]
                    rw [a1, a2, a3, a4, a5]

theorem digitsValue_two (a b : Char) :
    digitsValue [a, b] = (a.toNat - '0'.toNat) * 10 + (b.toNat - '0'.toNat) := by
  have e : '0'.toNat = 48 := by decide
  simp only [digitsValue, List.foldl_cons, List.foldl_nil, e]
  omega

theorem digitsValue_four (a b c d : Char) :
    digitsValue [a, b, c, d] = (a.toNat - '0'.toNat) * 1000 + (b.toNat - '0'.toNat) * 100 +
      (c.toNat - '0'.toNat) * 10 + (d.toNat - '0'.toNat) := by
  have e : '0'.toNat = 48 := by decide
  simp only [digitsValue, List.foldl_cons, List.foldl_nil, e]
  omega

theorem dateValue_dateText (d m y : ℕ) (hd : d < 100) (hm : m < 100) (hy : y ≤ 9999) :
    dateValue (dateText d m y) = { year := y, month := m, day := d } := by
  have h1 : (dateText d m y).take 2 = [digitChar (d / 10), digitChar d] := rfl
  have h2 : ((dateText d m y).drop 3).take 2 = [digitChar (m / 10), digitChar m] := rfl
  have h3 : ((dateText d m y).drop 6).take 4 =
      [digitChar (y / 1000), digitChar (y / 100), digitChar (y / 10), digitChar y] := rfl
  unfold dateValue
  rw [h1, h2, h3, digitsValue_two, digitsValue_two, digitsValue_four]
  simp only [(digitChar_spec _).2]
  congr 1 <;> omega

theorem isDateText_iff (t : List Char) :
    IsDateText t ↔ ∃ y m d, ExistingDate y m d ∧ t = dateText d m y := by
  constructor
  · rintro ⟨h1, h2⟩
    exact ⟨_, _, _, h1, h2⟩
  · rintro ⟨y, m, d, h, rfl⟩
    have hml : monthLength y m ≤ 31 := by
      unfold monthLength; split_ifs <;> omega
    obtain ⟨hy, hm1, hm2, hd1, hd2⟩ := h
    have e := dateValue_dateText d m y (by omega) (by omega) hy
    unfold IsDateText
    rw [e]
    exact ⟨⟨hy, hm1, hm2, hd1, hd2⟩, rfl⟩

/-- The texts `time.Parse` accepts are the `DD/MM/YYYY` texts of existing
dates, and the result is the date the text denotes. -/
theorem parse_iff (t : List Char) (T : Time) :
    Parse t = Except.ok T ↔ IsDateText t ∧ T = dateValue t := by
  constructor
  · intro h
    obtain ⟨hex, ht⟩ := parse_inv t T h
    have hml : monthLength T.year T.month ≤ 31 := by
      unfold monthLength; split_ifs <;> omega
    obtain ⟨hy, hm1, hm2, hd1, hd2⟩ := hex
    have e := dateValue_dateText T.day T.month T.year (by omega) (by omega) hy
    rw [← ht] at e
    refine ⟨(isDateText_iff t).mpr ⟨_, _, _, ⟨hy, hm1, hm2, hd1, hd2⟩, ht⟩, ?_⟩
    rw [e]
  · rintro ⟨⟨h1, h2⟩, rfl⟩
    have := parse_dateText _ _ _ h1
    rw [← h2] at this
    exact this

theorem parse_error_of_not (t : List Char) (h : ¬ IsDateText t) :
    ∃ e, Parse t = Except.error e := by
  cases hp : Parse t with
  | error e => exact ⟨e, rfl⟩
  | ok T => exact absurd ((parse_iff t T).mp hp).1 h

theorem parse_of_isDateText (t : List Char) (h : IsDateText t) :
    Parse t = Except.ok (dateValue t) :=
  (parse_iff t _).mpr ⟨h, rfl⟩

/-! ## Lemmas on the item loop -/

theorem investorItem_eq (investors : List Investor) (i : ℕ) (s : ListItem) :
    investorItem investors i s =
      if WellFormedItem s then investors ++ [investorOf s] else investors := by
  unfold investorItem
  simp only
  by_cases h2 : (SplitWord (TrimSpace s.Text) "Updated".toList).length ≠ 2
  · rw [dif_pos h2, if_neg]
    intro h
    exact h2 h.1
  · rw [dif_neg h2]
    have hlen : (segments s).length = 2 := by
      unfold segments; omega
    have s0 : (SplitWord (TrimSpace s.Text) "Updated".toList)[0] = (segments s).getD 0 [] := by
      rw [List.getD_eq_getElem _ _ (by omega)]
      rfl
    have s1 : (SplitWord (TrimSpace s.Text) "Updated".toList)[1] = (segments s).getD 1 [] := by
      rw [List.getD_eq_getElem _ _ (by omega)]
      rfl
    simp only [s0, s1]
    by_cases hd : IsDateText (TrimSpace ((segments s).getD 1 []))
    · rw [parse_of_isDateText _ hd]
      simp only
      cases hh : s.href with
      | none =>
        rw [if_neg]
        intro h
        have := h.2.2
        rw [hh] at this
        exact Bool.false_ne_true this
      | some href =>
        rw [if_pos ⟨hlen, hd, by rw [hh]; rfl⟩]
        simp only [investorOf, hh, Option.getD_some]
    · obtain ⟨e, he⟩ := parse_error_of_not _ hd
      rw [he, if_neg]
      intro h
      exact hd h.2.1

theorem each_investorItem (items : List ListItem) (i : ℕ) (acc : List Investor) :
    Each investorItem i items acc = acc ++ investorsOf items := by
  induction items generalizing i acc with
  | nil => simp [Each, investorsOf]
  | cons s rest ih =>
    rw [Each, ih, investorItem_eq]
    by_cases h : WellFormedItem s
    · simp [investorsOf, h]
    · simp [investorsOf, h]

theorem investorsOfItems_eq (items : List ListItem) :
    investorsOfItems items = Except.ok (investorsOf items) := by
  simp [investorsOfItems, each_investorItem]

theorem investorsOf_append (xs ys : List ListItem) :
    investorsOf (xs ++ ys) = investorsOf xs ++ investorsOf ys := by
  simp [investorsOf]

theorem investorsOf_cons (s : ListItem) (rest : List ListItem) :
    investorsOf (s :: rest) =
      (if WellFormedItem s then [investorOf s] else []) ++ investorsOf rest := by
  by_cases h : WellFormedItem s <;> simp [investorsOf, h]

theorem mem_investorsOf (items : List ListItem) (inv : Investor) (h : inv ∈ investorsOf items) :
    ∃ s ∈ items, WellFormedItem s ∧ inv = investorOf s := by
  unfold investorsOf at h
  obtain ⟨s, hs, e⟩ := List.mem_map.mp h
  obtain ⟨m, r⟩ := List.mem_filter.mp hs
  exact ⟨s, m, by simpa using r, e.symm⟩

/-- Every record of the directory has a URL that starts with the origin of
the site, so it is not empty. -/
theorem url_ne_nil (items : List ListItem) (inv : Investor) (h : inv ∈ investorsOf items) :
    inv.URL ≠ [] := by
  obtain ⟨s, _, _, rfl⟩ := mem_investorsOf items inv h
  simp [investorOf]

/-! ## Lemmas on `SplitWord` and `Contains` -/

theorem splitWordGo_none (sep cur s : List Char) (h : ¬ sep <:+: s) :
    splitWordGo sep 0 cur s = [cur.reverse ++ s] := by
  induction s generalizing cur with
  | nil => simp [splitWordGo]
  | cons c cs ih =>
    have h1 : ¬ sep.isPrefixOf (c :: cs) = true := fun hp =>
      h (List.isPrefixOf_iff_prefix.mp hp).isInfix
    have h2 : ¬ sep <:+: cs := fun hi => h (List.infix_cons hi)
    rw [splitWordGo, if_neg h1, ih _ h2]
    simp

theorem splitWordGo_skip (sep : List Char) (x cur s : List Char) :
    splitWordGo sep x.length cur (x ++ s) =
      if x ++ s = [] then [cur.reverse] else splitWordGo sep 0 cur s := by
  induction x with
  | nil =>
    cases s with
    | nil => simp [splitWordGo]
    | cons c cs => simp
  | cons a x ih =>
    rw [List.length_cons, List.cons_append, splitWordGo, ih]
    by_cases hx : x ++ s = []
    · have hs : s = [] := (List.append_eq_nil.mp hx).2
      subst hs
      simp [hx, splitWordGo]
    · simp [hx]

/-- The leftmost occurrence: when no occurrence of the separator starts
inside `l`, the first piece of `l ++ sep ++ r` is `l`, and the split goes on
with `r`. -/
theorem splitWordGo_first (sep : List Char) (hsep : sep ≠ []) (l r cur : List Char)
    (h : ∀ l1 l2, l = l1 ++ l2 → l2 ≠ [] → ¬ sep <+: l2 ++ (sep ++ r)) :
    splitWordGo sep 0 cur (l ++ (sep ++ r)) = (cur.reverse ++ l) :: splitWordGo sep 0 [] r := by
  induction l generalizing cur with
  | nil =>
    cases sep with
    | nil => exact absurd rfl hsep
    | cons c sep' =>
      have hp : (c :: sep').isPrefixOf (c :: (sep' ++ r)) = true :=
        List.isPrefixOf_iff_prefix.mpr ⟨r, by simp⟩
      rw [List.nil_append, List.cons_append, splitWordGo, if_pos hp]
      simp only [List.length_cons, Nat.add_sub_cancel, List.append_nil]
      rw [splitWordGo_skip]
      by_cases he : sep' ++ r = []
      · have hr : r = [] := (List.append_eq_nil.mp he).2
        subst hr
        simp [he, splitWordGo]
      · simp [he]
  | cons a l ih =>
    have hp : ¬ sep.isPrefixOf (a :: (l ++ (sep ++ r))) = true := fun hq =>
      h [] (a :: l) rfl (by simp) (List.isPrefixOf_iff_prefix.mp hq)
    have h' : ∀ l1 l2, l = l1 ++ l2 → l2 ≠ [] → ¬ sep <+: l2 ++ (sep ++ r) := by
      intro l1 l2 e hne
      exact h (a :: l1) l2 (by simp [e]) hne
    rw [List.cons_append, splitWordGo, if_neg hp, ih _ h']
    simp

/-- The label `Updated` cannot start inside a text that does not contain it
and end inside a following `Updated`: its first letter occurs nowhere else in
it. -/
theorem updated_no_overlap (l2 rest : List Char) (hne : l2 ≠ [])
    (hl : ¬ "Updated".toList <:+: l2) :
    ¬ "Updated".toList <+: l2 ++ ("Updated".toList ++ rest) := by
  intro hp
  match l2, hne, hl with
  | [a], _, _ => simp [List.cons_prefix_cons] at hp
  | [a, b], _, _ => simp [List.cons_prefix_cons] at hp
  | [a, b, c], _, _ => simp [List.cons_prefix_cons] at hp
  | [a, b, c, d], _, _ => simp [List.cons_prefix_cons] at hp
  | [a, b, c, d, e], _, _ => simp [List.cons_prefix_cons] at hp
  | [a, b, c, d, e, f], _, _ => simp [List.cons_prefix_cons] at hp
  | a :: b :: c :: d :: e :: f :: g :: tl, _, hl =>
    apply hl
    simp only [String.toList, List.cons_append, List.cons_prefix_cons] at hp
    obtain ⟨h1, h2, h3, h4, h5, h6, h7, _⟩ := hp
    subst h1 h2 h3 h4 h5 h6 h7
    exact ⟨[], tl, rfl⟩

/-- A text with the label `Updated` once splits into what is before and what
is after it. -/
theorem splitWord_updated (l r : List Char) (hl : ¬ "Updated".toList <:+: l)
    (hr : ¬ "Updated".toList <:+: r) :
    SplitWord (l ++ ("Updated".toList ++ r)) "Updated".toList = [l, r] := by
  have hsep : "Updated".toList ≠ [] := by decide
  unfold SplitWord
  rw [splitWordGo_first _ hsep l r [] ?_, splitWordGo_none _ [] r hr]
  · simp
  · intro l1 l2 e hne
    apply updated_no_overlap l2 r hne
    intro hi
    apply hl
    rw [e]
    exact List.IsInfix.trans hi (List.infix_append' l1 l2 [] |> fun h => by simpa using h)

/-- The split finds the leftmost occurrence of the separator, if there is
one. -/
theorem splitWordGo_cases (sep : List Char) (hsep : sep ≠ []) (s cur : List Char) :
    (¬ sep <:+: s ∧ splitWordGo sep 0 cur s = [cur.reverse ++ s]) ∨
    ∃ l r, s = l ++ (sep ++ r) ∧
      (∀ l1 l2, l = l1 ++ l2 → l2 ≠ [] → ¬ sep <+: l2 ++ (sep ++ r)) ∧
      splitWordGo sep 0 cur s = (cur.reverse ++ l) :: splitWordGo sep 0 [] r := by
  induction s generalizing cur with
  | nil =>
    left
    refine ⟨?_, by simp [splitWordGo]⟩
    intro h
    exact hsep (List.eq_nil_of_infix_nil h)
  | cons c cs ih =>
    by_cases hp : sep <+: c :: cs
    · right
      obtain ⟨r, hr⟩ := hp
      have h0 : ∀ l1 l2 : List Char, ([] : List Char) = l1 ++ l2 → l2 ≠ [] →
          ¬ sep <+: l2 ++ (sep ++ r) := by
        intro l1 l2 e hne
        exact absurd (List.append_eq_nil.mp e.symm).2 hne
      refine ⟨[], r, by simp [hr], h0, ?_⟩
      have := splitWordGo_first sep hsep [] r cur h0
      rw [List.nil_append, hr] at this
      exact this
    · have hq : ¬ sep.isPrefixOf (c :: cs) = true := fun h =>
        hp (List.isPrefixOf_iff_prefix.mp h)
      rcases ih (c :: cur) with ⟨h1, h2⟩ | ⟨l, r, h1, h2, h3⟩
      · left
        refine ⟨?_, ?_⟩
        · intro hi
          rcases List.infix_cons_iff.mp hi with h | h
          · exact hp h
          · exact h1 h
        · rw [splitWordGo, if_neg hq, h2]
          simp
      · right
        refine ⟨c :: l, r, by simp [h1], ?_, ?_⟩
        · intro l1 l2 e hne
          cases l1 with
          | nil =>
            simp only [List.nil_append] at e
            rw [← e, List.cons_append, ← h1]
            exact hp
          | cons a l1 =>
            simp only [List.cons_append, List.cons.injEq] at e
            exact h2 l1 l2 e.2 hne
        · rw [splitWordGo, if_neg hq, h3]
          simp

theorem splitWordGo_length_pos (sep cur s : List Char) (k : ℕ) :
    1 ≤ (splitWordGo sep k cur s).length := by
  induction s generalizing cur k with
  | nil => simp [splitWordGo]
  | cons c cs ih =>
    cases k with
    | zero =>
      rw [splitWordGo]
      split_ifs
      · simp
      · exact ih _ _
    | succ k =>
      rw [splitWordGo]
      exact ih _ _

/-- A text that splits on `Updated` into two segments is the first segment,
the label, and the second segment, and neither segment contains the label. -/
theorem splitWord_two_inv (t : List Char)
    (h : (SplitWord t "Updated".toList).length = 2) :
    ∃ l r, t = l ++ ("Updated".toList ++ r) ∧ ¬ "Updated".toList <:+: l ∧
      ¬ "Updated".toList <:+: r ∧ SplitWord t "Updated".toList = [l, r] := by
  have hsep : "Updated".toList ≠ [] := by decide
  unfold SplitWord at h ⊢
  rcases splitWordGo_cases _ hsep t [] with ⟨_, h2⟩ | ⟨l, r, h1, h2, h3⟩
  · rw [h2] at h
    simp at h
  · rw [h3] at h ⊢
    have hr1 : (splitWordGo "Updated".toList 0 [] r).length = 1 := by
      simpa using h
    have hr : ¬ "Updated".toList <:+: r ∧
        splitWordGo "Updated".toList 0 [] r = [r] := by
      rcases splitWordGo_cases _ hsep r [] with ⟨a, b⟩ | ⟨l', r', _, _, b⟩
      · exact ⟨a, by simpa using b⟩
      · rw [b, List.length_cons] at hr1
        have := splitWordGo_length_pos "Updated".toList [] r' 0
        omega
    refine ⟨l, r, h1, ?_, hr.1, by rw [hr.2]; simp⟩
    rintro ⟨p, q, e⟩
    apply h2 p ("Updated".toList ++ q) (by rw [← e]; simp) (by simp [hsep])
    exact ⟨q ++ ("Updated".toList ++ r), by simp⟩

theorem contains_iff (s sub : List Char) : Contains s sub = true ↔ sub <:+: s := by
  induction s with
  | nil =>
    rw [Contains, List.isPrefixOf_iff_prefix]
    constructor
    · intro h; exact h.isInfix
    · intro h
      rw [List.eq_nil_of_infix_nil h]
  | cons c cs ih =>
    rw [Contains, Bool.or_eq_true, List.isPrefixOf_iff_prefix, ih, List.infix_cons_iff]

theorem findInvestor_none (name url : List Char) (investors : List Investor)
    (h : ∀ inv ∈ investors, ¬ name <:+: inv.Name) :
    findInvestor name url investors = url := by
  induction investors with
  | nil => rfl
  | cons inv rest ih =>
    have h1 : ¬ Contains inv.Name name = true := fun hc =>
      h inv (by simp) ((contains_iff _ _).mp hc)
    rw [findInvestor, if_neg h1]
    exact ih (fun i hi => h i (List.mem_cons_of_mem _ hi))

theorem findInvestor_first (name url : List Char) (pre post : List Investor) (inv : Investor)
    (hpre : ∀ p ∈ pre, ¬ name <:+: p.Name) (hinv : name <:+: inv.Name) :
    findInvestor name url (pre ++ inv :: post) = inv.URL := by
  induction pre with
  | nil =>
    rw [List.nil_append, findInvestor, if_pos ((contains_iff _ _).mpr hinv)]
  | cons p rest ih =>
    have h1 : ¬ Contains p.Name name = true := fun hc =>
      hpre p (by simp) ((contains_iff _ _).mp hc)
    rw [List.cons_append, findInvestor, if_neg h1]
    exact ih (fun i hi => hpre i (List.mem_cons_of_mem _ hi))

/-- The directory splits at its first matching record, if any. -/
theorem first_match (name : List Char) (investors : List Investor) :
    (∀ inv ∈ investors, ¬ name <:+: inv.Name) ∨
    ∃ pre inv post, investors = pre ++ inv :: post ∧ (∀ p ∈ pre, ¬ name <:+: p.Name) ∧
      name <:+: inv.Name := by
  induction investors with
  | nil => left; simp
  | cons a rest ih =>
    by_cases ha : name <:+: a.Name
    · right
      exact ⟨[], a, rest, rfl, by simp, ha⟩
    · rcases ih with h | ⟨pre, inv, post, e, h1, h2⟩
      · left
        intro inv hinv
        rcases List.mem_cons.mp hinv with e | e
        · rw [e]; exact ha
        · exact h inv e
      · right
        refine ⟨a :: pre, inv, post, by simp [e], ?_, h2⟩
        intro p hp
        rcases List.mem_cons.mp hp with e | e
        · rw [e]; exact ha
        · exact h1 p e

/-! ## Lemmas on the resolver -/

theorem resolveInvestor_eq (U : UnicodeTables) (investors : List Investor)
    (fragment : List Char) :
    resolveInvestor U investors fragment =
      if findInvestor (normalized U fragment) [] investors = [] then
        Except.error (notFound U fragment)
      else Except.ok (findInvestor (normalized U fragment) [] investors) := rfl

theorem resolve_none (U : UnicodeTables) (investors : List Investor) (fragment : List Char)
    (h : ∀ inv ∈ investors, ¬ Matches U fragment inv) :
    resolveInvestor U investors fragment = Except.error (notFound U fragment) := by
  rw [resolveInvestor_eq, findInvestor_none _ _ _ h, if_pos rfl]

theorem resolve_first (U : UnicodeTables) (pre post : List Investor) (inv : Investor)
    (fragment : List Char) (hpre : ∀ p ∈ pre, ¬ Matches U fragment p)
    (hinv : Matches U fragment inv) (hurl : inv.URL ≠ []) :
    resolveInvestor U (pre ++ inv :: post) fragment = Except.ok inv.URL := by
  rw [resolveInvestor_eq, findInvestor_first _ _ pre post inv hpre hinv, if_neg hurl]

theorem getAllInvestors_page (web : List Char → Fetched) (doc : Document)
    (h : web "https://www.dataroma.com/m/home.php".toList = Fetched.page doc) :
    GetAllInvestors web = Except.ok (investorsOf doc.portBody) := by
  unfold GetAllInvestors
  simp only [h]
  exact investorsOfItems_eq _

theorem getInvestorPortfolio_found (U : UnicodeTables) (web : List Char → Fetched)
    (doc : Document) (fragment url : List Char)
    (h : web "https://www.dataroma.com/m/home.php".toList = Fetched.page doc)
    (hr : resolveInvestor U (investorsOf doc.portBody) fragment = Except.ok url) :
    GetInvestorPortfolio U web fragment = portfolioAt web url := by
  unfold GetInvestorPortfolio
  rw [getAllInvestors_page web doc h]
  simp only [hr]

theorem getInvestorPortfolio_missing (U : UnicodeTables) (web : List Char → Fetched)
    (doc : Document) (fragment : List Char) (err : String)
    (h : web "https://www.dataroma.com/m/home.php".toList = Fetched.page doc)
    (hr : resolveInvestor U (investorsOf doc.portBody) fragment = Except.error err) :
    GetInvestorPortfolio U web fragment = Except.error err := by
  unfold GetInvestorPortfolio
  rw [getAllInvestors_page web doc h]
  simp only [hr]

theorem directory_of_items (items : List ListItem) (investors : List Investor)
    (h : investorsOfItems items = Except.ok investors) : investors = investorsOf items := by
  rw [investorsOfItems_eq] at h
  exact (Except.ok.inj h).symm

/-- Every well-formed item has the shape `investor_fields` asks for. -/
theorem wellFormed_shape (s : ListItem) (h : WellFormedItem s) :
    ∃ (href l r : List Char) (d m y : ℕ), s.href = some href ∧
      TrimSpace s.Text = l ++ ("Updated".toList ++ r) ∧
      ¬ "Updated".toList <:+: l ∧ ¬ "Updated".toList <:+: r ∧
      ExistingDate y m d ∧ TrimSpace r = dateText d m y := by
  obtain ⟨h2, hd, hh⟩ := h
  obtain ⟨l, r, e, hl, hr, hs⟩ := splitWord_two_inv (TrimSpace s.Text) h2
  have hseg : segments s = [l, r] := hs
  rw [hseg] at hd
  simp only [List.getD_cons_succ, List.getD_cons_zero] at hd
  obtain ⟨y, m, d, hex, ht⟩ := (isDateText_iff _).mp hd
  cases hhr : s.href with
  | none => rw [hhr] at hh; exact absurd hh (by simp)
  | some href => exact ⟨href, l, r, d, m, y, rfl, e, hl, hr, hex, ht⟩

theorem not_isDateText_monthFirst (y m d : ℕ) (h : ExistingDate y m d) (hd : 12 < d) :
    ¬ IsDateText (monthFirstText d m y) := by
  intro hc
  have hml : monthLength y m ≤ 31 := by
    unfold monthLength; split_ifs <;> omega
  obtain ⟨hy, hm1, hm2, hd1, hd2⟩ := h
  have e := dateValue_dateText m d y (by omega) (by omega) hy
  unfold IsDateText monthFirstText at hc
  rw [e] at hc
  have := hc.1.2.2.1
  simp only at this
  omega

theorem item_dropped (pre post : List ListItem) (s : ListItem) (h : ¬ WellFormedItem s) :
    investorsOfItems (pre ++ s :: post) = investorsOfItems (pre ++ post) := by
  rw [investorsOfItems_eq, investorsOfItems_eq, investorsOf_append, investorsOf_append,
    investorsOf_cons, if_neg h]
  rfl

theorem reNonNumeric_eq (c : Char) : reNonNumeric c = !(c.isDigit || c == '.') := by
  unfold reNonNumeric
  by_cases hd : c.isDigit = true
  · have h1 : '0' ≤ c ∧ c ≤ '9' := (isDigit_iff c).mpr hd
    simp [h1, hd]
  · have h1 : ¬ ('0' ≤ c ∧ c ≤ '9') := fun h => hd ((isDigit_iff c).mp h)
    have h2 : (decide ('0' ≤ c) && decide (c ≤ '9')) = false := by
      simpa using h1
    simp only [Bool.not_eq_true] at hd
    rw [h2, hd]

theorem cleaned_insert (a b : List Char) (c : Char) (hc : reNonNumeric c = true) :
    cleaned (a ++ c :: b) = cleaned (a ++ b) := by
  have h : (c.isDigit || c == '.') = false := by
    rw [reNonNumeric_eq] at hc
    simpa using hc
  unfold cleaned
  rw [List.filter_append, List.filter_append, List.filter_cons, h]
  simp

theorem cleaned_idem (s : List Char) : cleaned (cleaned s) = cleaned s := by
  unfold cleaned
  rw [List.filter_filter]
  simp

theorem parseNumber_congr (s t : List Char) (h : cleaned s = cleaned t) :
    parseNumber s = parseNumber t := by
  rw [parseNumber_eq, parseNumber_eq, h]

theorem title_nil (U : UnicodeTables) (s : List Char) : (Title U s).length = s.length := by
  unfold Title
  generalize ' ' = prev
  induction s generalizing prev with
  | nil => rfl
  | cons c cs ih => simp [titleGo, ih]

theorem normalized_eq_nil (U : UnicodeTables) (fragment : List Char) :
    normalized U fragment = [] ↔ fragment = [] := by
  constructor
  · intro h
    have := congrArg List.length h
    rw [normalized, title_nil, ToLower, List.length_map] at this
    exact List.length_eq_zero.mp this
  · rintro rfl
    rfl

/-! ## Lemmas on the kept rows, without `Split` -/

theorem takeDrop_hyphen (a b : List Char) (ha : '-' ∉ a) :
    beforeHyphen (a ++ '-' :: b) = a ∧ afterHyphen (a ++ '-' :: b) = b := by
  unfold beforeHyphen afterHyphen
  induction a with
  | nil => simp
  | cons x xs ih =>
    have hx : x ≠ '-' := fun e => ha (by simp [e])
    obtain ⟨i1, i2⟩ := ih (fun h => ha (List.mem_cons_of_mem _ h))
    simp only [List.cons_append, List.takeWhile_cons, List.dropWhile_cons]
    simp [hx, i1, i2]

theorem cellsOf_getD (tds : List (List Char)) (i : ℕ) :
    (cellsOf tds).getD i [] = TrimSpace (tds.getD i []) := by
  unfold cellsOf
  induction tds generalizing i with
  | nil => simp; rfl
  | cons t ts ih =>
    cases i with
    | zero => simp
    | succ i => simpa using ih i

theorem keptRow_iff_retained (tds : List (List Char)) : KeptRow tds ↔ Retained tds := by
  rw [retained_iff_count, cellsOf_getD]
  rfl

theorem rowHolding_eq (tds : List (List Char)) (h : Retained tds) :
    rowHolding tds = holdingOf tds := by
  obtain ⟨t0, t1, t2, t3, t4, more, a, b, rfl, h0, ha, hb⟩ := retained_shape tds h
  obtain ⟨_, he⟩ := row_entry t0 t1 t2 t3 t4 more a b h0 ha hb
  obtain ⟨e1, e2⟩ := takeDrop_hyphen a b ha
  rw [he]
  simp only [rowHolding, List.getD_cons_zero, List.getD_cons_succ, h0, e1, e2]

theorem holdingsOf_eq_kept (rows : List (List (List Char))) :
    holdingsOf rows = (rows.filter (fun r => decide (KeptRow r))).map rowHolding := by
  unfold holdingsOf
  have hf : (fun r => decide (KeptRow r)) = (fun r => decide (Retained r)) := by
    funext r
    exact decide_eq_decide.mpr (keptRow_iff_retained r)
  rw [hf]
  apply List.map_congr_left
  intro r hr
  have : Retained r := by simpa using (List.mem_filter.mp hr).2
  exact (rowHolding_eq r this).symm

/-! ## Lemmas on the listed items, without the split -/

theorem listedAs_iff (s : ListItem) (inv : Investor) :
    ListedAs s inv ↔ WellFormedItem s ∧ investorOf s = inv := by
  have key : ∀ (href l r : List Char) (d m y : ℕ), s.href = some href →
      TrimSpace s.Text = l ++ ("Updated".toList ++ r) →
      ¬ "Updated".toList <:+: l → ¬ "Updated".toList <:+: r →
      ExistingDate y m d → TrimSpace r = dateText d m y →
      WellFormedItem s ∧ investorOf s =
        { Name := TrimSpace l
          UpdateDate := { year := y, month := m, day := d }
          URL := "https://www.dataroma.com".toList ++ href } := by
    intro href l r d m y hh ht hl hr hdate hd
    have hseg : segments s = [l, r] := by
      unfold segments
      rw [ht]
      exact splitWord_updated l r hl hr
    have hml : monthLength y m ≤ 31 := by
      unfold monthLength; split_ifs <;> omega
    have hdv : dateValue (dateText d m y) = { year := y, month := m, day := d } :=
      dateValue_dateText d m y (by unfold ExistingDate at hdate; omega)
        (by unfold ExistingDate at hdate; omega) hdate.1
    constructor
    · refine ⟨by rw [hseg]; rfl, ?_, by rw [hh]; rfl⟩
      rw [hseg]
      simp only [List.getD_cons_succ, List.getD_cons_zero, hd]
      exact (isDateText_iff _).mpr ⟨y, m, d, hdate, rfl⟩
    · unfold investorOf
      rw [hseg, hh]
      simp only [List.getD_cons_succ, List.getD_cons_zero, hd, hdv, Option.getD_some]
  constructor
  · rintro ⟨href, l, r, d, m, y, hh, ht, hl, hr, hdate, hd, rfl⟩
    exact key href l r d m y hh ht hl hr hdate hd
  · rintro ⟨hwf, rfl⟩
    obtain ⟨href, l, r, d, m, y, hh, ht, hl, hr, hdate, hd⟩ := wellFormed_shape s hwf
    exact ⟨href, l, r, d, m, y, hh, ht, hl, hr, hdate, hd,
      (key href l r d m y hh ht hl hr hdate hd).2⟩

/-! ## Lemmas on the normalized fragment -/

theorem ascii_table : ∀ n, n < 128 →
    (Char.ofNat n).toNat ≤ 0x7F ∧ (ToLowerRune exTables (Char.ofNat n)).toNat ≤ 0x7F ∧
      ((Char.ofNat n).isAlphanum = true →
        ToLowerRune exTables (Char.ofNat n) = (Char.ofNat n).toLower ∧
        isSeparator exTables (ToLowerRune exTables (Char.ofNat n)) = false ∧
        ToTitleRune exTables (ToLowerRune exTables (Char.ofNat n)) = (Char.ofNat n).toUpper) := by
  decide

theorem alphanum_ascii (c : Char) (h : c.isAlphanum = true) : c.toNat < 128 := by
  simp [Char.isAlphanum, Char.isAlpha, Char.isUpper, Char.isLower, Char.isDigit,
    UInt32.le_def, BitVec.le_def] at h
  show c.val.toBitVec.toNat < 128
  omega


theorem lowerRune_ascii (U V : UnicodeTables) (c : Char) (h : c.toNat ≤ 0x7F) :
    ToLowerRune U c = ToLowerRune V c := by
  unfold ToLowerRune
  rw [if_pos h, if_pos h]

theorem titleRune_ascii (U V : UnicodeTables) (c : Char) (h : c.toNat ≤ 0x7F) :
    ToTitleRune U c = ToTitleRune V c := by
  unfold ToTitleRune
  rw [if_pos h, if_pos h]

theorem isSeparator_ascii (U V : UnicodeTables) (c : Char) (h : c.toNat ≤ 0x7F) :
    isSeparator U c = isSeparator V c := by
  unfold isSeparator
  rw [if_pos h, if_pos h]

/-- On a letter or digit of ASCII: the lower-case mapping is the lower-case
letter, which is no separator, and its title case is the upper-case letter. -/
theorem alphanum_runes (U : UnicodeTables) (c : Char) (h : c.isAlphanum = true) :
    ToLowerRune U c = c.toLower ∧ isSeparator U (ToLowerRune U c) = false ∧
      ToTitleRune U (ToLowerRune U c) = c.toUpper := by
  have ht := ascii_table c.toNat (alphanum_ascii c h)
  rw [Char.ofNat_toNat] at ht
  obtain ⟨h1, h2, h3⟩ := ht
  obtain ⟨h4, h5, h6⟩ := h3 h
  have e := lowerRune_ascii U exTables c h1
  rw [e]
  exact ⟨h4, (isSeparator_ascii U exTables _ h2).trans h5,
    (titleRune_ascii U exTables _ h2).trans h6⟩

theorem space_runes (U : UnicodeTables) :
    ToLowerRune U ' ' = ' ' ∧ isSeparator U ' ' = true ∧ ToTitleRune U ' ' = ' ' :=
  ⟨rfl, rfl, rfl⟩

/-- Inside a word: the letters and digits that follow one are lower-cased. -/
theorem titleGo_word (U : UnicodeTables) (cs : List Char)
    (h : ∀ c ∈ cs, c.isAlphanum = true) (prev : Char) (hp : isSeparator U prev = false) :
    titleGo U prev (ToLower U cs) = cs.map Char.toLower := by
  induction cs generalizing prev with
  | nil => rfl
  | cons c cs ih =>
    obtain ⟨h1, h2, _⟩ := alphanum_runes U c (h c (List.mem_cons_self _ _))
    have := ih (fun x hx => h x (List.mem_cons_of_mem _ hx)) (ToLowerRune U c) h2
    simp only [ToLower, List.map_cons, titleGo, hp] at this ⊢
    rw [this, h1]
    simp

/-- Inside a word that a space ends: the letters and digits are lower-cased,
the space is kept, and the next word starts after a separator. -/
theorem titleGo_word_space (U : UnicodeTables) (cs rest : List Char)
    (h : ∀ c ∈ cs, c.isAlphanum = true) (prev : Char) (hp : isSeparator U prev = false) :
    titleGo U prev (ToLower U (cs ++ ' ' :: rest)) =
      cs.map Char.toLower ++ ' ' :: titleGo U ' ' (ToLower U rest) := by
  induction cs generalizing prev with
  | nil =>
    simp only [ToLower, List.nil_append, List.map_cons, titleGo, hp, (space_runes U).1,
      List.map_nil]
    simp
  | cons c cs ih =>
    obtain ⟨h1, h2, _⟩ := alphanum_runes U c (h c (List.mem_cons_self _ _))
    have := ih (fun x hx => h x (List.mem_cons_of_mem _ hx)) (ToLowerRune U c) h2
    simp only [ToLower, List.cons_append, List.map_cons, titleGo, hp, List.append_eq] at this ⊢
    rw [this, h1]
    simp

/-- A fragment made of words of ASCII letters and digits, one space between
two of them, is normalized word by word: the first character of each word in
upper case, the others in lower case. -/
theorem normalized_words (U : UnicodeTables) (ws : List (List Char))
    (h : ∀ w ∈ ws, ∀ c ∈ w, c.isAlphanum = true) :
    normalized U (joinWords ws) = joinWords (ws.map capitalize) := by
  unfold normalized Title
  induction ws with
  | nil => rfl
  | cons w ws ih =>
    have hw := h w (List.mem_cons_self _ _)
    have ih2 := ih (fun x hx => h x (List.mem_cons_of_mem _ hx))
    cases ws with
    | nil =>
      cases w with
      | nil => rfl
      | cons c cs =>
        obtain ⟨h1, h2, h3⟩ := alphanum_runes U c (hw c (List.mem_cons_self _ _))
        have := titleGo_word U cs (fun x hx => hw x (List.mem_cons_of_mem _ hx)) _ h2
        simp only [joinWords, List.map_cons, List.map_nil, capitalize, ToLower, titleGo,
          (space_runes U).2.1, if_true, h3] at this ⊢
        rw [this]
    | cons v vs =>
      cases w with
      | nil =>
        simp only [joinWords, List.map_cons, capitalize, ToLower, titleGo, List.nil_append,
          (space_runes U).1, (space_runes U).2.1, (space_runes U).2.2, if_true] at ih2 ⊢
        rw [ih2]
      | cons c cs =>
        obtain ⟨h1, h2, h3⟩ := alphanum_runes U c (hw c (List.mem_cons_self _ _))
        have := titleGo_word_space U cs (joinWords (v :: vs))
          (fun x hx => hw x (List.mem_cons_of_mem _ hx)) _ h2
        rw [ih2] at this
        simp only [joinWords, List.map_cons, capitalize, ToLower, titleGo, List.cons_append,
          (space_runes U).2.1, if_true, h3, List.append_eq] at this ⊢
        rw [this]

/-! ## The claims -/

/-- C1 as stated fails: the cleaned text of `exBig` is a valid numeral of
value `10^309`, and `parseNumber` returns `0`, which is neither that value
nor its nearest `float64` (the infinity). -/
theorem numeral_out_of_range :
    ValidNumeral (cleaned exBig) ∧ numeralValue (cleaned exBig) = 10 ^ 309 ∧
      parseNumber exBig = Float64.finite 0 ∧
      parseNumber exBig ≠ Float64.finite (numeralValue (cleaned exBig)) ∧
      parseNumber exBig ≠ round64 (numeralValue (cleaned exBig)) :=
  ⟨by decide!, by decide!, by decide!, by decide!, by decide!⟩

/-- C1, amended: for every text whose cleaned string is a valid numeral of
value `v`, `parseNumber` returns, when `v < 2^1024 - 2^970`, the `float64`
nearest to `v` (a finite binary64 value, no other being nearer; it is the
rounding to nearest, ties to even), and returns `0` when `v` is larger. -/
theorem parseNumber_value (s : List Char) (hv : ValidNumeral (cleaned s)) :
    (numeralValue (cleaned s) < rangeLimit →
      ∃ q : ℚ, parseNumber s = Float64.finite q ∧
        round64 (numeralValue (cleaned s)) = Float64.finite q ∧ IsFloat64 q ∧
        ∀ f, IsFloat64 f → |q - numeralValue (cleaned s)| ≤ |f - numeralValue (cleaned s)|) ∧
    (rangeLimit ≤ numeralValue (cleaned s) → parseNumber s = Float64.finite 0) := by
  have h0 := numeralValue_nonneg (cleaned s)
  constructor
  · intro hr
    obtain ⟨a, b, c, d⟩ := numberOf_in_range _ h0 hr
    exact ⟨_, by rw [parseNumber_eq, if_pos hv, a], b, c, d⟩
  · intro hr
    rw [parseNumber_eq, if_pos hv, numberOf_out_of_range _ h0 hr]

theorem parseNumber_value_witness :
    (ValidNumeral (cleaned "$1,234.56".toList) ∧
      numeralValue (cleaned "$1,234.56".toList) = 123456 / 100 ∧
      ValidNumeral (cleaned "12.34%".toList) ∧
      numeralValue (cleaned "12.34%".toList) = 1234 / 100) ∧
    (parseNumber "$1,234.56".toList = round64 (123456 / 100) ∧
      round64 (123456 / 100) = Float64.finite (2714826150374277 / 2199023255552)) ∧
    (parseNumber "12.34%".toList = round64 (1234 / 100) ∧
      round64 (1234 / 100) = Float64.finite (3473401212609495 / 281474976710656)) ∧
    parseNumber exBig = Float64.finite 0 := by
  have v1 : numeralValue (cleaned "$1,234.56".toList) = 123456 / 100 := by decide!
  have v2 : numeralValue (cleaned "12.34%".toList) = 1234 / 100 := by decide!
  refine ⟨⟨by decide, v1, by decide, v2⟩, ⟨?_, by decide!⟩, ⟨?_, by decide!⟩, ?_⟩
  · obtain ⟨q, h1, h2, -, -⟩ :=
      (parseNumber_value "$1,234.56".toList (by decide)).1 (by decide!)
    rw [h1, ← h2, v1]
  · obtain ⟨q, h1, h2, -, -⟩ :=
      (parseNumber_value "12.34%".toList (by decide)).1 (by decide!)
    rw [h1, ← h2, v2]
  · exact (parseNumber_value exBig (by decide!)).2 (by decide!)

/-- C2: `parseNumber` is a total function without an error result, and for
every text whose cleaned string (only digits and `.` kept) is empty or is not
a valid numeral, it returns exactly `0`. -/
theorem parseNumber_invalid_zero (s : List Char)
    (h : cleaned s = [] ∨ ¬ ValidNumeral (cleaned s)) :
    parseNumber s = Float64.finite 0 := by
  have hv : ¬ ValidNumeral (cleaned s) := by
    rcases h with h | h
    · rw [h]; decide
    · exact h
  rw [parseNumber_eq, if_neg hv]

theorem parseNumber_invalid_zero_witness :
    (cleaned "N/A".toList = [] ∨ ¬ ValidNumeral (cleaned "N/A".toList)) ∧
      parseNumber "N/A".toList = Float64.finite 0 ∧
      parseNumber "".toList = Float64.finite 0 ∧
      parseNumber ".".toList = Float64.finite 0 ∧
      parseNumber "1.2.3".toList = Float64.finite 0 :=
  ⟨by decide, parseNumber_invalid_zero _ (by decide), parseNumber_invalid_zero _ (by decide),
    parseNumber_invalid_zero _ (by decide), parseNumber_invalid_zero _ (by decide)⟩

/-- C3: for every sequence of rows, the Holdings returned are, in row order,
exactly one Holding for each row that is not the first, has at least five
cells and whose cell 0 has exactly one hyphen, which is to say that it splits
on the hyphen into exactly two parts; the length of the result is the number
of such rows. On `exTable` the rows with two hyphens, four cells or no hyphen
give nothing, and the three others their Holdings, in order. -/
theorem portfolio_rows_exact (rows : List (List (List Char))) :
    portfolioOfRows rows =
        Except.ok ((rows.tail.filter (fun r => decide (KeptRow r))).map rowHolding) ∧
      (∃ out, portfolioOfRows rows = Except.ok out ∧
        out.length = rows.tail.countP (fun r => decide (KeptRow r))) ∧
      (∀ r, KeptRow r ↔
        5 ≤ (cellsOf r).length ∧ (Split ((cellsOf r).getD 0 []) '-').length = 2) ∧
      portfolioOfRows exTable = Except.ok [exHolding, exHolding2, exHolding] ∧
      exTable.tail.countP (fun r => decide (KeptRow r)) = 3 := by
  have h : portfolioOfRows rows =
      Except.ok ((rows.tail.filter (fun r => decide (KeptRow r))).map rowHolding) := by
    rw [portfolioOfRows_eq_holdingsOf, holdingsOf_eq_kept]
  refine ⟨h, ⟨_, h, ?_⟩, ?_, by decide!, by decide⟩
  · rw [List.length_map, List.countP_eq_length_filter]
  · intro r
    exact keptRow_iff_retained r

/-- C4: for a kept row whose cell 0 is `a`, one hyphen, `b` (no hyphen in `a`
or `b`), the Holding emitted at the row's place has Symbol the trimmed `a` and
Name the trimmed `b`; for `AAPL - Apple Inc.` these are `AAPL` and
`Apple Inc.`. -/
theorem symbol_name_split (pre post : List (List (List Char))) (t0 t1 t2 t3 t4 : List Char)
    (more : List (List Char)) (a b : List Char) (hpre : pre ≠ [])
    (h0 : TrimSpace t0 = a ++ '-' :: b) (ha : '-' ∉ a) (hb : '-' ∉ b) :
    ∃ X Y e, portfolioOfRows pre = Except.ok X ∧
      portfolioOfRows (pre ++ post) = Except.ok (X ++ Y) ∧
      portfolioOfRows (pre ++ (t0 :: t1 :: t2 :: t3 :: t4 :: more) :: post) =
        Except.ok (X ++ e :: Y) ∧
      e.Symbol = TrimSpace a ∧ e.Name = TrimSpace b ∧
      IsTrimOf e.Symbol a ∧ IsTrimOf e.Name b := by
  obtain ⟨r1, r2, r3⟩ := row_insert pre post t0 t1 t2 t3 t4 more a b hpre h0 ha hb
  exact ⟨_, _, _, r1, r2, r3, rfl, rfl, trimSpace_isTrimOf a, trimSpace_isTrimOf b⟩

theorem symbol_name_split_witness :
    ([exHeader] ≠ [] ∧
      TrimSpace " AAPL - Apple Inc. ".toList = "AAPL ".toList ++ '-' :: " Apple Inc.".toList ∧
      '-' ∉ "AAPL ".toList ∧ '-' ∉ " Apple Inc.".toList) ∧
    ∃ e, portfolioOfRows [exHeader, exRow] = Except.ok [e] ∧
      e.Symbol = "AAPL".toList ∧ e.Name = "Apple Inc.".toList := by
  refine ⟨⟨by decide, by decide, by decide, by decide⟩, ?_⟩
  obtain ⟨X, Y, e, hX, hXY, hrow, hs, hn, -, -⟩ :=
    symbol_name_split [exHeader] [] " AAPL - Apple Inc. ".toList "12.34%".toList
      "1,000".toList "$1,234.56".toList "N/A".toList ["extra".toList]
      "AAPL ".toList " Apple Inc.".toList (by decide) (by decide) (by decide) (by decide)
  have hX0 : X = [] := by
    have h : portfolioOfRows [exHeader] = Except.ok [] := by decide
    rw [h] at hX
    exact (Except.ok.inj hX).symm
  have hY0 : Y = [] := by
    have h : portfolioOfRows ([exHeader] ++ []) = Except.ok [] := by decide
    rw [h, hX0] at hXY
    exact (Except.ok.inj hXY).symm
  rw [hX0, hY0] at hrow
  exact ⟨e, hrow, hs.trans (by decide), hn.trans (by decide)⟩

/-- C5: for a kept row with cells `c0..c4` and possibly more, the Holding has
PortfolioWeight `parseNumber(c1) / 100`, Shares `parseNumber(c2)`, CostPrice
`parseNumber(c3)` and Value `parseNumber(c4)`, and the cells past index 4 do
not change the output; for the weight cell `12.34%` the weight stored is the
`float64` `0.1234`. -/
theorem numeric_fields (pre post : List (List (List Char))) (t0 t1 t2 t3 t4 : List Char)
    (a b : List Char) (hpre : pre ≠ [])
    (h0 : TrimSpace t0 = a ++ '-' :: b) (ha : '-' ∉ a) (hb : '-' ∉ b) :
    ∃ X Y, portfolioOfRows pre = Except.ok X ∧
      portfolioOfRows (pre ++ post) = Except.ok (X ++ Y) ∧
      ∀ more : List (List Char),
        portfolioOfRows (pre ++ (t0 :: t1 :: t2 :: t3 :: t4 :: more) :: post) =
          Except.ok (X ++
            { Symbol := TrimSpace a
              Name := TrimSpace b
              PortfolioWeight := (parseNumber (TrimSpace t1)).div (Float64.finite 100)
              Shares := parseNumber (TrimSpace t2)
              CostPrice := parseNumber (TrimSpace t3)
              Value := parseNumber (TrimSpace t4) } :: Y) := by
  refine ⟨holdingsOf pre.tail, holdingsOf post, ?_, ?_, ?_⟩
  · exact (row_insert pre post t0 t1 t2 t3 t4 [] a b hpre h0 ha hb).1
  · exact (row_insert pre post t0 t1 t2 t3 t4 [] a b hpre h0 ha hb).2.1
  · intro more
    exact (row_insert pre post t0 t1 t2 t3 t4 more a b hpre h0 ha hb).2.2

theorem numeric_fields_witness :
    ([exHeader] ≠ [] ∧
      TrimSpace " AAPL - Apple Inc. ".toList = "AAPL ".toList ++ '-' :: " Apple Inc.".toList ∧
      '-' ∉ "AAPL ".toList ∧ '-' ∉ " Apple Inc.".toList) ∧
    portfolioOfRows [exHeader, exRow] = Except.ok [exHolding] ∧
    portfolioOfRows [exHeader, exRow.take 5] = Except.ok [exHolding] ∧
    exHolding.PortfolioWeight = Float64.finite (8891907104280307 / 72057594037927936) := by
  refine ⟨⟨by decide, by decide, by decide, by decide⟩, ?_⟩
  obtain ⟨X, Y, hX, hXY, hrow⟩ :=
    numeric_fields [exHeader] [] " AAPL - Apple Inc. ".toList "12.34%".toList
      "1,000".toList "$1,234.56".toList "N/A".toList
      "AAPL ".toList " Apple Inc.".toList (by decide) (by decide) (by decide) (by decide)
  have hX0 : X = [] := by
    have h : portfolioOfRows [exHeader] = Except.ok [] := by decide
    rw [h] at hX
    exact (Except.ok.inj hX).symm
  have hY0 : Y = [] := by
    have h : portfolioOfRows ([exHeader] ++ []) = Except.ok [] := by decide
    rw [h, hX0] at hXY
    exact (Except.ok.inj hXY).symm
  rw [hX0, hY0] at hrow
  refine ⟨(hrow ["extra".toList]).trans (by decide!), (hrow []).trans (by decide!), by decide!⟩

/-- C6 as stated fails: a weight cell of `150%` is stored as `1.5`. -/
theorem weight_above_one :
    ∃ h, portfolioOfRows
        [exHeader, ["X - Y".toList, "150%".toList, "1".toList, "1".toList, "1".toList]] =
          Except.ok [h] ∧
      h.PortfolioWeight = Float64.finite (3 / 2) ∧ ¬ ((3 / 2 : ℚ) ≤ 1) :=
  ⟨{ Symbol := "X".toList, Name := "Y".toList, PortfolioWeight := Float64.finite (3 / 2),
     Shares := Float64.finite 1, CostPrice := Float64.finite 1, Value := Float64.finite 1 },
    by decide!, rfl, by norm_num⟩

/-- C6, amended: every Holding produced comes from a kept row after the
header and has a PortfolioWeight that is a finite `float64`, not negative:
the `float64` quotient of `parseNumber` of the row's weight cell by `100`; it
is at most `1` whenever that number is at most `100`. -/
theorem weight_fraction (rows : List (List (List Char))) :
    ∃ out, portfolioOfRows rows = Except.ok out ∧
      ∀ h ∈ out, ∃ tds ∈ rows.tail, ∃ p q : ℚ, Retained tds ∧
        parseNumber ((cellsOf tds).getD 1 []) = Float64.finite p ∧
        h.PortfolioWeight = (Float64.finite p).div (Float64.finite 100) ∧
        h.PortfolioWeight = Float64.finite q ∧
        IsFloat64 q ∧ 0 ≤ q ∧ (p ≤ 100 → q ≤ 1) := by
  refine ⟨_, portfolioOfRows_eq_holdingsOf rows, ?_⟩
  intro h hh
  obtain ⟨tds, hm, hr, he⟩ := mem_holdingsOf _ h hh
  obtain ⟨p, hp, hp0, hplt, _⟩ := parseNumber_finite ((cellsOf tds).getD 1 [])
  obtain ⟨d1, d2, d3, d4⟩ := div_hundred p hp0 hplt
  have hw : h.PortfolioWeight = (Float64.finite p).div (Float64.finite 100) := by
    rw [he, ← hp]; rfl
  exact ⟨tds, hm, p, _, hr, hp, hw, hw.trans d1, d3, d2, d4⟩

/-- C7: every Holding produced, for every table and whatever the cells hold
(signs, parentheses, exponents, digit strings of any length), has Shares,
CostPrice and Value that are finite `float64` numbers, so neither NaN nor an
infinity, and not negative. -/
theorem amounts_nonneg_finite (rows : List (List (List Char))) :
    ∃ out, portfolioOfRows rows = Except.ok out ∧
      ∀ h ∈ out, ∃ s c v : ℚ,
        h.Shares = Float64.finite s ∧ h.CostPrice = Float64.finite c ∧
        h.Value = Float64.finite v ∧
        (IsFloat64 s ∧ 0 ≤ s) ∧ (IsFloat64 c ∧ 0 ≤ c) ∧ (IsFloat64 v ∧ 0 ≤ v) := by
  refine ⟨_, portfolioOfRows_eq_holdingsOf rows, ?_⟩
  intro h hh
  obtain ⟨tds, _, _, he⟩ := mem_holdingsOf _ h hh
  obtain ⟨s, hs, hs0, _, hs1⟩ := parseNumber_finite ((cellsOf tds).getD 2 [])
  obtain ⟨c, hc, hc0, _, hc1⟩ := parseNumber_finite ((cellsOf tds).getD 3 [])
  obtain ⟨v, hv, hv0, _, hv1⟩ := parseNumber_finite ((cellsOf tds).getD 4 [])
  refine ⟨s, c, v, ?_, ?_, ?_, ⟨hs1, hs0⟩, ⟨hc1, hc0⟩, ⟨hv1, hv0⟩⟩
  · rw [he, ← hs]; rfl
  · rw [he, ← hc]; rfl
  · rw [he, ← hv]; rfl

/-- C8: the first row never yields a Holding, whatever its content: the output
for a first row followed by rows is made of the rows after the first alone,
so it is the same for every first row; the well-formed row `exRow` yields
nothing as first row and its Holding as second row; a table of one row, or of
none, yields the empty sequence and no error. -/
theorem header_skipped (hdr : List (List Char)) (rows : List (List (List Char))) :
    portfolioOfRows (hdr :: rows) = Except.ok (holdingsOf rows) ∧
      portfolioOfRows (hdr :: rows) = portfolioOfRows ([] :: rows) ∧
      (Retained exRow ∧ portfolioOfRows (exRow :: rows) = Except.ok (holdingsOf rows) ∧
        portfolioOfRows [hdr, exRow] = Except.ok [exHolding]) ∧
      portfolioOfRows [hdr] = Except.ok [] ∧
      portfolioOfRows [] = Except.ok [] := by
  refine ⟨portfolioOfRows_eq_holdingsOf _, ?_, ⟨by decide, portfolioOfRows_eq_holdingsOf _, ?_⟩,
    ?_, ?_⟩
  · rw [portfolioOfRows_eq_holdingsOf, portfolioOfRows_eq_holdingsOf]; rfl
  · rw [portfolioOfRows_eq_holdingsOf]
    have h : holdingsOf [exRow] = [exHolding] := by decide!
    exact congrArg Except.ok h
  · rw [portfolioOfRows_eq_holdingsOf]; rfl
  · rw [portfolioOfRows_eq_holdingsOf]; rfl

/-- C9: a row after the header with five cells or more whose cell 0 has no
hyphen, or two or more, is dropped: the output, which is no error, is the one
the table gives without that row. -/
theorem hyphen_rows_dropped (pre post : List (List (List Char))) (tds : List (List Char))
    (hpre : pre ≠ []) (_h5 : 5 ≤ tds.length)
    (hc : ((cellsOf tds).getD 0 []).count '-' = 0 ∨ 2 ≤ ((cellsOf tds).getD 0 []).count '-') :
    portfolioOfRows (pre ++ tds :: post) = portfolioOfRows (pre ++ post) ∧
      ∃ out, portfolioOfRows (pre ++ tds :: post) = Except.ok out := by
  obtain ⟨i1, i2⟩ := portfolioOfRows_insert pre post tds hpre
  have hr : ¬ Retained tds := by
    rw [retained_iff_count]
    rintro ⟨_, h1⟩
    omega
  rw [if_neg hr] at i1
  exact ⟨by rw [i1, i2]; rfl, _, i1⟩

theorem hyphen_rows_dropped_witness :
    ([exHeader] ≠ [] ∧
      5 ≤ ["BRK-B - Berkshire".toList, "1".toList, "2".toList, "3".toList, "4".toList].length ∧
      2 ≤ "BRK-B - Berkshire".toList.count '-' ∧
      2 ≤ "KO - Coca-Cola".toList.count '-' ∧
      "Apple Inc.".toList.count '-' = 0) ∧
    portfolioOfRows ([exHeader] ++
        ["BRK-B - Berkshire".toList, "1".toList, "2".toList, "3".toList, "4".toList] :: [exRow]) =
      portfolioOfRows ([exHeader] ++ [exRow]) ∧
    portfolioOfRows ([exHeader] ++
        ["KO - Coca-Cola".toList, "1".toList, "2".toList, "3".toList, "4".toList] :: [exRow]) =
      portfolioOfRows ([exHeader] ++ [exRow]) ∧
    portfolioOfRows ([exHeader] ++
        ["Apple Inc.".toList, "1".toList, "2".toList, "3".toList, "4".toList] :: [exRow]) =
      portfolioOfRows ([exHeader] ++ [exRow]) ∧
    portfolioOfRows ([exHeader] ++ [exRow]) = Except.ok [exHolding] :=
  ⟨⟨by decide, by decide, by decide, by decide, by decide⟩,
    (hyphen_rows_dropped [exHeader] [exRow] _ (by decide) (by decide) (Or.inr (by decide))).1,
    (hyphen_rows_dropped [exHeader] [exRow] _ (by decide) (by decide) (Or.inr (by decide))).1,
    (hyphen_rows_dropped [exHeader] [exRow] _ (by decide) (by decide) (Or.inl (by decide))).1,
    by decide!⟩

/-- C10: a row after the header with five cells or more and a valid split of
cell 0 yields a Holding whatever the text of cells 1 to 4; each numeric field
comes from its own cell alone, and a cell without any digit makes its field
`0` (a weight cell without digits gives weight `0`). -/
theorem unparseable_cells_keep_row (pre post : List (List (List Char)))
    (t0 t1 t2 t3 t4 : List Char) (more : List (List Char)) (a b : List Char)
    (hpre : pre ≠ []) (h0 : TrimSpace t0 = a ++ '-' :: b) (ha : '-' ∉ a) (hb : '-' ∉ b) :
    ∃ X Y e, portfolioOfRows pre = Except.ok X ∧
      portfolioOfRows (pre ++ post) = Except.ok (X ++ Y) ∧
      portfolioOfRows (pre ++ (t0 :: t1 :: t2 :: t3 :: t4 :: more) :: post) =
        Except.ok (X ++ e :: Y) ∧
      e.PortfolioWeight = (parseNumber (TrimSpace t1)).div (Float64.finite 100) ∧
      e.Shares = parseNumber (TrimSpace t2) ∧
      e.CostPrice = parseNumber (TrimSpace t3) ∧
      e.Value = parseNumber (TrimSpace t4) ∧
      ((∀ c ∈ t1, c.isDigit = false) → e.PortfolioWeight = Float64.finite 0) ∧
      ((∀ c ∈ t2, c.isDigit = false) → e.Shares = Float64.finite 0) ∧
      ((∀ c ∈ t3, c.isDigit = false) → e.CostPrice = Float64.finite 0) ∧
      ((∀ c ∈ t4, c.isDigit = false) → e.Value = Float64.finite 0) := by
  obtain ⟨r1, r2, r3⟩ := row_insert pre post t0 t1 t2 t3 t4 more a b hpre h0 ha hb
  refine ⟨_, _, _, r1, r2, r3, rfl, rfl, rfl, rfl, ?_, ?_, ?_, ?_⟩
  · intro h
    show (parseNumber (TrimSpace t1)).div (Float64.finite 100) = Float64.finite 0
    rw [parseNumber_trim_no_digit t1 h, zero_div_hundred]
  · exact parseNumber_trim_no_digit t2
  · exact parseNumber_trim_no_digit t3
  · exact parseNumber_trim_no_digit t4

theorem unparseable_cells_keep_row_witness :
    ([exHeader] ≠ [] ∧
      TrimSpace "KO - Coke".toList = "KO ".toList ++ '-' :: " Coke".toList ∧
      '-' ∉ "KO ".toList ∧ '-' ∉ " Coke".toList) ∧
    ∃ e, portfolioOfRows
        [exHeader, ["KO - Coke".toList, "N/A".toList, "n/a".toList, "--".toList, "7".toList]] =
          Except.ok [e] ∧
      e.PortfolioWeight = Float64.finite 0 ∧ e.Shares = Float64.finite 0 ∧
      e.CostPrice = Float64.finite 0 ∧ e.Value = Float64.finite 7 := by
  refine ⟨⟨by decide, by decide, by decide, by decide⟩, ?_⟩
  obtain ⟨X, Y, e, hX, hXY, hrow, -, -, -, hv, hw, hs, hc, -⟩ :=
    unparseable_cells_keep_row [exHeader] [] "KO - Coke".toList "N/A".toList "n/a".toList
      "--".toList "7".toList [] "KO ".toList " Coke".toList
      (by decide) (by decide) (by decide) (by decide)
  have hX0 : X = [] := by
    have h : portfolioOfRows [exHeader] = Except.ok [] := by decide
    rw [h] at hX
    exact (Except.ok.inj hX).symm
  have hY0 : Y = [] := by
    have h : portfolioOfRows ([exHeader] ++ []) = Except.ok [] := by decide
    rw [h, hX0] at hXY
    exact (Except.ok.inj hXY).symm
  rw [hX0, hY0] at hrow
  exact ⟨e, hrow, hw (by decide), hs (by decide), hc (by decide), hv.trans (by decide!)⟩

/-- C11: for every sequence of listing items, the directory parser returns,
without failing, exactly the records of the well-formed items (two segments
around `Updated`, a `DD/MM/YYYY` date of an existing day, an `href`), in
document order: as many records as well-formed items, whatever the malformed
ones are, and nothing is merged (the output of two sequences one after the
other is the two outputs one after the other). The well-formed items are
those whose trimmed text is a left part, the label once and a right part that
trims to the text of an existing date, with a link, and the record of such an
item is made of the trimmed left part, that date and the site followed by the
link. On `exListing`, three well-formed items among five malformed ones, the
three records are returned in order, the repeated one twice. -/
theorem directory_exact (items more : List ListItem) :
    investorsOfItems items =
        Except.ok ((items.filter (fun s => decide (WellFormedItem s))).map investorOf) ∧
      (∃ out, investorsOfItems items = Except.ok out ∧
        out.length = items.countP (fun s => decide (WellFormedItem s)) ∧
        out.length + items.countP (fun s => !decide (WellFormedItem s)) = items.length) ∧
      investorsOfItems (items ++ more) =
        Except.ok (investorsOf items ++ investorsOf more) ∧
      GetAllInvestors (exWeb items []) = investorsOfItems items ∧
      (∀ s, WellFormedItem s ↔ ∃ inv, ListedAs s inv) ∧
      (∀ s inv, ListedAs s inv → investorOf s = inv) ∧
      investorsOfItems exListing = Except.ok [exInvestor2, exInvestor, exInvestor] ∧
      GetAllInvestors (exWeb exListing []) = Except.ok [exInvestor2, exInvestor, exInvestor] ∧
      exListing.countP (fun s => decide (WellFormedItem s)) = 3 ∧
      exListing.countP (fun s => !decide (WellFormedItem s)) = 5 := by
  refine ⟨investorsOfItems_eq items, ⟨_, investorsOfItems_eq items, ?_, ?_⟩, ?_, ?_, ?_, ?_,
    by decide, by decide, by decide, by decide⟩
  · unfold investorsOf
    rw [List.length_map, List.countP_eq_length_filter]
  · unfold investorsOf
    rw [List.length_map, ← List.countP_eq_length_filter]
    have := List.length_eq_countP_add_countP (fun s => decide (WellFormedItem s)) items
    simp only [Bool.not_eq_true, Bool.decide_eq_false] at this
    omega
  · rw [investorsOfItems_eq, investorsOf_append]
  · rw [getAllInvestors_page (exWeb items []) { portBody := items, grid := [] } (by simp [exWeb]),
      investorsOfItems_eq]
  · intro s
    constructor
    · intro h
      exact ⟨investorOf s, (listedAs_iff s _).mpr ⟨h, rfl⟩⟩
    · rintro ⟨inv, h⟩
      exact ((listedAs_iff s inv).mp h).1
  · intro s inv h
    exact ((listedAs_iff s inv).mp h).2

/-- C12: for a listing item whose trimmed text is `l`, the label `Updated`,
and `r` (the label in neither), whose trimmed `r` is the `DD/MM/YYYY` text of
an existing date and whose anchor has the link `href`, the record emitted at
the item's place has Name the trimmed `l`, UpdateDate that date, and URL
`https://www.dataroma.com` followed by `href` unchanged. -/
theorem investor_fields (pre post : List ListItem) (text href l r : List Char) (d m y : ℕ)
    (ht : TrimSpace text = l ++ ("Updated".toList ++ r))
    (hl : ¬ "Updated".toList <:+: l) (hr : ¬ "Updated".toList <:+: r)
    (hdate : ExistingDate y m d) (hd : TrimSpace r = dateText d m y) :
    ∃ X Y, investorsOfItems pre = Except.ok X ∧ investorsOfItems post = Except.ok Y ∧
      investorsOfItems (pre ++ { Text := text, href := some href } :: post) =
        Except.ok (X ++ { Name := TrimSpace l
                          UpdateDate := { year := y, month := m, day := d }
                          URL := "https://www.dataroma.com".toList ++ href } :: Y) ∧
      IsTrimOf (TrimSpace l) l := by
  have hseg : segments { Text := text, href := some href } = [l, r] := by
    unfold segments
    simp only [ht]
    exact splitWord_updated l r hl hr
  have hml : monthLength y m ≤ 31 := by
    unfold monthLength; split_ifs <;> omega
  have hdv : dateValue (dateText d m y) = { year := y, month := m, day := d } :=
    dateValue_dateText d m y (by unfold ExistingDate at hdate; omega)
      (by unfold ExistingDate at hdate; omega) hdate.1
  have hwf : WellFormedItem { Text := text, href := some href } := by
    refine ⟨by rw [hseg]; rfl, ?_, rfl⟩
    rw [hseg]
    simp only [List.getD_cons_succ, List.getD_cons_zero, hd]
    exact (isDateText_iff _).mpr ⟨y, m, d, hdate, rfl⟩
  have hinv : investorOf { Text := text, href := some href } =
      { Name := TrimSpace l
        UpdateDate := { year := y, month := m, day := d }
        URL := "https://www.dataroma.com".toList ++ href } := by
    unfold investorOf
    rw [hseg]
    simp only [List.getD_cons_succ, List.getD_cons_zero, hd, hdv, Option.getD_some]
  refine ⟨investorsOf pre, investorsOf post, investorsOfItems_eq pre, investorsOfItems_eq post,
    ?_, trimSpace_isTrimOf l⟩
  rw [investorsOfItems_eq, investorsOf_append, investorsOf_cons, if_pos hwf, hinv]
  rfl

theorem investor_fields_witness :
    (TrimSpace exItem.Text =
        "Bill Ackman - Pershing Square Capital Management ".toList ++
          ("Updated".toList ++ " 14/08/2024".toList) ∧
      ¬ "Updated".toList <:+: "Bill Ackman - Pershing Square Capital Management ".toList ∧
      ¬ "Updated".toList <:+: " 14/08/2024".toList ∧
      ExistingDate 2024 8 14 ∧ TrimSpace " 14/08/2024".toList = dateText 14 8 2024) ∧
    investorsOfItems [exItem2, exItem] = Except.ok [exInvestor2, exInvestor] := by
  refine ⟨⟨by decide, by decide, by decide, by decide, by decide⟩, ?_⟩
  obtain ⟨X, Y, hX, hY, h, -⟩ :=
    investor_fields [exItem2] [] exItem.Text "/m/holdings.php?m=psc".toList
      "Bill Ackman - Pershing Square Capital Management ".toList " 14/08/2024".toList 14 8 2024
      (by decide) (by decide) (by decide) (by decide) (by decide)
  have hX0 : X = [exInvestor2] := by
    have e : investorsOfItems [exItem2] = Except.ok [exInvestor2] := by decide
    rw [e] at hX
    exact (Except.ok.inj hX).symm
  have hY0 : Y = [] := by
    have e : investorsOfItems [] = Except.ok [] := by decide
    rw [e] at hY
    exact (Except.ok.inj hY).symm
  rw [hX0, hY0] at h
  exact h.trans (by decide)

/-- C13: every text of the exact form `DD/MM/YYYY` (two digits, a slash,
two digits, a slash, four digits) that denotes an existing day is parsed, to
the date with that day, month and year; `31/12/2023` gives 31 December
2023. -/
theorem date_parsed (y m d : ℕ) (h : ExistingDate y m d) :
    Parse (dateText d m y) = Except.ok { year := y, month := m, day := d } ∧
      (dateText d m y).length = 10 ∧
      dateValue (dateText d m y) = { year := y, month := m, day := d } := by
  have hml : monthLength y m ≤ 31 := by
    unfold monthLength; split_ifs <;> omega
  refine ⟨parse_dateText y m d h, rfl, ?_⟩
  obtain ⟨hy, hm1, hm2, hd1, hd2⟩ := h
  exact dateValue_dateText d m y (by omega) (by omega) hy

theorem date_parsed_witness :
    ExistingDate 2023 12 31 ∧ dateText 31 12 2023 = "31/12/2023".toList ∧
      Parse "31/12/2023".toList = Except.ok { year := 2023, month := 12, day := 31 } ∧
      (ExistingDate 2024 2 29 ∧
        Parse "29/02/2024".toList = Except.ok { year := 2024, month := 2, day := 29 }) :=
  ⟨by decide, by decide, (date_parsed 2023 12 31 (by decide)).1,
    by decide, (date_parsed 2024 2 29 (by decide)).1⟩

/-- C14 as stated fails: `01/02/2023` is the month/day/year text of
2 January 2023, and it is parsed, as 1 February 2023. -/
theorem month_first_text_parsed :
    ExistingDate 2023 1 2 ∧ monthFirstText 2 1 2023 = "01/02/2023".toList ∧
      Parse (monthFirstText 2 1 2023) = Except.ok { year := 2023, month := 2, day := 1 } ∧
      investorsOfItems
          [{ Text := "Some Fund Updated 01/02/2023".toList, href := some "/x".toList }] =
        Except.ok [{ Name := "Some Fund".toList
                     UpdateDate := { year := 2023, month := 2, day := 1 }
                     URL := "https://www.dataroma.com/x".toList }] :=
  ⟨by decide, by decide, by decide, by decide⟩

/-- C14, amended: every text that is not of the exact form `DD/MM/YYYY` for
an existing day fails to parse, and a listing item whose trimmed right
segment is such a text is skipped; this holds for a month/day/year text whose
day is past 12, while one whose day is at most 12 has the exact form and is
read with day and month exchanged. -/
theorem date_rejected (t : List Char) (h : ¬ IsDateText t) :
    (∃ e, Parse t = Except.error e) ∧
      (∀ (pre post : List ListItem) (s : ListItem),
        TrimSpace ((segments s).getD 1 []) = t →
          investorsOfItems (pre ++ s :: post) = investorsOfItems (pre ++ post)) ∧
      (∀ y m d, ExistingDate y m d → 12 < d →
        ∃ e, Parse (monthFirstText d m y) = Except.error e) ∧
      (∀ y m d, ExistingDate y m d → d ≤ 12 →
        Parse (monthFirstText d m y) = Except.ok { year := y, month := d, day := m }) := by
  refine ⟨parse_error_of_not t h, ?_, ?_, ?_⟩
  · intro pre post s hs
    apply item_dropped
    intro hw
    rw [← hs] at h
    exact h hw.2.1
  · intro y m d hex hd
    exact parse_error_of_not _ (not_isDateText_monthFirst y m d hex hd)
  · intro y m d hex hd
    obtain ⟨hy, hm1, hm2, hd1, hd2⟩ := hex
    unfold monthFirstText
    apply parse_dateText
    refine ⟨hy, hd1, hd, hm1, ?_⟩
    have : 28 ≤ monthLength y d := by
      unfold monthLength; split_ifs <;> omega
    omega

theorem date_rejected_witness :
    (¬ IsDateText "12/31/2023".toList ∧ ¬ IsDateText "31/12/23".toList ∧
      ¬ IsDateText "31 Dec 2023".toList ∧ ¬ IsDateText "1/12/2023".toList ∧
      ¬ IsDateText "31/1/2023".toList ∧ ¬ IsDateText "31-12-2023".toList ∧
      ¬ IsDateText "31/12/2023 x".toList ∧ ¬ IsDateText "31/02/2023".toList) ∧
    (∃ e, Parse "12/31/2023".toList = Except.error e) ∧
    (∃ e, Parse "31/12/23".toList = Except.error e) ∧
    (∃ e, Parse "31 Dec 2023".toList = Except.error e) ∧
    (∃ e, Parse "1/12/2023".toList = Except.error e) ∧
    (∃ e, Parse "31/1/2023".toList = Except.error e) ∧
    (∃ e, Parse "31-12-2023".toList = Except.error e) ∧
    (∃ e, Parse "31/12/2023 x".toList = Except.error e) ∧
    (∃ e, Parse "31/02/2023".toList = Except.error e) ∧
    investorsOfItems
        [exItem2, { Text := "Some Fund Updated 31/02/2023".toList, href := some "/x".toList },
          exItem] =
      investorsOfItems [exItem2, exItem] :=
  ⟨⟨by decide, by decide, by decide, by decide, by decide, by decide, by decide, by decide⟩,
    (date_rejected _ (by decide)).1, (date_rejected _ (by decide)).1,
    (date_rejected _ (by decide)).1, (date_rejected _ (by decide)).1,
    (date_rejected _ (by decide)).1, (date_rejected _ (by decide)).1,
    (date_rejected _ (by decide)).1, (date_rejected _ (by decide)).1,
    (date_rejected "31/02/2023".toList (by decide)).2.1 [exItem2] [exItem]
      { Text := "Some Fund Updated 31/02/2023".toList, href := some "/x".toList } (by decide)⟩

/-- C15: first match wins. For every directory the parser produces and every
fragment, when an investor's name contains the normalized fragment
(lower-cased, then the first letter of each word in title case) and no
investor before it does, the resolver selects that investor's URL, whatever
the investors after it are, and `GetInvestorPortfolio` reads the page at that
URL. The normalized form of a fragment made of words of ASCII letters and
digits, one space between two of them, is these words with the first
character in upper case and the others in lower case; so `ackman` and `ACKMAN`
both select the URL of the first investor whose name holds `Ackman`. -/
theorem first_match_wins (U : UnicodeTables) (items : List ListItem)
    (pre post : List Investor) (inv : Investor) (fragment : List Char)
    (hdir : investorsOfItems items = Except.ok (pre ++ inv :: post))
    (hpre : ∀ p ∈ pre, ¬ Matches U fragment p) (hinv : Matches U fragment inv) :
    resolveInvestor U (pre ++ inv :: post) fragment = Except.ok inv.URL ∧
      (∀ rows, GetInvestorPortfolio U (exWeb items rows) fragment =
        portfolioAt (exWeb items rows) inv.URL) ∧
      (∀ ws : List (List Char), (∀ w ∈ ws, ∀ c ∈ w, c.isAlphanum = true) →
        normalized U (joinWords ws) = joinWords (ws.map capitalize) ∧
        ∀ p, Matches U (joinWords ws) p ↔ joinWords (ws.map capitalize) <:+: p.Name) := by
  have hd := directory_of_items items _ hdir
  have hurl : inv.URL ≠ [] := url_ne_nil items inv (by rw [← hd]; simp)
  have hres := resolve_first U pre post inv fragment hpre hinv hurl
  refine ⟨hres, ?_, ?_⟩
  · intro rows
    apply getInvestorPortfolio_found U (exWeb items rows) { portBody := items, grid := [] }
    · simp [exWeb]
    · show resolveInvestor U (investorsOf items) fragment = Except.ok inv.URL
      rw [← hd]
      exact hres
  · intro ws hws
    refine ⟨normalized_words U ws hws, ?_⟩
    intro p
    unfold Matches
    rw [normalized_words U ws hws]

theorem first_match_wins_witness :
    ((investorsOfItems [exItem2, exItem, exItem3] =
          Except.ok ([exInvestor2] ++ exInvestor :: [exInvestor3]) ∧
        (∀ p ∈ [exInvestor2], ¬ Matches exTables "ACKMAN".toList p) ∧
        Matches exTables "ACKMAN".toList exInvestor) ∧
      Matches exTables "ACKMAN".toList exInvestor3 ∧
      exInvestor.URL ≠ exInvestor3.URL ∧
      resolveInvestor exTables [exInvestor2, exInvestor, exInvestor3] "ACKMAN".toList =
        Except.ok "https://www.dataroma.com/m/holdings.php?m=psc".toList) ∧
    ((investorsOfItems [exItem3, exItem2, exItem] =
          Except.ok ([] ++ exInvestor3 :: [exInvestor2, exInvestor]) ∧
        (∀ p ∈ ([] : List Investor), ¬ Matches exTables "ackman".toList p) ∧
        Matches exTables "ackman".toList exInvestor3) ∧
      resolveInvestor exTables [exInvestor3, exInvestor2, exInvestor] "ackman".toList =
        Except.ok "https://www.dataroma.com/m/holdings.php?m=afo".toList) ∧
    ((∀ w ∈ ["bILL".toList, "aCKMAN".toList], ∀ c ∈ w, c.isAlphanum = true) ∧
      joinWords ["bILL".toList, "aCKMAN".toList] = "bILL aCKMAN".toList ∧
      joinWords (["bILL".toList, "aCKMAN".toList].map capitalize) = "Bill Ackman".toList ∧
      normalized exTables (joinWords ["bILL".toList, "aCKMAN".toList]) =
        joinWords (["bILL".toList, "aCKMAN".toList].map capitalize)) ∧
    normalized exTables "ACKMAN".toList = "Ackman".toList ∧
    normalized exTables "bILL aCKMAN".toList = "Bill Ackman".toList :=
  ⟨⟨⟨by decide, by decide, by decide⟩, by decide, by decide,
      (first_match_wins exTables [exItem2, exItem, exItem3] [exInvestor2] [exInvestor3]
        exInvestor "ACKMAN".toList (by decide) (by decide) (by decide)).1⟩,
    ⟨⟨by decide, by decide, by decide⟩,
      (first_match_wins exTables [exItem3, exItem2, exItem] [] [exInvestor2, exInvestor]
        exInvestor3 "ackman".toList (by decide) (by decide) (by decide)).1⟩,
    ⟨by decide, by decide, by decide,
      ((first_match_wins exTables [exItem2, exItem, exItem3] [exInvestor2] [exInvestor3]
        exInvestor "ACKMAN".toList (by decide) (by decide) (by decide)).2.2
          ["bILL".toList, "aCKMAN".toList] (by decide)).1⟩,
    by decide, by decide⟩

/-- C16: for every directory the parser produces and every fragment, the
resolver fails with the not-found error exactly when no investor name
contains the normalized fragment, and then `GetInvestorPortfolio` returns
that error; otherwise it succeeds, so a matching investor is never reported
as not found; on the empty directory every fragment is not found. -/
theorem not_found_iff (U : UnicodeTables) (items : List ListItem)
    (investors : List Investor) (fragment : List Char)
    (hdir : investorsOfItems items = Except.ok investors) :
    (resolveInvestor U investors fragment = Except.error (notFound U fragment) ↔
        ∀ inv ∈ investors, ¬ Matches U fragment inv) ∧
      ((∃ inv ∈ investors, Matches U fragment inv) →
        ∃ url, resolveInvestor U investors fragment = Except.ok url) ∧
      ((∀ inv ∈ investors, ¬ Matches U fragment inv) →
        ∀ rows, GetInvestorPortfolio U (exWeb items rows) fragment =
          Except.error (notFound U fragment)) ∧
      resolveInvestor U [] fragment = Except.error (notFound U fragment) := by
  have hd := directory_of_items items _ hdir
  have hfound : (∃ inv ∈ investors, Matches U fragment inv) →
      ∃ url, resolveInvestor U investors fragment = Except.ok url := by
    rintro ⟨inv, hmem, hm⟩
    rcases first_match (normalized U fragment) investors with hno | ⟨pre, i, post, e, h1, h2⟩
    · exact absurd hm (hno inv hmem)
    · have hurl : i.URL ≠ [] := url_ne_nil items i (by rw [← hd, e]; simp)
      exact ⟨i.URL, by rw [e]; exact resolve_first U pre post i fragment h1 h2 hurl⟩
  refine ⟨⟨?_, resolve_none U investors fragment⟩, hfound, ?_,
    resolve_none U [] fragment (by simp)⟩
  · intro herr inv hmem hm
    obtain ⟨url, hok⟩ := hfound ⟨inv, hmem, hm⟩
    rw [hok] at herr
    exact absurd herr (by simp)
  · intro hno rows
    apply getInvestorPortfolio_missing U (exWeb items rows) { portBody := items, grid := [] }
    · simp [exWeb]
    · show resolveInvestor U (investorsOf items) fragment = Except.error (notFound U fragment)
      rw [← hd]
      exact resolve_none U investors fragment hno

theorem not_found_iff_witness :
    investorsOfItems [exItem2, exItem] = Except.ok [exInvestor2, exInvestor] ∧
      (∀ inv ∈ [exInvestor2, exInvestor], ¬ Matches exTables "zzznoone".toList inv) ∧
      resolveInvestor exTables [exInvestor2, exInvestor] "zzznoone".toList =
        Except.error "investor Zzznoone not found" :=
  ⟨by decide, by decide,
    ((not_found_iff exTables [exItem2, exItem] [exInvestor2, exInvestor] "zzznoone".toList
      (by decide)).1.mpr (by decide)).trans (by decide)⟩

/-- C17 as stated fails: `Bill Ackman ...` contains `ill` when letter case
is ignored, but the resolver compares with `Ill` and reports not found. -/
theorem case_insensitive_miss :
    investorsOfItems [exItem] = Except.ok [exInvestor] ∧
      ContainsIgnoringCase exTables exInvestor.Name "ill".toList ∧
      normalized exTables "ill".toList = "Ill".toList ∧
      resolveInvestor exTables [exInvestor] "ill".toList =
        Except.error "investor Ill not found" ∧
      GetInvestorPortfolio exTables (exWeb [exItem] [exHeader, exRow]) "ill".toList =
        Except.error "investor Ill not found" :=
  ⟨by decide, by decide, by decide, by decide, by decide⟩

/-- C17, amended: the resolver is a substring match, exact in letter case,
on the normalized fragment (lower-cased, then title-cased at the start of
each word). For every directory the parser produces and every fragment, it
returns the URL of the first investor whose name contains the normalized
fragment, and the not-found error when there is none. -/
theorem resolver_exact_match (U : UnicodeTables) (items : List ListItem)
    (investors : List Investor) (fragment : List Char)
    (hdir : investorsOfItems items = Except.ok investors) :
    resolveInvestor U investors fragment =
      match investors.find? (fun inv => decide (Matches U fragment inv)) with
      | some inv => Except.ok inv.URL
      | none => Except.error (notFound U fragment) := by
  have hd := directory_of_items items _ hdir
  rcases first_match (normalized U fragment) investors with hno | ⟨pre, i, post, e, h1, h2⟩
  · have hf : investors.find? (fun inv => decide (Matches U fragment inv)) = none := by
      rw [List.find?_eq_none]
      intro x hx
      simpa using hno x hx
    rw [hf]
    exact resolve_none U investors fragment hno
  · have hurl : i.URL ≠ [] := url_ne_nil items i (by rw [← hd, e]; simp)
    have hf : investors.find? (fun inv => decide (Matches U fragment inv)) = some i := by
      rw [e, List.find?_append]
      have hp : pre.find? (fun inv => decide (Matches U fragment inv)) = none := by
        rw [List.find?_eq_none]
        intro x hx
        simpa using h1 x hx
      have hi : decide (Matches U fragment i) = true := decide_eq_true h2
      rw [hp, List.find?_cons, hi]
      rfl
    rw [hf, e]
    exact resolve_first U pre post i fragment h1 h2 hurl

theorem resolver_exact_match_witness :
    investorsOfItems [exItem2, exItem] = Except.ok [exInvestor2, exInvestor] ∧
      resolveInvestor exTables [exInvestor2, exInvestor] "ACKMAN - pershing".toList =
        Except.ok exInvestor.URL ∧
      resolveInvestor exTables [exInvestor2, exInvestor] "ckman".toList =
        Except.error "investor Ckman not found" :=
  ⟨by decide,
    (resolver_exact_match exTables [exItem2, exItem] [exInvestor2, exInvestor]
      "ACKMAN - pershing".toList (by decide)).trans (by decide),
    (resolver_exact_match exTables [exItem2, exItem] [exInvestor2, exInvestor]
      "ckman".toList (by decide)).trans (by decide)⟩

/-- C18: `parseNumber` ignores every character that is not a digit or a
point: inserting (or deleting) such a character anywhere leaves the result
unchanged; the result is that of the cleaned text, cleaning twice is cleaning
once, and two texts with the same cleaned text have the same result. So
`-3.5` gives `3.5` and `1e5` gives `15`. -/
theorem parseNumber_ignores_others (a b : List Char) (c : Char)
    (hc : reNonNumeric c = true) :
    parseNumber (a ++ c :: b) = parseNumber (a ++ b) ∧
      (∀ s, parseNumber s = parseNumber (ReplaceAllString s [])) ∧
      (∀ s, ReplaceAllString (ReplaceAllString s []) [] = ReplaceAllString s []) ∧
      (∀ s t, ReplaceAllString s [] = ReplaceAllString t [] →
        parseNumber s = parseNumber t) := by
  refine ⟨parseNumber_congr _ _ (cleaned_insert a b c hc), ?_, ?_, ?_⟩
  · intro s
    rw [replaceAll_nil]
    exact parseNumber_congr _ _ (cleaned_idem s).symm
  · intro s
    rw [replaceAll_nil, replaceAll_nil]
    exact cleaned_idem s
  · intro s t h
    rw [replaceAll_nil, replaceAll_nil] at h
    exact parseNumber_congr s t h

theorem parseNumber_ignores_others_witness :
    (reNonNumeric '-' = true ∧ reNonNumeric 'e' = true) ∧
      parseNumber ("".toList ++ '-' :: "3.5".toList) = parseNumber ("".toList ++ "3.5".toList) ∧
      parseNumber "-3.5".toList = Float64.finite (7 / 2) ∧
      parseNumber ("1".toList ++ 'e' :: "5".toList) = parseNumber ("1".toList ++ "5".toList) ∧
      parseNumber "1e5".toList = Float64.finite 15 :=
  ⟨⟨by decide, by decide⟩,
    (parseNumber_ignores_others "".toList "3.5".toList '-' (by decide)).1,
    ((parseNumber_ignores_others "".toList "3.5".toList '-' (by decide)).1).trans (by decide!),
    (parseNumber_ignores_others "1".toList "5".toList 'e' (by decide)).1,
    ((parseNumber_ignores_others "1".toList "5".toList 'e' (by decide)).1).trans (by decide!)⟩

/-- C19: the empty fragment resolves to the first investor. For every
directory the parser produces that is not empty, the empty string (the only
fragment whose normalized form is empty) is not reported as not found: the
resolver selects the URL of the first investor. -/
theorem empty_fragment_first (U : UnicodeTables) (items : List ListItem) (inv : Investor)
    (rest : List Investor) (fragment : List Char)
    (hdir : investorsOfItems items = Except.ok (inv :: rest))
    (hf : normalized U fragment = []) :
    resolveInvestor U (inv :: rest) fragment = Except.ok inv.URL ∧
      resolveInvestor U (inv :: rest) [] = Except.ok inv.URL ∧
      resolveInvestor U (inv :: rest) fragment ≠ Except.error (notFound U fragment) ∧
      fragment = [] := by
  have hd := directory_of_items items _ hdir
  have hurl : inv.URL ≠ [] := url_ne_nil items inv (by rw [← hd]; simp)
  have hfe : fragment = [] := (normalized_eq_nil U fragment).mp hf
  have hm : Matches U fragment inv := by
    unfold Matches
    rw [hf]
    exact List.nil_infix
  have h1 := resolve_first U [] rest inv fragment (by simp) hm hurl
  rw [List.nil_append] at h1
  refine ⟨h1, ?_, ?_, hfe⟩
  · rw [← hfe]; exact h1
  · rw [h1]; simp

theorem empty_fragment_first_witness :
    (investorsOfItems [exItem2, exItem] = Except.ok (exInvestor2 :: [exInvestor]) ∧
      normalized exTables "".toList = []) ∧
    resolveInvestor exTables [exInvestor2, exInvestor] "".toList =
      Except.ok "https://www.dataroma.com/m/holdings.php?m=BRK".toList :=
  ⟨⟨by decide, by decide⟩,
    (empty_fragment_first exTables [exItem2, exItem] exInvestor2 [exInvestor] "".toList
      (by decide) (by decide)).1⟩

end Dataroma
